import Mathlib

/-!
# coreeng/semver-utils: the SemVer engine, the tag resolver and the commands

A shallow embedding of the Go packages `semver` (`pkg/semver/semver.go`) and
`git` (`pkg/git/git.go`) and of the commands of `cmd/semver` that the proofs
need, and proofs about them.

Conventions of the embedding.

* A Go `string` is modelled as the list of its characters (`Str`).  Every
  character test of the package is against ASCII characters, so a character
  outside ASCII behaves like any other rejected character.
* A Go `int` is modelled as an `Int` in the range of a 64-bit machine integer
  (`IsInt`); `strconv.Atoi` is modelled with its range check.
* The three regular expressions of the package are values of `Regex`, written
  down piece by piece from the pattern text, and run by a backtracking matcher
  (`matchR`) that yields the matches in the order of preference of Go's
  `regexp` package (leftmost first, greedy repetition, first alternative
  first).
* The repository of go-git is modelled by the answers it gives to the calls of
  the package (`Repository`); a run of a command by what it prints and its exit
  status (`Outcome`).
-/

namespace Semver

/-- A Go string, as the list of its characters. -/
abbrev Str := List Char

/-! ## Regular expressions (the fragment of `regexp` syntax the package uses) -/

/-- Regular expression syntax trees. -/
inductive Regex where
  /-- `^` (no multi-line flag): the beginning of the text. -/
  | bol : Regex
  /-- `$` (no multi-line flag): the end of the text. -/
  | eol : Regex
  /-- The empty expression. -/
  | empty : Regex
  /-- One character of a class, or a literal character. -/
  | cls : (Char → Bool) → Regex
  /-- Concatenation. -/
  | seq : Regex → Regex → Regex
  /-- Alternation `a|b`; the left alternative is preferred. -/
  | alt : Regex → Regex → Regex
  /-- Greedy repetition `a*`. -/
  | star : Regex → Regex
  /-- Named capturing group `(?P<name>a)`. -/
  | group : Str → Regex → Regex

/-- The values of the capturing groups, most recent first. -/
abbrev Caps := List (Str × Str)

/-- The text captured by the group `name`; the empty string when the group did
not take part in the match. -/
def submatch (c : Caps) (name : Str) : Str :=
  match c with
  | [] => []
  | (n, v) :: rest => if n = name then v else submatch rest name

/-- Greedy iteration of `step`: as many rounds as possible first, each round
consuming at least one character. -/
def starLoop (step : Str → Caps → List (Str × Caps)) :
    Nat → Str → Caps → List (Str × Caps)
  | 0, s, c => [(s, c)]
  | n + 1, s, c =>
    (((step s c).filter (fun r => decide (r.1.length < s.length))).flatMap
      (fun r => starLoop step n r.1 r.2)) ++ [(s, c)]

/-- All ways to match `r` at the front of `s`, a suffix of the text `t`, as
pairs of the remaining input and the updated captures, in order of preference. -/
def matchR (t : Str) : Regex → Str → Caps → List (Str × Caps)
  | .bol, s, c => if s.length = t.length then [(s, c)] else []
  | .eol, s, c => if s = [] then [(s, c)] else []
  | .empty, s, c => [(s, c)]
  | .cls p, s, c =>
    match s with
    | [] => []
    | x :: xs => if p x then [(xs, c)] else []
  | .seq a b, s, c => (matchR t a s c).flatMap (fun r => matchR t b r.1 r.2)
  | .alt a b, s, c => matchR t a s c ++ matchR t b s c
  | .star a, s, c => starLoop (matchR t a) s.length s c
  | .group name a, s, c =>
    (matchR t a s c).map
      (fun r => (r.1, (name, s.take (s.length - r.1.length)) :: r.2))

/-- The first match of `re` that starts at one of the offsets
`t.length - k, ..., t.length` of the text `t`. -/
def findFrom (re : Regex) (t : Str) : Nat → Option Caps
  | 0 => ((matchR t re [] []).head?).map (fun r => r.2)
  | k + 1 =>
    match (matchR t re (t.drop (t.length - (k + 1))) []).head? with
    | some r => some r.2
    | none => findFrom re t k

/-- Model of `(*Regexp).FindStringSubmatch`: the captures of the leftmost
match, `none` when there is no match. -/
def FindStringSubmatch (re : Regex) (t : Str) : Option Caps :=
  findFrom re t t.length

/-- Model of `(*Regexp).MatchString`. -/
def MatchString (re : Regex) (t : Str) : Bool :=
  (FindStringSubmatch re t).isSome

/-! ## The patterns of the package -/

/-- The literal character `ch`. -/
def lit (ch : Char) : Regex := .cls (fun c => c == ch)

/-- Membership in `[0-9]`. -/
def isDigitChar (c : Char) : Bool := decide ('0' ≤ c ∧ c ≤ '9')

/-- Membership in `[1-9]`. -/
def isDigit19 (c : Char) : Bool := decide ('1' ≤ c ∧ c ≤ '9')

/-- The class `\d`, which in Go is `[0-9]`. -/
def digit : Regex := .cls isDigitChar

/-- The class `[1-9]`. -/
def digit19 : Regex := .cls isDigit19

/-- Membership in `[a-zA-Z-]`. -/
def isLetterHyphen (c : Char) : Bool :=
  decide (('a' ≤ c ∧ c ≤ 'z') ∨ ('A' ≤ c ∧ c ≤ 'Z') ∨ c = '-')

/-- Membership in `[0-9a-zA-Z-]`. -/
def isAlnumHyphen (c : Char) : Bool :=
  decide (('0' ≤ c ∧ c ≤ '9') ∨ ('a' ≤ c ∧ c ≤ 'z') ∨ ('A' ≤ c ∧ c ≤ 'Z') ∨ c = '-')

/-- The expression `a?` (greedy). -/
def opt (a : Regex) : Regex := .alt a .empty

/-- The expression `a+` (greedy). -/
def plus (a : Regex) : Regex := .seq a (.star a)

/-- The expression `0|[1-9]\d*`. -/
def numericRe : Regex := .alt (lit '0') (.seq digit19 (.star digit))

/-- The expression `0|[1-9]\d*|\d*[a-zA-Z-][0-9a-zA-Z-]*`. -/
def preIdRe : Regex :=
  .alt (lit '0')
    (.alt (.seq digit19 (.star digit))
      (.seq (.star digit) (.seq (.cls isLetterHyphen) (.star (.cls isAlnumHyphen)))))

/-- The body of the `prerelease` group: one identifier, then `(?:\.identifier)*`. -/
def prereleaseRe : Regex := .seq preIdRe (.star (.seq (lit '.') preIdRe))

/-- The expression `[0-9a-zA-Z-]+`. -/
def buildIdRe : Regex := plus (.cls isAlnumHyphen)

/-- The body of the `buildmetadata` group: `[0-9a-zA-Z-]+(?:\.[0-9a-zA-Z-]+)*`. -/
def buildRe : Regex := .seq buildIdRe (.star (.seq (lit '.') buildIdRe))

/-- The pattern `FullPattern`. -/
def FullPattern : Regex :=
  .seq .bol
  (.seq (opt (lit 'v'))
  (.seq (.group "major".toList numericRe)
  (.seq (lit '.')
  (.seq (.group "minor".toList numericRe)
  (.seq (lit '.')
  (.seq (.group "patch".toList numericRe)
  (.seq (opt (.seq (lit '-') (.group "prerelease".toList prereleaseRe)))
  (.seq (opt (.seq (lit '+') (.group "buildmetadata".toList buildRe)))
  .eol))))))))

/-- The pattern `PrereleasePattern`. -/
def PrereleasePattern : Regex :=
  .seq .bol (.seq (opt (.group "prerelease".toList prereleaseRe)) .eol)

/-- The pattern `BuildmetadataPattern`. -/
def BuildmetadataPattern : Regex :=
  .seq .bol (.seq (opt (.group "buildmetadata".toList buildRe)) .eol)

/-! ## `strconv.Atoi` and `%d` (Go standard library) -/

/-- The largest value of a Go `int` (64 bits). -/
def maxInt : Int := 2 ^ 63 - 1

/-- The smallest value of a Go `int` (64 bits). -/
def minInt : Int := -(2 ^ 63)

/-- The values a Go `int` can hold. -/
def IsInt (x : Int) : Prop := minInt ≤ x ∧ x ≤ maxInt

instance (x : Int) : Decidable (IsInt x) := by
  unfold IsInt; exact inferInstance

/-- The number a sequence of decimal digits denotes. -/
def digitsVal (s : Str) : Nat :=
  s.foldl (fun n ch => n * 10 + (ch.toNat - '0'.toNat)) 0

/-- Model of `strconv.Atoi` (base 10, 64-bit `int`): the value and whether an
error is returned.  A string that is not an optional sign followed by one or
more digits gives `0` and a syntax error; a number outside the range of `int`
gives the nearest bound of the range and a range error. -/
def Atoi (s : Str) : Int × Bool :=
  let neg := s.head? = some '-'
  let ds := if s.head? = some '-' ∨ s.head? = some '+' then s.drop 1 else s
  if ds = [] ∨ ds.all isDigitChar = false then (0, true)
  else
    let n : Int := digitsVal ds
    if neg then
      if -n < minInt then (minInt, true) else (-n, false)
    else
      if maxInt < n then (maxInt, true) else (n, false)

/-- Model of the verb `%d` of `fmt.Sprintf` for an `int`. -/
def formatInt (x : Int) : Str :=
  if x < 0 then '-' :: Nat.toDigits 10 x.natAbs else Nat.toDigits 10 x.natAbs

/-! ## The package `semver` -/

/-- The struct `SemVer`. -/
structure SemVer where
  Major : Int
  Minor : Int
  Patch : Int
  PreRelease : Str
  BuildMetadata : Str
  deriving DecidableEq, Repr

/-- The zero value `SemVer{}`. -/
def SemVer.zero : SemVer :=
  { Major := 0, Minor := 0, Patch := 0, PreRelease := [], BuildMetadata := [] }

/-- A Go `error`: `none` is `nil`, `some msg` an error with message `msg`. -/
abbrev GoError := Option Str

/-- The link every error message of the package ends with. -/
def requirementsLink : Str :=
  ", please see the formatting requirements at: https://semver.org/#semantic-versioning-specification-semver".toList

/-- The function `Parse`. -/
def Parse (v : Str) : SemVer × GoError :=
  if !MatchString FullPattern v then
    (SemVer.zero,
      some ("unable to parse '".toList ++ v ++ "' as a Semantic Version".toList ++ requirementsLink))
  else
    let submatches := (FindStringSubmatch FullPattern v).getD []
    ({ Major := (Atoi (submatch submatches "major".toList)).1
       Minor := (Atoi (submatch submatches "minor".toList)).1
       Patch := (Atoi (submatch submatches "patch".toList)).1
       PreRelease := submatch submatches "prerelease".toList
       BuildMetadata := submatch submatches "buildmetadata".toList }, none)

/-- The function `isNumeric`. -/
def isNumeric : Str → Bool
  | [] => true
  | c :: cs => if c < '0' ∨ c > '9' then false else isNumeric cs

/-- Model of `strings.Split(s, sep)` for a separator of one character. -/
def Split : Str → Char → List Str
  | [], _ => [[]]
  | c :: cs, sep =>
    if c = sep then [] :: Split cs sep
    else
      match Split cs sep with
      | [] => [[c]]
      | h :: rest => (c :: h) :: rest

/-- The operator `<` of Go on strings: lexical order on the characters. -/
def strLess : Str → Str → Bool
  | [], [] => false
  | [], _ :: _ => true
  | _ :: _, [] => false
  | a :: as, b :: bs => if a < b then true else if b < a then false else strLess as bs

/-- The loop of `comparePreRelease` over the two identifier lists, from the
current index on, followed by the comparison of the lengths after the loop. -/
def compareIdentifiers : List Str → List Str → Int
  | lhsID :: lhsRest, rhsID :: rhsRest =>
    let lhsIsNumeric := isNumeric lhsID
    let rhsIsNumeric := isNumeric rhsID
    if lhsIsNumeric && !rhsIsNumeric then -1
    else if !lhsIsNumeric && rhsIsNumeric then 1
    else if lhsIsNumeric && rhsIsNumeric then
      let lhsNum := (Atoi lhsID).1
      let rhsNum := (Atoi rhsID).1
      if lhsNum < rhsNum then -1
      else if lhsNum > rhsNum then 1
      else compareIdentifiers lhsRest rhsRest
    else
      if strLess lhsID rhsID then -1
      else if strLess rhsID lhsID then 1
      else compareIdentifiers lhsRest rhsRest
  | [], _ :: _ => -1
  | _ :: _, [] => 1
  | [], [] => 0

/-- The function `comparePreRelease`. -/
def comparePreRelease (lhs rhs : Str) : Int :=
  if lhs = [] ∧ rhs = [] then 0
  else if lhs = [] then 1
  else if rhs = [] then -1
  else compareIdentifiers (Split lhs '.') (Split rhs '.')

/-- The method `SemVer.Compare`. -/
def SemVer.Compare (v rhs : SemVer) : Int :=
  if v.Major < rhs.Major then -1
  else if v.Major > rhs.Major then 1
  else if v.Minor < rhs.Minor then -1
  else if v.Minor > rhs.Minor then 1
  else if v.Patch < rhs.Patch then -1
  else if v.Patch > rhs.Patch then 1
  else
    let preReleaseComparison := comparePreRelease v.PreRelease rhs.PreRelease
    if preReleaseComparison ≠ 0 then preReleaseComparison
    else 0

/-- The method `SemVer.String`. -/
def SemVer.String (v : SemVer) : Str :=
  let result := formatInt v.Major ++ '.' :: formatInt v.Minor ++ '.' :: formatInt v.Patch
  let result := if v.PreRelease ≠ [] then result ++ '-' :: v.PreRelease else result
  let result := if v.BuildMetadata ≠ [] then result ++ '+' :: v.BuildMetadata else result
  result

/-- The result of an arithmetic operation on `int`s whose exact value is `x`:
Go's `int` arithmetic wraps around in 64 bits. -/
def wrapInt (x : Int) : Int := (x + 2 ^ 63) % 2 ^ 64 - 2 ^ 63

/-- The method `SemVer.BumpMajor`. -/
def SemVer.BumpMajor (v : SemVer) : SemVer :=
  { Major := wrapInt (v.Major + 1), Minor := 0, Patch := 0, PreRelease := [],
    BuildMetadata := [] }

/-- The method `SemVer.BumpMinor`. -/
def SemVer.BumpMinor (v : SemVer) : SemVer :=
  { Major := v.Major, Minor := wrapInt (v.Minor + 1), Patch := 0, PreRelease := [],
    BuildMetadata := [] }

/-- The method `SemVer.BumpPatch`. -/
def SemVer.BumpPatch (v : SemVer) : SemVer :=
  { Major := v.Major, Minor := v.Minor, Patch := wrapInt (v.Patch + 1), PreRelease := [],
    BuildMetadata := [] }

/-- The method `SemVer.SetPreRelease`. -/
def SemVer.SetPreRelease (v : SemVer) (preRelease : Str) : SemVer × GoError :=
  if !MatchString PrereleasePattern preRelease && preRelease != [] then
    (SemVer.zero,
      some ("unable to set '".toList ++ preRelease ++ "' as a PreRelease".toList ++
        requirementsLink))
  else
    ({ Major := v.Major, Minor := v.Minor, Patch := v.Patch, PreRelease := preRelease,
       BuildMetadata := v.BuildMetadata }, none)

/-- The method `SemVer.SetBuildMetadata`. -/
def SemVer.SetBuildMetadata (v : SemVer) (buildMetadata : Str) : SemVer × GoError :=
  if !MatchString BuildmetadataPattern buildMetadata && buildMetadata != [] then
    (SemVer.zero,
      some ("unable to set '".toList ++ buildMetadata ++ "' as a BuildMetadata".toList ++
        requirementsLink))
  else
    ({ Major := v.Major, Minor := v.Minor, Patch := v.Patch, PreRelease := v.PreRelease,
       BuildMetadata := buildMetadata }, none)

/-! ## The package `git` (`pkg/git/git.go`)

The repository of go-git is a collaborator of the package: it is modelled by
the answers it gives to the calls the package makes. -/

/-- A `plumbing.Hash`. -/
abbrev Hash := Nat

/-- An `object.Signature`; `When` is the instant it holds, as a number. -/
structure Signature where
  Name : Str
  Email : Str
  When : Int
  deriving DecidableEq, Repr

/-- The fields of an `object.Commit` that the package reads. -/
structure Commit where
  Hash : Hash
  Committer : Signature
  deriving DecidableEq, Repr

/-- A tag reference: `Name` is `ref.Name().String()`, `Short` is
`ref.Name().Short()`. -/
structure Reference where
  Name : Str
  Short : Str
  deriving DecidableEq, Repr

/-- The struct `git.CreateTagOptions`, with the fields the package sets. -/
structure CreateTagOptions where
  Tagger : Signature
  Message : Str
  deriving DecidableEq, Repr

/-- What the iterator returned by `repo.Tags()` delivers to `ForEach`: the
references, and the error that ends the iteration if there is one. -/
structure TagIter where
  refs : List Reference
  failure : GoError

/-- A `git.Repository`, by the results of the methods the package calls:
`Head` gives the hash of `HEAD`, `TagObject` the target of an annotated tag
object, `CreateTag` the error of a tag creation. -/
structure Repository where
  Head : Except Str Hash
  ResolveRevision : Str → Except Str Hash
  CommitObject : Hash → Except Str Commit
  TagObject : Hash → Except Str Hash
  Tags : Except Str TagIter
  CreateTag : Str → Hash → Option CreateTagOptions → GoError

/-- The method `Time.After`. -/
def After (t u : Int) : Bool := decide (u < t)

/-- The function `strings.HasPrefix`. -/
def HasPrefix (s p : Str) : Bool := p.isPrefixOf s

/-- The function `strings.TrimPrefix`. -/
def TrimPrefix (s p : Str) : Str := if HasPrefix s p then s.drop p.length else s

/-- The function `FetchCommitObject`. -/
def FetchCommitObject (repo : Repository) (gitRef : Str) : Option Commit × GoError :=
  let resolved : Except Str Hash :=
    if gitRef = "HEAD".toList then
      match repo.Head with
      | .error err => .error ("failed to resolve HEAD: ".toList ++ err)
      | .ok headRef => .ok headRef
    else
      match repo.ResolveRevision gitRef with
      | .error err =>
        .error ("failed to resolve git ref '".toList ++ gitRef ++ "': ".toList ++ err)
      | .ok hashPtr => .ok hashPtr
  match resolved with
  | .error msg => (none, some msg)
  | .ok hash =>
    match repo.CommitObject hash with
    | .ok commit => (some commit, none)
    | .error _ =>
      match repo.TagObject hash with
      | .error err => (none, some ("failed to fetch commit object: ".toList ++ err))
      | .ok target =>
        match repo.CommitObject target with
        | .error err =>
          (none, some ("failed to fetch commit object from annotated tag: ".toList ++ err))
        | .ok commit => (some commit, none)

/-- The variables `foundTag`, `foundVersion` and `foundCommit` of
`FetchVersionTag`. -/
structure Found where
  foundTag : Str
  foundVersion : SemVer
  foundCommit : Option Commit
  deriving DecidableEq, Repr

/-- The map `commitCache` of `FetchVersionTag`. -/
abbrev CommitCache := List (Str × Commit)

/-- The lookup `commitCache[refStr]`. -/
def cacheGet (cache : CommitCache) (refStr : Str) : Option Commit :=
  match cache with
  | [] => none
  | (k, c) :: rest => if k = refStr then some c else cacheGet rest refStr

/-- The end of the callback of `FetchVersionTag`, from `if exactCommit` on: the
candidate replaces what was found, or not. -/
def selectCandidate (targetCommit : Commit) (exactCommit : Bool) (found : Found)
    (candidateTagName : Str) (candidateVersion : SemVer) (candidateCommit : Commit) : Found :=
  let targetTime := targetCommit.Committer.When
  if exactCommit then
    if candidateCommit.Hash ≠ targetCommit.Hash then found
    else if found.foundCommit = none ∨ candidateVersion.Compare found.foundVersion > 0 then
      { foundCommit := some candidateCommit, foundTag := candidateTagName,
        foundVersion := candidateVersion }
    else found
  else
    if After candidateCommit.Committer.When targetTime then found
    else
      match found.foundCommit with
      | none =>
        { foundCommit := some candidateCommit, foundTag := candidateTagName,
          foundVersion := candidateVersion }
      | some foundCommit =>
        if After candidateCommit.Committer.When foundCommit.Committer.When then
          { foundCommit := some candidateCommit, foundTag := candidateTagName,
            foundVersion := candidateVersion }
        else if candidateCommit.Hash = foundCommit.Hash ∧
            candidateVersion.Compare found.foundVersion > 0 then
          { found with foundTag := candidateTagName, foundVersion := candidateVersion }
        else found

/-- The callback that `FetchVersionTag` passes to `tags.ForEach`: the new values
of the captured variables and the error it returns.  (`FetchCommitObject` never
returns a nil commit without an error; the model skips the tag there.) -/
def visitTag (repo : Repository) (targetCommit : Commit) (pfx : Str) (exactCommit : Bool)
    (st : CommitCache × Found) (ref : Reference) : (CommitCache × Found) × GoError :=
  let candidateTagName := ref.Short
  if pfx ≠ [] ∧ HasPrefix candidateTagName (pfx ++ ['/']) = false then (st, none)
  else
    let versionString :=
      if pfx ≠ [] then TrimPrefix candidateTagName (pfx ++ ['/']) else candidateTagName
    if MatchString FullPattern versionString = false then (st, none)
    else
      let parsed := Parse versionString
      if parsed.2 ≠ none then (st, none)
      else
        let candidateVersion := parsed.1
        let refStr := ref.Name
        match cacheGet st.1 refStr with
        | some cached =>
          ((st.1, selectCandidate targetCommit exactCommit st.2 candidateTagName
            candidateVersion cached), none)
        | none =>
          match FetchCommitObject repo refStr with
          | (_, some _) => (st, none)
          | (none, none) => (st, none)
          | (some candidateCommit, none) =>
            (((refStr, candidateCommit) :: st.1,
              selectCandidate targetCommit exactCommit st.2 candidateTagName
                candidateVersion candidateCommit), none)

/-- The method `ForEach` of the tag iterator: the callback runs on the
references in turn; its first error stops the iteration and is returned, and
otherwise the error of the iteration itself is. -/
def ForEach {σ : Type} (cb : σ → Reference → σ × GoError) (failure : GoError) :
    List Reference → σ → σ × GoError
  | [], st => (st, failure)
  | ref :: rest, st =>
    match cb st ref with
    | (st', none) => ForEach cb failure rest st'
    | (st', some err) => (st', some err)

/-- The function `FetchVersionTag`. -/
def FetchVersionTag (repo : Repository) (targetCommit : Commit) (pfx : Str)
    (exactCommit : Bool) : Str × SemVer × Option Commit × GoError :=
  match repo.Tags with
  | .error err => ([], SemVer.zero, none, some ("failed to retrieve tags: ".toList ++ err))
  | .ok tags =>
    let init : CommitCache × Found :=
      ([], { foundTag := [], foundVersion := SemVer.zero, foundCommit := none })
    let (st, err) := ForEach (visitTag repo targetCommit pfx exactCommit) tags.failure
      tags.refs init
    if err ≠ none then ([], SemVer.zero, none, err)
    else (st.2.foundTag, st.2.foundVersion, st.2.foundCommit, none)

/-- A call of `repo.CreateTag`. -/
structure CreateTagCall where
  name : Str
  hash : Hash
  opts : Option CreateTagOptions
  deriving DecidableEq, Repr

/-- The function `CreateVersionTag`: what it returns, and the calls of
`repo.CreateTag` it makes. -/
def CreateVersionTag (repo : Repository) (targetCommit : Commit) (version : SemVer)
    (pfx : Str) (annotated : Bool) : (Str × GoError) × List CreateTagCall :=
  let newTagName := 'v' :: version.String
  let newTagName := if pfx ≠ [] then pfx ++ '/' :: newTagName else newTagName
  let tagOpts : Option CreateTagOptions :=
    if annotated then
      some { Message := "Version ".toList ++ version.String, Tagger := targetCommit.Committer }
    else none
  match repo.CreateTag newTagName targetCommit.Hash tagOpts with
  | some err =>
    (([], some ("failed to create tag: ".toList ++ err)),
      [{ name := newTagName, hash := targetCommit.Hash, opts := tagOpts }])
  | none =>
    ((newTagName, none), [{ name := newTagName, hash := targetCommit.Hash, opts := tagOpts }])

/-! ## The command line (`internal/cli/helpers.go` and `cmd/semver`)

A command ends with an exit status; `os.Exit` ends the run at once. -/

/-- How a run of a command ends: the text it has written to the standard output
and its exit status.  The text written to the standard error is left out. -/
structure Outcome where
  stdout : Str
  exit : Nat
  deriving DecidableEq, Repr

set_option linter.unusedVariables false

/-- The function `ParseOrExit`: the parsed Version, or the end of the run with the
exit status `2` when `Parse` fails (`cmdName` and `argName` go into the message
on the standard error only). -/
def ParseOrExit (cmdName argName versionStr : Str) : Except Outcome SemVer :=
  match Parse versionStr with
  | (_, some _) => .error { stdout := [], exit := 2 }
  | (v, none) => .ok v

set_option linter.unusedVariables true

/-- The function `CompareOrExit`: the exit status is `0` when the comparison
holds, `1` when it does not, `2` on an error. -/
def CompareOrExit (cmdName : Str) (args : List Str) (cmp : SemVer → SemVer → Bool) : Outcome :=
  if args.length ≠ 2 then { stdout := [], exit := 2 }
  else
    match ParseOrExit cmdName "version1".toList (args.getD 0 []) with
    | .error out => out
    | .ok v1 =>
      match ParseOrExit cmdName "version2".toList (args.getD 1 []) with
      | .error out => out
      | .ok v2 =>
        if cmp v1 v2 then { stdout := [], exit := 0 } else { stdout := [], exit := 1 }

/-- The `Run` function of the command `compareEqCmd` (`semver compare eq`). -/
def compareEqCmd (args : List Str) : Outcome :=
  CompareOrExit "compare eq".toList args (fun v1 v2 => decide (v1.Compare v2 = 0))

/-- The `Run` function of the command `setMajorCmd` (`semver set major`), on the
positional arguments that cobra hands to it once it has taken the flags out of
the command line; `cobra.ExactArgs(2)` lets it run with two arguments only.  A
word that starts with `-` is an argument only after `--`: the arguments are
`1.2.3` and `-5` for the command line `semver set major -- 1.2.3 -5`. -/
def setMajorCmd (args : List Str) : Outcome :=
  match ParseOrExit "set major".toList "version".toList (args.getD 0 []) with
  | .error out => out
  | .ok v =>
    let (newMajor, err) := Atoi (args.getD 1 [])
    if err then { stdout := [], exit := 1 }
    else
      let updated : SemVer :=
        { Major := newMajor, Minor := v.Minor, Patch := v.Patch,
          PreRelease := v.PreRelease, BuildMetadata := v.BuildMetadata }
      { stdout := updated.String ++ ['\n'], exit := 0 }

/-- The `Run` function of the command `setMinorCmd` (`semver set minor`). -/
def setMinorCmd (args : List Str) : Outcome :=
  match ParseOrExit "set minor".toList "version".toList (args.getD 0 []) with
  | .error out => out
  | .ok v =>
    let (newMinor, err) := Atoi (args.getD 1 [])
    if err then { stdout := [], exit := 1 }
    else
      let updated : SemVer :=
        { Major := v.Major, Minor := newMinor, Patch := v.Patch,
          PreRelease := v.PreRelease, BuildMetadata := v.BuildMetadata }
      { stdout := updated.String ++ ['\n'], exit := 0 }

/-- The `Run` function of the command `setPatchCmd` (`semver set patch`). -/
def setPatchCmd (args : List Str) : Outcome :=
  match ParseOrExit "set patch".toList "version".toList (args.getD 0 []) with
  | .error out => out
  | .ok v =>
    let (newPatch, err) := Atoi (args.getD 1 [])
    if err then { stdout := [], exit := 1 }
    else
      let updated : SemVer :=
        { Major := v.Major, Minor := v.Minor, Patch := newPatch,
          PreRelease := v.PreRelease, BuildMetadata := v.BuildMetadata }
      { stdout := updated.String ++ ['\n'], exit := 0 }

/-! ## The grammar and the order, in the words of the specification -/

/-- A numeric identifier: `"0"`, or a non-empty digit string that does not
start with `'0'`. -/
def isNumericIdent : Str → Bool
  | [] => false
  | c :: cs => (c == '0' && cs == []) || (c != '0' && (c :: cs).all isDigitChar)

/-- An alphanumeric identifier: a non-empty string over `[0-9A-Za-z-]` with at
least one letter or hyphen. -/
def isAlnumIdent (l : Str) : Bool :=
  l != [] && l.all isAlnumHyphen && l.any isLetterHyphen

/-- A prerelease identifier: numeric or alphanumeric. -/
def isPrereleaseIdent (l : Str) : Bool := isNumericIdent l || isAlnumIdent l

/-- A build-metadata identifier: a non-empty string over `[0-9A-Za-z-]`. -/
def isBuildIdent (l : Str) : Bool := l != [] && l.all isAlnumHyphen

/-- The identifiers `ids`, separated by `'.'`. -/
def joinDots : List Str → Str
  | [] => []
  | [x] => x
  | x :: y :: rest => x ++ '.' :: joinDots (y :: rest)

/-- The prerelease grammar: one or more prerelease identifiers separated by `'.'`. -/
def ValidPrerelease (p : Str) : Prop :=
  ∃ ids : List Str, ids ≠ [] ∧ (∀ id ∈ ids, isPrereleaseIdent id = true) ∧ p = joinDots ids

/-- The build-metadata grammar: one or more build identifiers separated by `'.'`. -/
def ValidBuild (b : Str) : Prop :=
  ∃ ids : List Str, ids ≠ [] ∧ (∀ id ∈ ids, isBuildIdent id = true) ∧ b = joinDots ids

/-- The form `[v]MAJOR.MINOR.PATCH[-PRERELEASE][+BUILD]`. -/
def IsVersionString (s : Str) : Prop :=
  ∃ v major minor patch pre build : Str,
    (v = [] ∨ v = ['v']) ∧
    isNumericIdent major = true ∧ isNumericIdent minor = true ∧ isNumericIdent patch = true ∧
    (pre = [] ∨ ∃ p, ValidPrerelease p ∧ pre = '-' :: p) ∧
    (build = [] ∨ ∃ b, ValidBuild b ∧ build = '+' :: b) ∧
    s = v ++ major ++ '.' :: minor ++ '.' :: patch ++ pre ++ build

/-- A valid Version: the numeric fields are non-negative values of `int`, the
prerelease is empty or follows the prerelease grammar, the build metadata is
empty or follows the build-metadata grammar. -/
def SemVer.Valid (v : SemVer) : Prop :=
  (0 ≤ v.Major ∧ v.Major ≤ maxInt) ∧ (0 ≤ v.Minor ∧ v.Minor ≤ maxInt) ∧
  (0 ≤ v.Patch ∧ v.Patch ≤ maxInt) ∧
  (v.PreRelease = [] ∨ ValidPrerelease v.PreRelease) ∧
  (v.BuildMetadata = [] ∨ ValidBuild v.BuildMetadata)

/-- The (major, minor, patch) triple of `a` is lexicographically below that of `b`. -/
def SemVer.coreLt (a b : SemVer) : Prop :=
  a.Major < b.Major ∨ (a.Major = b.Major ∧ (a.Minor < b.Minor ∨
    (a.Minor = b.Minor ∧ a.Patch < b.Patch)))

instance (a b : SemVer) : Decidable (a.coreLt b) := by
  unfold SemVer.coreLt; exact inferInstance

/-- The text of an optional segment introduced by `sep`: nothing when `body` is
empty, `sep` followed by `body` otherwise. -/
def segment (sep : Char) (body : Str) : Str := if body = [] then [] else sep :: body

/-- The string `s` is a version string with the optional prefix `v`, the numeric
core `major`, `minor`, `patch`, the prerelease `pre` and the build metadata
`build` (each of the last two empty when the segment is absent). -/
def HasParts (s v major minor patch pre build : Str) : Prop :=
  (v = [] ∨ v = ['v']) ∧
  isNumericIdent major = true ∧ isNumericIdent minor = true ∧ isNumericIdent patch = true ∧
  (pre = [] ∨ ValidPrerelease pre) ∧ (build = [] ∨ ValidBuild build) ∧
  s = v ++ (major ++ '.' :: (minor ++ '.' :: (patch ++ (segment '-' pre ++ segment '+' build))))

/-- The expression `r` strips exactly the words of `L` from the front of its
input, and leaves the captures as they are. -/
def Recognises (r : Regex) (L : Str → Prop) : Prop :=
  ∀ (t s : Str) (c : Caps) (x : Str × Caps),
    x ∈ matchR t r s c ↔ ∃ l, L l ∧ s = l ++ x.1 ∧ x.2 = c

/-- The string `l` is the decimal numeral of `x`: a numeric identifier (no
leading zero) that denotes the absolute value of `x`, after a `'-'` when `x` is
negative. -/
def IsDecimalOf (x : Int) (l : Str) : Prop :=
  ∃ ds : Str, isNumericIdent ds = true ∧ digitsVal ds = x.natAbs ∧
    l = if x < 0 then '-' :: ds else ds

/-- The part of `s` before its first `'-'` or `'+'`: the numeric core, with the
optional prefix. -/
def coreOf (s : Str) : Str := s.takeWhile (fun c => c != '-' && c != '+')

/-- The prerelease segment of `s`: when the core is followed by `'-'`, what
stands between that `'-'` and the first `'+'` after it (or the end). -/
def prereleaseSegment (s : Str) : Option Str :=
  match s.dropWhile (fun c => c != '-' && c != '+') with
  | [] => none
  | c :: r => if c = '-' then some (r.takeWhile (fun c => c != '+')) else none

/-- The build-metadata segment of `s`: what follows the first `'+'`, if there is one. -/
def buildSegment (s : Str) : Option Str :=
  match s.dropWhile (fun c => c != '+') with
  | [] => none
  | _ :: b => some b

/-- The segment `p` has an empty identifier: it is empty, starts with `'.'`, ends
with `'.'` or contains `".."`. -/
def HasEmptyIdentifier (p : Str) : Prop :=
  p = [] ∨ (∃ r, p = '.' :: r) ∨ (∃ q, p = q ++ ['.']) ∨ (∃ a b, p = a ++ '.' :: '.' :: b)

/-- The identifier `x` is below `y` in the loop of `comparePreRelease`: a numeric
identifier against a non-numeric one, two numeric ones by the numbers `Atoi`
returns, two non-numeric ones by the string order. -/
def idLt (x y : Str) : Prop :=
  (isNumeric x = true ∧ isNumeric y = false) ∨
  (isNumeric x = true ∧ isNumeric y = true ∧ (Atoi x).1 < (Atoi y).1) ∨
  (isNumeric x = false ∧ isNumeric y = false ∧ strLess x y = true)

/-- The loop of `comparePreRelease` goes on after the identifiers `x` and `y`. -/
def idEq (x y : Str) : Prop :=
  (isNumeric x = true ∧ isNumeric y = true ∧ (Atoi x).1 = (Atoi y).1) ∨
  (isNumeric x = false ∧ isNumeric y = false ∧ x = y)

/-- Every numeric identifier of the prerelease `p` denotes a number that fits an
`int`. -/
def NumbersFitInt (p : Str) : Prop :=
  ∀ id ∈ Split p '.', isNumeric id = true → (digitsVal id : Int) ≤ maxInt

/-- The Version `r` is valid and formatting then parsing returns it. -/
def SemVer.Stable (r : SemVer) : Prop := r.Valid ∧ Parse r.String = (r, none)

/-- The version string of a tag with the short name `short` under the prefix
`pfx`: the whole name when `pfx` is empty, what follows `pfx + "/"` when the
name starts with it, and none otherwise. -/
def versionStringOf (pfx short : Str) : Option Str :=
  if pfx = [] then some short
  else if (pfx ++ ['/']).isPrefixOf short then some (short.drop (pfx.length + 1))
  else none

/-- The Version of a tag that passes the prefix and grammar filter: what `Parse`
returns for its version string, when `Parse` accepts it. -/
def candidateVersion (pfx : Str) (ref : Reference) : Option SemVer :=
  match versionStringOf pfx ref.Short with
  | none => none
  | some s => if (Parse s).2 = none then some (Parse s).1 else none

/-- The commit that a tag resolves to, when it resolves. -/
def tagCommit (repo : Repository) (ref : Reference) : Option Commit :=
  match FetchCommitObject repo ref.Name with
  | (some c, none) => some c
  | _ => none

/-- The Version and the commit of a qualifying tag: the tag passes the prefix
and grammar filter, its commit resolves, and in exact mode the hash of that
commit is the hash of the target, in nearest mode its committer time is not
after the target's. -/
def qualifying (repo : Repository) (targetCommit : Commit) (pfx : Str) (exactCommit : Bool)
    (ref : Reference) : Option (SemVer × Commit) :=
  match candidateVersion pfx ref, tagCommit repo ref with
  | some v, some c =>
    if exactCommit then
      if c.Hash = targetCommit.Hash then some (v, c) else none
    else
      if c.Committer.When ≤ targetCommit.Committer.When then some (v, c) else none
  | _, _ => none

/-- What one tag does to the variables `foundTag`, `foundVersion` and
`foundCommit`. -/
def stepTag (repo : Repository) (targetCommit : Commit) (pfx : Str) (exactCommit : Bool)
    (found : Found) (ref : Reference) : Found :=
  match candidateVersion pfx ref, tagCommit repo ref with
  | some v, some c => selectCandidate targetCommit exactCommit found ref.Short v c
  | _, _ => found

/-- Every entry of the cache is what `FetchCommitObject` returns for its key. -/
def CacheOk (repo : Repository) (cache : CommitCache) : Prop :=
  ∀ k c, cacheGet cache k = some c → FetchCommitObject repo k = (some c, none)

/-- The initial values of `foundTag`, `foundVersion` and `foundCommit`. -/
def Found.init : Found := { foundTag := [], foundVersion := SemVer.zero, foundCommit := none }

/-- The three variables at the end of the enumeration of `refs`. -/
def foundAfter (repo : Repository) (targetCommit : Commit) (pfx : Str) (exactCommit : Bool)
    (refs : List Reference) : Found :=
  refs.foldl (stepTag repo targetCommit pfx exactCommit) Found.init

/-- The repository with the tags of `repo` that satisfy `p`, in the same order,
and everything else as in `repo`. -/
def filterTags (repo : Repository) (p : Reference → Bool) : Repository :=
  { repo with
    Tags := match repo.Tags with
      | .ok tags => .ok { refs := tags.refs.filter p, failure := tags.failure }
      | .error err => .error err }

/-- The tag is a candidate for the prefix `pfx`: with an empty prefix `Parse`
accepts its whole short name, with a non-empty prefix the short name starts with
`pfx + "/"` and `Parse` accepts what follows. -/
def IsCandidate (pfx : Str) (ref : Reference) : Prop :=
  (pfx = [] ∧ (Parse ref.Short).2 = none) ∨
  (pfx ≠ [] ∧ ∃ rest, ref.Short = pfx ++ '/' :: rest ∧ (Parse rest).2 = none)

/-- The tag reference of the tag named `short`. -/
def tagRef (short : Str) : Reference := { Name := "refs/tags/".toList ++ short, Short := short }

/-- The commit number `n` of the example repository, committed at time `100 * n`. -/
def exampleCommit (n : Nat) : Commit :=
  { Hash := n,
    Committer := { Name := "test".toList, Email := "test@example.com".toList, When := 100 * n } }

/-- The tags of the example repository with the hashes they point to, in the
order of enumeration: lightweight tags on the commits `1` to `5`, the annotated
tag `annotated-tag` whose tag object `33` points to commit `3`, and the tag
`v9.9.9` that points to the missing object `99`. -/
def exampleTags : List (Str × Hash) :=
  [("first".toList, 1), ("v1.0.0".toList, 3), ("annotated-tag".toList, 33),
   ("release/v1.0.0".toList, 4), ("v1.4.0-alpha.1".toList, 5),
   ("prefixed/v1.0.0".toList, 5), ("non-semver-tag".toList, 5),
   ("pre/non-semver".toList, 5), ("v1.4.0-alpha.1+b2".toList, 5),
   ("v1.2.0".toList, 5), ("v9.9.9".toList, 99)]

/-- An example repository: five commits in a line, and the tags `exampleTags`. -/
def exampleRepo : Repository where
  Head := .ok 5
  ResolveRevision := fun rev =>
    match exampleTags.find? (fun t => "refs/tags/".toList ++ t.1 == rev) with
    | some t => .ok t.2
    | none => .error "reference not found".toList
  CommitObject := fun h =>
    if 1 ≤ h ∧ h ≤ 5 then .ok (exampleCommit h) else .error "object not found".toList
  TagObject := fun h => if h = 33 then .ok 3 else .error "object not found".toList
  Tags := .ok { refs := exampleTags.map (fun t => tagRef t.1), failure := none }
  CreateTag := fun name _ _ =>
    if exampleTags.any (fun t => t.1 == name) then some "tag already exists".toList else none

/-- A repository whose tags cannot be enumerated. -/
def brokenRepo : Repository :=
  { exampleRepo with Tags := .error "permission denied".toList }

/-- The object store of the repository is consistent: the commit stored under a
hash carries that hash. -/
def Repository.Consistent (repo : Repository) : Prop :=
  ∀ h c, repo.CommitObject h = .ok c → c.Hash = h

/-- The hash that the reference `gitRef` resolves to: the hash of `HEAD` for the
name `HEAD`, what `ResolveRevision` gives for any other name. -/
def resolveRef (repo : Repository) (gitRef : Str) : Except Str Hash :=
  if gitRef = "HEAD".toList then repo.Head else repo.ResolveRevision gitRef

/-- The example repository with the tags `names` instead of its own, in that
order of enumeration and all on the commit `5`. -/
def taggedAtFive (names : List Str) : Repository :=
  { exampleRepo with
    ResolveRevision := fun rev =>
      if names.any (fun n => "refs/tags/".toList ++ n == rev) then .ok 5
      else .error "reference not found".toList
    Tags := .ok { refs := names.map tagRef, failure := none } }

/-- The repository `repo` with the tags `refs`, enumerated in that order, and
everything else as in `repo`. -/
def withTags (repo : Repository) (refs : List Reference) : Repository :=
  { repo with Tags := .ok { refs := refs, failure := none } }

/-! ## Comparison -/

/-- C3: when the (major, minor, patch) triples differ, `Compare` is `-1` if the
receiver's triple is lexicographically smaller and `1` if it is larger,
whatever the prereleases and build metadata are. -/
theorem compare_core (a b : SemVer) :
    (a.coreLt b → a.Compare b = -1) ∧ (b.coreLt a → a.Compare b = 1) := by
  unfold SemVer.coreLt SemVer.Compare
  constructor
  · intro h
    rcases h with h | ⟨h1, h | ⟨h2, h3⟩⟩
    · simp [h]
    · have : ¬ b.Minor < b.Minor := lt_irrefl _
      simp [h1, h]
    · simp [h1, h2, h3]
  · intro h
    rcases h with h | ⟨h1, h | ⟨h2, h3⟩⟩
    · have : ¬ a.Major < b.Major := not_lt.mpr (le_of_lt h)
      simp [this, h]
    · have : ¬ a.Minor < b.Minor := not_lt.mpr (le_of_lt h)
      simp [h1, this, h]
    · have : ¬ a.Patch < b.Patch := not_lt.mpr (le_of_lt h3)
      simp [h1, h2, this, h3]

/-- C3 at `1.2.3-alpha` against `1.3.0` and back. -/
theorem compare_core_witness :
    ((⟨1, 2, 3, "alpha".toList, []⟩ : SemVer).coreLt ⟨1, 3, 0, [], "x".toList⟩ ∧
      (⟨1, 2, 3, "alpha".toList, []⟩ : SemVer).Compare ⟨1, 3, 0, [], "x".toList⟩ = -1) ∧
    ((⟨1, 2, 3, "alpha".toList, []⟩ : SemVer).coreLt ⟨1, 3, 0, [], "x".toList⟩ ∧
      (⟨1, 3, 0, [], "x".toList⟩ : SemVer).Compare ⟨1, 2, 3, "alpha".toList, []⟩ = 1) :=
  ⟨⟨by decide, (compare_core _ _).1 (by decide)⟩, ⟨by decide, (compare_core _ _).2 (by decide)⟩⟩

/-! ### Facts about the string order and the identifier loop -/

theorem strLess_irrefl (x : Str) : strLess x x = false := by
  induction x with
  | nil => rfl
  | cons a as ih => simp [strLess, ih]

theorem strLess_asymm : ∀ x y : Str, strLess x y = true → strLess y x = false
  | [], [] => by simp [strLess]
  | [], _ :: _ => by simp [strLess]
  | _ :: _, [] => by simp [strLess]
  | a :: as, b :: bs => by
    intro h
    simp only [strLess] at h ⊢
    by_cases hab : a < b
    · have hba : ¬ b < a := not_lt.mpr (le_of_lt hab)
      simp [hba, hab]
    · by_cases hba : b < a
      · simp [hab, hba] at h
      · simp only [hab, hba, if_false] at h ⊢
        exact strLess_asymm as bs h

theorem strLess_total : ∀ x y : Str, x ≠ y → strLess x y = true ∨ strLess y x = true
  | [], [] => by simp
  | [], _ :: _ => by simp [strLess]
  | _ :: _, [] => by simp [strLess]
  | a :: as, b :: bs => by
    intro h
    simp only [strLess]
    by_cases hab : a < b
    · simp [hab]
    · by_cases hba : b < a
      · simp [hba]
      · have hEq : a = b := le_antisymm (not_lt.mp hba) (not_lt.mp hab)
        subst hEq
        have hne : as ≠ bs := fun e => h (by rw [e])
        simpa [hab] using strLess_total as bs hne

theorem Split_ne_nil (s : Str) (sep : Char) : Split s sep ≠ [] := by
  induction s with
  | nil => simp [Split]
  | cons c cs ih =>
    unfold Split
    split
    · simp
    · split <;> simp

/-- Equal identifiers at the front of both lists are skipped by the loop. -/
theorem compareIdentifiers_cons_same (x : Str) (l r : List Str) :
    compareIdentifiers (x :: l) (x :: r) = compareIdentifiers l r := by
  rw [compareIdentifiers]
  cases h : isNumeric x <;> simp [strLess_irrefl]

theorem compareIdentifiers_append_same (pre l r : List Str) :
    compareIdentifiers (pre ++ l) (pre ++ r) = compareIdentifiers l r := by
  induction pre with
  | nil => rfl
  | cons x xs ih => simpa [compareIdentifiers_cons_same] using ih

theorem compareIdentifiers_antisymm :
    ∀ l r : List Str, compareIdentifiers l r = -compareIdentifiers r l
  | [], [] => by simp [compareIdentifiers]
  | [], _ :: _ => by simp [compareIdentifiers]
  | _ :: _, [] => by simp [compareIdentifiers]
  | x :: l, y :: r => by
    have ih := compareIdentifiers_antisymm l r
    unfold compareIdentifiers
    cases hx : isNumeric x <;> cases hy : isNumeric y <;> simp only [Bool.and_true,
      Bool.and_false, Bool.not_true, Bool.not_false, Bool.false_and, Bool.true_and,
      if_true, if_false, Bool.false_eq_true, neg_neg]
    · by_cases hxy : strLess x y = true
      · have := strLess_asymm x y hxy
        simp [hxy, this]
      · by_cases hyx : strLess y x = true
        · simp [hxy, hyx]
        · simp [hxy, hyx, ih]
    · rcases lt_trichotomy (Atoi x).1 (Atoi y).1 with h | h | h
      · have h2 : ¬ (Atoi y).1 < (Atoi x).1 := not_lt.mpr (le_of_lt h)
        simp [h, h2]
      · simp [h, ih]
      · have h2 : ¬ (Atoi x).1 < (Atoi y).1 := not_lt.mpr (le_of_lt h)
        simp [h, h2]

theorem comparePreRelease_antisymm (p q : Str) :
    comparePreRelease p q = -comparePreRelease q p := by
  unfold comparePreRelease
  by_cases hp : p = [] <;> by_cases hq : q = [] <;> simp [hp, hq]
  exact compareIdentifiers_antisymm _ _

/-- C4: with the same major, minor and patch, a version with a non-empty
prerelease `p` compares below the version without prerelease: `Compare` is `-1`
in that direction and `1` in the other, whatever the build metadata. -/
theorem compare_prerelease_below_release (major minor patch : Int) (p b b' : Str)
    (hp : p ≠ []) :
    (SemVer.mk major minor patch p b).Compare (SemVer.mk major minor patch [] b') = -1 ∧
    (SemVer.mk major minor patch [] b').Compare (SemVer.mk major minor patch p b) = 1 := by
  simp [SemVer.Compare, comparePreRelease, hp]

/-- C4 at `1.0.0-alpha` against `1.0.0`. -/
theorem compare_prerelease_below_release_witness :
    (SemVer.mk 1 0 0 "alpha".toList []).Compare (SemVer.mk 1 0 0 [] []) = -1 ∧
    (SemVer.mk 1 0 0 [] []).Compare (SemVer.mk 1 0 0 "alpha".toList []) = 1 :=
  compare_prerelease_below_release 1 0 0 "alpha".toList [] [] (by decide)

/-- C8: with the same major, minor and patch and non-empty prereleases `p` and
`q`, when the identifier list of `p` is a strict prefix of that of `q`, the
version with `p` compares below the version with `q`. -/
theorem compare_prefix_prerelease (major minor patch : Int) (p q b b' : Str)
    (ext : List Str) (hp : p ≠ []) (hq : q ≠ []) (hext : ext ≠ [])
    (hpre : Split q '.' = Split p '.' ++ ext) :
    (SemVer.mk major minor patch p b).Compare (SemVer.mk major minor patch q b') = -1 ∧
    (SemVer.mk major minor patch q b').Compare (SemVer.mk major minor patch p b) = 1 := by
  have h1 : compareIdentifiers (Split p '.') (Split q '.') = -1 := by
    rw [hpre]
    have := compareIdentifiers_append_same (Split p '.') [] ext
    rw [List.append_nil] at this
    rw [this]
    cases ext with
    | nil => exact absurd rfl hext
    | cons e es => simp [compareIdentifiers]
  have h2 : compareIdentifiers (Split q '.') (Split p '.') = 1 := by
    rw [compareIdentifiers_antisymm, h1]; rfl
  simp [SemVer.Compare, comparePreRelease, hp, hq, h1, h2]

/-- C8 at `1.0.0-alpha` against `1.0.0-alpha.1`. -/
theorem compare_prefix_prerelease_witness :
    (SemVer.mk 1 0 0 "alpha".toList []).Compare (SemVer.mk 1 0 0 "alpha.1".toList []) = -1 ∧
    (SemVer.mk 1 0 0 "alpha.1".toList []).Compare (SemVer.mk 1 0 0 "alpha".toList []) = 1 :=
  compare_prefix_prerelease 1 0 0 "alpha".toList "alpha.1".toList [] [] ["1".toList]
    (by decide) (by decide) (by decide) (by decide)

/-- C9: build metadata never affects `Compare`: replacing the build metadata of
both versions by any values leaves the result unchanged, and two versions that
differ only in build metadata compare as `0`. -/
theorem compare_ignores_build (a b : SemVer) (x y : Str) :
    ({ a with BuildMetadata := x } : SemVer).Compare { b with BuildMetadata := y }
      = a.Compare b ∧
    ({ a with BuildMetadata := x } : SemVer).Compare { a with BuildMetadata := y } = 0 := by
  refine ⟨rfl, ?_⟩
  have h := comparePreRelease_antisymm a.PreRelease a.PreRelease
  have h0 : comparePreRelease a.PreRelease a.PreRelease = 0 := by omega
  simp [SemVer.Compare, h0]

/-- C10: `Compare` is antisymmetric in sign, `a.Compare b = -(b.Compare a)`, and
so `a.Compare a = 0`. -/
theorem compare_antisymm (a b : SemVer) :
    a.Compare b = -(b.Compare a) ∧ a.Compare a = 0 := by
  have key : ∀ a b : SemVer, a.Compare b = -(b.Compare a) := by
    intro a b
    unfold SemVer.Compare
    rcases lt_trichotomy a.Major b.Major with h | h | h
    · have h2 : ¬ b.Major < a.Major := not_lt.mpr (le_of_lt h)
      simp [h, h2]
    · rcases lt_trichotomy a.Minor b.Minor with h' | h' | h'
      · have h2 : ¬ b.Minor < a.Minor := not_lt.mpr (le_of_lt h')
        simp [h, h', h2]
      · rcases lt_trichotomy a.Patch b.Patch with h'' | h'' | h''
        · have h2 : ¬ b.Patch < a.Patch := not_lt.mpr (le_of_lt h'')
          simp [h, h', h'', h2]
        · have hc := comparePreRelease_antisymm a.PreRelease b.PreRelease
          by_cases h0 : comparePreRelease b.PreRelease a.PreRelease = 0
          · simp [h, h', h'', hc, h0]
          · simp [h, h', h'', hc, h0]
        · have h2 : ¬ a.Patch < b.Patch := not_lt.mpr (le_of_lt h'')
          simp [h, h', h'', h2]
      · have h2 : ¬ a.Minor < b.Minor := not_lt.mpr (le_of_lt h')
        simp [h, h', h2]
    · have h2 : ¬ a.Major < b.Major := not_lt.mpr (le_of_lt h)
      simp [h, h2]
  refine ⟨key a b, ?_⟩
  have := key a a
  omega

/-! ### Characters -/

theorem char_le_iff (a b : Char) : a ≤ b ↔ a.toNat ≤ b.toNat := Iff.rfl

theorem char_lt_iff (a b : Char) : a < b ↔ a.toNat < b.toNat := Iff.rfl

theorem char_eq_iff (a b : Char) : a = b ↔ a.toNat = b.toNat := by
  constructor
  · intro h; rw [h]
  · intro h; exact Char.ext (UInt32.ext (by simpa [Char.toNat] using h))

theorem isDigitChar_iff (c : Char) : isDigitChar c = true ↔ 48 ≤ c.toNat ∧ c.toNat ≤ 57 := by
  simp only [isDigitChar, decide_eq_true_eq, char_le_iff]; exact Iff.rfl

theorem isLetterHyphen_iff (c : Char) : isLetterHyphen c = true ↔
    (97 ≤ c.toNat ∧ c.toNat ≤ 122) ∨ (65 ≤ c.toNat ∧ c.toNat ≤ 90) ∨ c.toNat = 45 := by
  simp only [isLetterHyphen, decide_eq_true_eq, char_le_iff, char_eq_iff]; exact Iff.rfl

theorem isAlnumHyphen_iff (c : Char) : isAlnumHyphen c = true ↔
    (48 ≤ c.toNat ∧ c.toNat ≤ 57) ∨ (97 ≤ c.toNat ∧ c.toNat ≤ 122) ∨
      (65 ≤ c.toNat ∧ c.toNat ≤ 90) ∨ c.toNat = 45 := by
  simp only [isAlnumHyphen, decide_eq_true_eq, char_le_iff, char_eq_iff]; exact Iff.rfl

theorem isLetterHyphen_alnum {c : Char} (h : isLetterHyphen c = true) :
    isAlnumHyphen c = true := by
  rw [isLetterHyphen_iff] at h; rw [isAlnumHyphen_iff]; omega

theorem isDigitChar_alnum {c : Char} (h : isDigitChar c = true) : isAlnumHyphen c = true := by
  rw [isDigitChar_iff] at h; rw [isAlnumHyphen_iff]; omega

theorem isLetterHyphen_not_digit {c : Char} (h : isLetterHyphen c = true) :
    isDigitChar c = false := by
  rw [isLetterHyphen_iff] at h
  rw [← Bool.not_eq_true, isDigitChar_iff]; omega

theorem isAlnumHyphen_cases {c : Char} (h : isAlnumHyphen c = true) :
    isDigitChar c = true ∨ isLetterHyphen c = true := by
  rw [isAlnumHyphen_iff] at h
  rw [isDigitChar_iff, isLetterHyphen_iff]; omega

theorem isAlnumHyphen_ne_dot {c : Char} (h : isAlnumHyphen c = true) : c ≠ '.' := by
  rw [isAlnumHyphen_iff] at h
  intro e
  have : c.toNat = 46 := by rw [e]; rfl
  omega

theorem isAlnumHyphen_ne_plus {c : Char} (h : isAlnumHyphen c = true) : c ≠ '+' := by
  rw [isAlnumHyphen_iff] at h
  intro e
  have : c.toNat = 43 := by rw [e]; rfl
  omega

/-- The order `strLess` is the lexicographic order of lists of characters. -/
theorem strLess_iff_lt : ∀ x y : Str, strLess x y = true ↔ List.lt x y
  | [], [] => by
    simp only [strLess, Bool.false_eq_true, false_iff]
    intro h; cases h
  | [], b :: bs => by
    simp only [strLess, true_iff]
    exact List.lt.nil b bs
  | _ :: _, [] => by
    simp only [strLess, Bool.false_eq_true, false_iff]
    intro h; cases h
  | a :: as, b :: bs => by
    have ih := strLess_iff_lt as bs
    simp only [strLess]
    constructor
    · intro h
      by_cases hab : a < b
      · exact List.lt.head as bs hab
      · by_cases hba : b < a
        · simp [hab, hba] at h
        · simp only [hab, hba, if_false] at h
          exact List.lt.tail hab hba (ih.mp h)
    · intro h
      cases h with
      | head _ _ hab => simp [hab]
      | tail hab hba hlt => simp [hab, hba, ih.mpr hlt]

theorem isNumeric_eq_all (s : Str) : isNumeric s = s.all isDigitChar := by
  induction s with
  | nil => rfl
  | cons c cs ih =>
    simp only [isNumeric, List.all_cons, ih]
    by_cases h : isDigitChar c = true
    · have h' := (isDigitChar_iff c).mp h
      have : ¬ (c < '0' ∨ c > '9') := by
        simp only [char_lt_iff, gt_iff_lt]
        show ¬ (c.toNat < 48 ∨ 57 < c.toNat)
        omega
      simp [this, h]
    · have h' := (not_congr (isDigitChar_iff c)).mp h
      have : (c < '0' ∨ c > '9') := by
        simp only [char_lt_iff, gt_iff_lt]
        show (c.toNat < 48 ∨ 57 < c.toNat)
        omega
      simp [this, h]

/-! ### Identifiers -/

theorem isNumericIdent_all {l : Str} (h : isNumericIdent l = true) :
    l ≠ [] ∧ l.all isDigitChar = true := by
  cases l with
  | nil => simp [isNumericIdent] at h
  | cons c cs =>
    refine ⟨by simp, ?_⟩
    simp only [isNumericIdent, Bool.or_eq_true, Bool.and_eq_true, beq_iff_eq] at h
    rcases h with ⟨h1, h2⟩ | ⟨_, h2⟩
    · subst h1 h2; decide
    · exact h2

theorem isPrereleaseIdent_alnum {l : Str} (h : isPrereleaseIdent l = true) :
    l ≠ [] ∧ l.all isAlnumHyphen = true := by
  simp only [isPrereleaseIdent, Bool.or_eq_true] at h
  rcases h with h | h
  · obtain ⟨h1, h2⟩ := isNumericIdent_all h
    refine ⟨h1, ?_⟩
    rw [List.all_eq_true] at h2 ⊢
    exact fun c hc => isDigitChar_alnum (h2 c hc)
  · simp only [isAlnumIdent, Bool.and_eq_true, bne_iff_ne, ne_eq] at h
    exact ⟨h.1.1, h.1.2⟩

theorem isBuildIdent_alnum {l : Str} (h : isBuildIdent l = true) :
    l ≠ [] ∧ l.all isAlnumHyphen = true := by
  simp only [isBuildIdent, Bool.and_eq_true, bne_iff_ne, ne_eq] at h
  exact h

theorem not_mem_of_all_alnum {l : Str} {ch : Char} (hch : isAlnumHyphen ch = false)
    (h : l.all isAlnumHyphen = true) : ch ∉ l := by
  rw [List.all_eq_true] at h
  intro hm
  rw [h ch hm] at hch
  exact Bool.noConfusion hch

/-! ### `Split` and `joinDots` -/

theorem Split_of_not_mem (x : Str) (sep : Char) (h : sep ∉ x) : Split x sep = [x] := by
  induction x with
  | nil => rfl
  | cons c cs ih =>
    have hc : c ≠ sep := fun e => h (by simp [e])
    have hcs : sep ∉ cs := fun e => h (by simp [e])
    simp [Split, hc, ih hcs]

theorem Split_append_sep (x rest : Str) (sep : Char) (h : sep ∉ x) :
    Split (x ++ sep :: rest) sep = x :: Split rest sep := by
  induction x with
  | nil => simp [Split]
  | cons c cs ih =>
    have hc : c ≠ sep := fun e => h (by simp [e])
    have hcs : sep ∉ cs := fun e => h (by simp [e])
    simp [Split, hc, ih hcs]

theorem Split_joinDots (ids : List Str) (hne : ids ≠ []) (h : ∀ id ∈ ids, '.' ∉ id) :
    Split (joinDots ids) '.' = ids := by
  induction ids with
  | nil => exact absurd rfl hne
  | cons x rest ih =>
    cases rest with
    | nil => simpa [joinDots] using Split_of_not_mem x '.' (h x (by simp))
    | cons y rest' =>
      have hx : '.' ∉ x := h x (by simp)
      have := ih (by simp) (fun id hid => h id (by simp [hid]))
      simp only [joinDots] at this ⊢
      rw [Split_append_sep _ _ _ hx, this]

theorem joinDots_ne_nil (ids : List Str) (hne : ids ≠ []) (h : ∀ id ∈ ids, id ≠ []) :
    joinDots ids ≠ [] := by
  cases ids with
  | nil => exact absurd rfl hne
  | cons x rest =>
    cases rest with
    | nil => simpa [joinDots] using h x (by simp)
    | cons y rest' => simp [joinDots]

theorem Split_joinDots_prerelease (ids : List Str) (hne : ids ≠ [])
    (h : ∀ id ∈ ids, isPrereleaseIdent id = true) :
    joinDots ids ≠ [] ∧ Split (joinDots ids) '.' = ids :=
  ⟨joinDots_ne_nil ids hne (fun id hid => (isPrereleaseIdent_alnum (h id hid)).1),
   Split_joinDots ids hne (fun id hid =>
     not_mem_of_all_alnum (by decide) (isPrereleaseIdent_alnum (h id hid)).2)⟩

/-- The comparison of two prereleases given by their identifier lists is the
identifier loop on these lists. -/
theorem comparePreRelease_joinDots (l r : List Str) (hl : l ≠ []) (hr : r ≠ [])
    (hvl : ∀ id ∈ l, isPrereleaseIdent id = true)
    (hvr : ∀ id ∈ r, isPrereleaseIdent id = true) :
    comparePreRelease (joinDots l) (joinDots r) = compareIdentifiers l r := by
  obtain ⟨h1, h2⟩ := Split_joinDots_prerelease l hl hvl
  obtain ⟨h3, h4⟩ := Split_joinDots_prerelease r hr hvr
  simp [comparePreRelease, h1, h2, h3, h4]

theorem compare_same_core (major minor patch : Int) (p q b b' : Str) :
    (SemVer.mk major minor patch p b).Compare (SemVer.mk major minor patch q b')
      = comparePreRelease p q := by
  by_cases h : comparePreRelease p q = 0 <;> simp [SemVer.Compare, h]

/-- C5, at an input where the code departs from it: `1.0.0-9223372036854775808`
and `1.0.0-9223372036854775807` are both accepted by `Parse`, their prereleases
are numeric identifiers with different integer values, the first one larger,
and `Compare` returns `0` instead of `1`. -/
theorem compare_numeric_overflow :
    (Parse "1.0.0-9223372036854775808".toList).2 = none ∧
    (Parse "1.0.0-9223372036854775807".toList).2 = none ∧
    digitsVal "9223372036854775808".toList > digitsVal "9223372036854775807".toList ∧
    (Parse "1.0.0-9223372036854775808".toList).1.Compare
      (Parse "1.0.0-9223372036854775807".toList).1 = 0 := by
  decide

/-- C6: with the same major, minor and patch and valid prereleases that agree on
the identifiers `pre` and continue with an all-digit identifier `n` on one side
and an identifier `x` holding a letter or hyphen on the other, the version
holding `n` compares lower, whatever identifiers follow. -/
theorem compare_numeric_below_alnum (major minor patch : Int) (b b' : Str)
    (pre restL restR : List Str) (n x : Str)
    (hvl : ∀ id ∈ pre ++ n :: restL, isPrereleaseIdent id = true)
    (hvr : ∀ id ∈ pre ++ x :: restR, isPrereleaseIdent id = true)
    (hn : n.all isDigitChar = true) (hx : x.any isLetterHyphen = true) :
    (SemVer.mk major minor patch (joinDots (pre ++ n :: restL)) b).Compare
      (SemVer.mk major minor patch (joinDots (pre ++ x :: restR)) b') = -1 ∧
    (SemVer.mk major minor patch (joinDots (pre ++ x :: restR)) b').Compare
      (SemVer.mk major minor patch (joinDots (pre ++ n :: restL)) b) = 1 := by
  have hnum : isNumeric n = true := by rw [isNumeric_eq_all]; exact hn
  have hxn : isNumeric x = false := by
    rw [isNumeric_eq_all, ← Bool.not_eq_true, List.all_eq_true]
    intro hall
    obtain ⟨c, hc, hlc⟩ := List.any_eq_true.mp hx
    have := isLetterHyphen_not_digit hlc
    rw [hall c hc] at this
    exact Bool.noConfusion this
  have h1 : compareIdentifiers (pre ++ n :: restL) (pre ++ x :: restR) = -1 := by
    rw [compareIdentifiers_append_same, compareIdentifiers]
    simp [hnum, hxn]
  have h2 : compareIdentifiers (pre ++ x :: restR) (pre ++ n :: restL) = 1 := by
    rw [compareIdentifiers_antisymm, h1]; rfl
  rw [compare_same_core, compare_same_core,
    comparePreRelease_joinDots _ _ (by simp) (by simp) hvl hvr,
    comparePreRelease_joinDots _ _ (by simp) (by simp) hvr hvl]
  exact ⟨h1, h2⟩

/-- C6 at `1.0.0-alpha.1.z` against `1.0.0-alpha.beta`. -/
theorem compare_numeric_below_alnum_witness :
    (SemVer.mk 1 0 0 "alpha.1.z".toList []).Compare
      (SemVer.mk 1 0 0 "alpha.beta".toList []) = -1 ∧
    (SemVer.mk 1 0 0 "alpha.beta".toList []).Compare
      (SemVer.mk 1 0 0 "alpha.1.z".toList []) = 1 :=
  compare_numeric_below_alnum 1 0 0 [] [] ["alpha".toList] ["z".toList] [] "1".toList
    "beta".toList (by decide) (by decide) (by decide) (by decide)

/-- C7: with the same major, minor and patch and valid prereleases that agree on
the identifiers `pre` and continue with two different non-numeric identifiers
`x` and `y`, `Compare` is the sign of the lexical comparison of `x` and `y`:
either `x` is below `y` in the lexicographic order of their characters and the
result is `-1`, or `y` is below `x` and the result is `1`, whatever identifiers
follow. -/
theorem compare_alnum_lexical (major minor patch : Int) (b b' : Str)
    (pre restL restR : List Str) (x y : Str)
    (hvl : ∀ id ∈ pre ++ x :: restL, isPrereleaseIdent id = true)
    (hvr : ∀ id ∈ pre ++ y :: restR, isPrereleaseIdent id = true)
    (hx : isNumeric x = false) (hy : isNumeric y = false) (hxy : x ≠ y) :
    (List.lt x y ∧ ¬ List.lt y x ∧
      (SemVer.mk major minor patch (joinDots (pre ++ x :: restL)) b).Compare
        (SemVer.mk major minor patch (joinDots (pre ++ y :: restR)) b') = -1) ∨
    (List.lt y x ∧ ¬ List.lt x y ∧
      (SemVer.mk major minor patch (joinDots (pre ++ x :: restL)) b).Compare
        (SemVer.mk major minor patch (joinDots (pre ++ y :: restR)) b') = 1) := by
  rw [compare_same_core, comparePreRelease_joinDots _ _ (by simp) (by simp) hvl hvr,
    compareIdentifiers_append_same, compareIdentifiers]
  simp only [← strLess_iff_lt]
  rcases strLess_total x y hxy with h | h
  · have h' := strLess_asymm x y h
    simp [hx, hy, h, h']
  · have h' := strLess_asymm y x h
    simp [hx, hy, h, h']

/-- C7 at `1.0.0-1.beta.2` against `1.0.0-1.alpha.9`. -/
theorem compare_alnum_lexical_witness :
    (List.lt "beta".toList "alpha".toList ∧ ¬ List.lt "alpha".toList "beta".toList ∧
      (SemVer.mk 1 0 0 "1.beta.2".toList []).Compare
        (SemVer.mk 1 0 0 "1.alpha.9".toList []) = -1) ∨
    (List.lt "alpha".toList "beta".toList ∧ ¬ List.lt "beta".toList "alpha".toList ∧
      (SemVer.mk 1 0 0 "1.beta.2".toList []).Compare
        (SemVer.mk 1 0 0 "1.alpha.9".toList []) = 1) :=
  compare_alnum_lexical 1 0 0 [] [] ["1".toList] ["2".toList] ["9".toList] "beta".toList
    "alpha".toList (by decide) (by decide) (by decide) (by decide) (by decide)

/-! ## The matcher -/

theorem mem_matchR_cls {t : Str} {p : Char → Bool} {s : Str} {c : Caps} {x : Str × Caps} :
    x ∈ matchR t (.cls p) s c ↔ ∃ ch, p ch = true ∧ s = ch :: x.1 ∧ x.2 = c := by
  obtain ⟨x1, x2⟩ := x
  cases s with
  | nil => simp [matchR]
  | cons a as =>
    by_cases h : p a = true
    · simp only [matchR, h, if_true, List.mem_singleton, Prod.mk.injEq, List.cons.injEq]
      constructor
      · rintro ⟨rfl, rfl⟩; exact ⟨a, h, ⟨rfl, rfl⟩, rfl⟩
      · rintro ⟨ch, _, ⟨rfl, rfl⟩, rfl⟩; exact ⟨rfl, rfl⟩
    · simp only [matchR, h, if_false, List.not_mem_nil, false_iff, Bool.false_eq_true]
      rintro ⟨ch, hch, e1, _⟩
      simp only [List.cons.injEq] at e1
      exact h (e1.1 ▸ hch)

theorem mem_matchR_seq {t : Str} {a b : Regex} {s : Str} {c : Caps} {x : Str × Caps} :
    x ∈ matchR t (.seq a b) s c ↔ ∃ y ∈ matchR t a s c, x ∈ matchR t b y.1 y.2 := by
  simp [matchR, List.mem_flatMap]

theorem mem_matchR_alt {t : Str} {a b : Regex} {s : Str} {c : Caps} {x : Str × Caps} :
    x ∈ matchR t (.alt a b) s c ↔ x ∈ matchR t a s c ∨ x ∈ matchR t b s c := by
  simp [matchR]

theorem mem_matchR_empty {t : Str} {s : Str} {c : Caps} {x : Str × Caps} :
    x ∈ matchR t .empty s c ↔ x = (s, c) := by
  simp [matchR]

theorem mem_matchR_eol {t : Str} {s : Str} {c : Caps} {x : Str × Caps} :
    x ∈ matchR t .eol s c ↔ s = [] ∧ x = ([], c) := by
  by_cases h : s = []
  · subst h; simp [matchR]
  · simp [matchR, h]

theorem mem_matchR_bol {t : Str} {s : Str} {c : Caps} {x : Str × Caps} :
    x ∈ matchR t .bol s c ↔ s.length = t.length ∧ x = (s, c) := by
  by_cases h : s.length = t.length
  · simp [matchR, h]
  · simp [matchR, h]

/-- Membership in the result of the greedy loop, when every round of `step`
strips a non-empty word of `L` and leaves the captures alone. -/
theorem mem_starLoop (step : Str → Caps → List (Str × Caps)) (L : Str → Prop)
    (hstep : ∀ s c x, x ∈ step s c ↔ ∃ l, L l ∧ s = l ++ x.1 ∧ x.2 = c)
    (hne : ∀ l, L l → l ≠ []) :
    ∀ (n : Nat) (s : Str) (c : Caps) (x : Str × Caps), s.length ≤ n →
      (x ∈ starLoop step n s c ↔
        ∃ ls : List Str, (∀ l ∈ ls, L l) ∧ s = ls.flatten ++ x.1 ∧ x.2 = c) := by
  intro n
  induction n with
  | zero =>
    intro s c x hlen
    have hs : s = [] := List.length_eq_zero.mp (Nat.le_zero.mp hlen)
    subst hs
    simp only [starLoop, List.mem_singleton]
    constructor
    · rintro rfl; exact ⟨[], by simp, by simp, rfl⟩
    · rintro ⟨ls, _, h2, h3⟩
      have : x.1 = [] := by
        have := congrArg List.length h2
        simp only [List.length_nil, List.length_append] at this
        exact List.length_eq_zero.mp (by omega)
      exact Prod.ext this h3
  | succ n ih =>
    intro s c x hlen
    simp only [starLoop, List.mem_append, List.mem_flatMap, List.mem_filter,
      decide_eq_true_eq, List.mem_singleton]
    constructor
    · rintro (⟨y, ⟨hy, hylen⟩, hx⟩ | rfl)
      · obtain ⟨l, hl, hs, hc⟩ := (hstep s c y).mp hy
        obtain ⟨ls, hls, hs', hc'⟩ := (ih y.1 y.2 x (by omega)).mp hx
        refine ⟨l :: ls, ?_, ?_, ?_⟩
        · intro w hw
          rcases List.mem_cons.mp hw with rfl | hw
          · exact hl
          · exact hls w hw
        · rw [hs, hs']; simp
        · rw [hc', hc]
      · exact ⟨[], by simp, by simp, rfl⟩
    · rintro ⟨ls, hls, hs, hc⟩
      cases ls with
      | nil =>
        right
        exact Prod.ext (by simpa using hs.symm) hc
      | cons l ls' =>
        left
        have hl : L l := hls l (by simp)
        have hlne : l ≠ [] := hne l hl
        refine ⟨(ls'.flatten ++ x.1, c), ⟨?_, ?_⟩, ?_⟩
        · exact (hstep s c _).mpr ⟨l, hl, by rw [hs]; simp, rfl⟩
        · have : 0 < l.length := List.length_pos.mpr hlne
          rw [hs]; simp; omega
        · refine (ih _ _ x ?_).mpr ⟨ls', fun w hw => hls w (by simp [hw]), rfl, hc⟩
          have : 0 < l.length := List.length_pos.mpr hlne
          have := congrArg List.length hs
          simp at this ⊢
          omega

theorem recognises_cls (p : Char → Bool) :
    Recognises (.cls p) (fun l => ∃ ch, p ch = true ∧ l = [ch]) := by
  intro t s c x
  rw [mem_matchR_cls]
  constructor
  · rintro ⟨ch, h1, h2, h3⟩; exact ⟨[ch], ⟨ch, h1, rfl⟩, by simpa using h2, h3⟩
  · rintro ⟨l, ⟨ch, h1, rfl⟩, h2, h3⟩; exact ⟨ch, h1, by simpa using h2, h3⟩

theorem recognises_empty : Recognises .empty (fun l => l = []) := by
  intro t s c x
  rw [mem_matchR_empty]
  constructor
  · rintro rfl; exact ⟨[], rfl, rfl, rfl⟩
  · rintro ⟨l, rfl, h2, h3⟩; exact Prod.ext (by simpa using h2.symm) h3

theorem recognises_seq {a b : Regex} {La Lb : Str → Prop}
    (ha : Recognises a La) (hb : Recognises b Lb) :
    Recognises (.seq a b) (fun l => ∃ la lb, La la ∧ Lb lb ∧ l = la ++ lb) := by
  intro t s c x
  rw [mem_matchR_seq]
  constructor
  · rintro ⟨y, hy, hx⟩
    obtain ⟨la, h1, h2, h3⟩ := (ha t s c y).mp hy
    obtain ⟨lb, h4, h5, h6⟩ := (hb t y.1 y.2 x).mp hx
    exact ⟨la ++ lb, ⟨la, lb, h1, h4, rfl⟩, by rw [h2, h5]; simp, by rw [h6, h3]⟩
  · rintro ⟨l, ⟨la, lb, h1, h4, rfl⟩, h2, h3⟩
    refine ⟨(lb ++ x.1, c), (ha t s c _).mpr ⟨la, h1, by rw [h2]; simp, rfl⟩, ?_⟩
    exact (hb t _ _ x).mpr ⟨lb, h4, rfl, h3⟩

theorem recognises_alt {a b : Regex} {La Lb : Str → Prop}
    (ha : Recognises a La) (hb : Recognises b Lb) :
    Recognises (.alt a b) (fun l => La l ∨ Lb l) := by
  intro t s c x
  rw [mem_matchR_alt, ha t s c x, hb t s c x]
  constructor
  · rintro (⟨l, h1, h2⟩ | ⟨l, h1, h2⟩)
    · exact ⟨l, Or.inl h1, h2⟩
    · exact ⟨l, Or.inr h1, h2⟩
  · rintro ⟨l, h1 | h1, h2⟩
    · exact Or.inl ⟨l, h1, h2⟩
    · exact Or.inr ⟨l, h1, h2⟩

theorem recognises_star {a : Regex} {L : Str → Prop} (ha : Recognises a L)
    (hne : ∀ l, L l → l ≠ []) :
    Recognises (.star a) (fun l => ∃ ls : List Str, (∀ w ∈ ls, L w) ∧ l = ls.flatten) := by
  intro t s c x
  simp only [matchR]
  rw [mem_starLoop (matchR t a) L (ha t) hne s.length s c x (le_refl _)]
  constructor
  · rintro ⟨ls, h1, h2, h3⟩; exact ⟨ls.flatten, ⟨ls, h1, rfl⟩, h2, h3⟩
  · rintro ⟨l, ⟨ls, h1, rfl⟩, h2, h3⟩; exact ⟨ls, h1, h2, h3⟩

theorem recognises_congr {r : Regex} {L L' : Str → Prop} (h : Recognises r L)
    (hL : ∀ l, L l ↔ L' l) : Recognises r L' := by
  intro t s c x
  rw [h t s c x]
  constructor
  · rintro ⟨l, h1, h2⟩; exact ⟨l, (hL l).mp h1, h2⟩
  · rintro ⟨l, h1, h2⟩; exact ⟨l, (hL l).mpr h1, h2⟩

/-- A capturing group around an expression that recognises `L` records the
word it matched. -/
theorem mem_matchR_group {r : Regex} {L : Str → Prop} (hr : Recognises r L)
    {t : Str} {name : Str} {s : Str} {c : Caps} {x : Str × Caps} :
    x ∈ matchR t (.group name r) s c ↔
      ∃ l, L l ∧ s = l ++ x.1 ∧ x.2 = (name, l) :: c := by
  simp only [matchR, List.mem_map]
  constructor
  · rintro ⟨y, hy, rfl⟩
    obtain ⟨l, h1, h2, h3⟩ := (hr t s c y).mp hy
    refine ⟨l, h1, h2, ?_⟩
    have : s.take (s.length - y.1.length) = l := by
      rw [h2]; simp
    simp [this, h3]
  · rintro ⟨l, h1, h2, h3⟩
    refine ⟨(x.1, c), (hr t s c _).mpr ⟨l, h1, h2, rfl⟩, ?_⟩
    have : s.take (s.length - x.1.length) = l := by
      rw [h2]; simp
    exact Prod.ext rfl (by simp [this, h3])

/-! ### The languages of the patterns -/

theorem isDigit19_iff (c : Char) : isDigit19 c = true ↔ isDigitChar c = true ∧ c ≠ '0' := by
  rw [isDigitChar_iff, Ne, char_eq_iff]
  simp only [isDigit19, decide_eq_true_eq, char_le_iff]
  show (49 ≤ c.toNat ∧ c.toNat ≤ 57) ↔ (48 ≤ c.toNat ∧ c.toNat ≤ 57) ∧ ¬ c.toNat = 48
  omega

theorem recognises_lit (ch : Char) : Recognises (lit ch) (fun l => l = [ch]) := by
  refine recognises_congr (recognises_cls _) ?_
  intro l
  constructor
  · rintro ⟨c, h1, rfl⟩; simp only [beq_iff_eq] at h1; rw [h1]
  · rintro rfl; exact ⟨ch, by simp, rfl⟩

theorem flatten_singletons_iff (p : Char → Bool) (l : Str) :
    (∃ ls : List Str, (∀ w ∈ ls, ∃ ch, p ch = true ∧ w = [ch]) ∧ l = ls.flatten) ↔
      l.all p = true := by
  constructor
  · rintro ⟨ls, h, rfl⟩
    induction ls with
    | nil => simp
    | cons w ws ih =>
      obtain ⟨ch, h1, rfl⟩ := h _ (List.mem_cons_self _ _)
      have := ih (fun w hw => h w (List.mem_cons_of_mem _ hw))
      simp only [List.flatten_cons, List.singleton_append, List.all_cons, h1, this,
        Bool.and_self]
  · intro h
    refine ⟨l.map (fun ch => [ch]), ?_, ?_⟩
    · intro w hw
      obtain ⟨ch, hch, rfl⟩ := List.mem_map.mp hw
      exact ⟨ch, List.all_eq_true.mp h ch hch, rfl⟩
    · induction l with
      | nil => rfl
      | cons a as ih =>
        simp only [List.all_cons, Bool.and_eq_true] at h
        simp only [List.map_cons, List.flatten_cons, List.singleton_append]
        rw [← ih h.2]

theorem recognises_star_cls (p : Char → Bool) :
    Recognises (.star (.cls p)) (fun l => l.all p = true) :=
  recognises_congr
    (recognises_star (recognises_cls p) (by rintro l ⟨ch, _, rfl⟩; simp))
    (flatten_singletons_iff p)

theorem recognises_plus_cls (p : Char → Bool) :
    Recognises (plus (.cls p)) (fun l => l ≠ [] ∧ l.all p = true) := by
  refine recognises_congr (recognises_seq (recognises_cls p) (recognises_star_cls p)) ?_
  intro l
  constructor
  · rintro ⟨la, lb, ⟨ch, h1, rfl⟩, h2, rfl⟩
    exact ⟨by simp, by simp [h1, h2]⟩
  · rintro ⟨h1, h2⟩
    cases l with
    | nil => exact absurd rfl h1
    | cons a as =>
      simp only [List.all_cons, Bool.and_eq_true] at h2
      exact ⟨[a], as, ⟨a, h2.1, rfl⟩, h2.2, rfl⟩

theorem isNumericIdent_iff (l : Str) :
    (l = ['0'] ∨ ∃ la lb, (∃ ch, isDigit19 ch = true ∧ la = [ch]) ∧
      lb.all isDigitChar = true ∧ l = la ++ lb) ↔ isNumericIdent l = true := by
  constructor
  · rintro (rfl | ⟨la, lb, ⟨ch, h1, rfl⟩, h2, rfl⟩)
    · decide
    · obtain ⟨h3, h4⟩ := (isDigit19_iff ch).mp h1
      simp [isNumericIdent, h3, h4, h2]
  · intro h
    cases l with
    | nil => simp [isNumericIdent] at h
    | cons a as =>
      simp only [isNumericIdent, Bool.or_eq_true, Bool.and_eq_true, beq_iff_eq, bne_iff_ne,
        ne_eq, List.all_cons] at h
      rcases h with ⟨rfl, rfl⟩ | ⟨h1, h2, h3⟩
      · exact Or.inl rfl
      · exact Or.inr ⟨[a], as, ⟨a, (isDigit19_iff a).mpr ⟨h2, h1⟩, rfl⟩, h3, rfl⟩

theorem recognises_numericRe : Recognises numericRe (fun l => isNumericIdent l = true) :=
  recognises_congr
    (recognises_alt (recognises_lit '0')
      (recognises_seq (recognises_cls isDigit19) (recognises_star_cls isDigitChar)))
    isNumericIdent_iff

/-- A list with an element of the class `p` splits at the first such element. -/
theorem split_at_first (p : Char → Bool) (l : Str) (h : l.any p = true) :
    ∃ a ch b, l = a ++ ch :: b ∧ p ch = true ∧ a.all (fun c => !p c) = true := by
  induction l with
  | nil => simp at h
  | cons x xs ih =>
    by_cases hx : p x = true
    · exact ⟨[], x, xs, rfl, hx, rfl⟩
    · have hx' : p x = false := by simpa using hx
      simp only [List.any_cons, hx', Bool.false_or] at h
      obtain ⟨a, ch, b, h1, h2, h3⟩ := ih h
      refine ⟨x :: a, ch, b, by rw [h1]; rfl, h2, ?_⟩
      simp only [List.all_cons, Bool.and_eq_true, Bool.not_eq_true', h3, and_true]
      exact hx'

theorem recognises_alnumIdent :
    Recognises (.seq (.star digit) (.seq (.cls isLetterHyphen) (.star (.cls isAlnumHyphen))))
      (fun l => isAlnumIdent l = true) := by
  refine recognises_congr
    (recognises_seq (recognises_star_cls isDigitChar)
      (recognises_seq (recognises_cls isLetterHyphen) (recognises_star_cls isAlnumHyphen))) ?_
  intro l
  constructor
  · rintro ⟨la, lb, h1, ⟨lc, ld, ⟨ch, h2, rfl⟩, h3, rfl⟩, rfl⟩
    have h1' : la.all isAlnumHyphen = true := by
      rw [List.all_eq_true] at h1 ⊢
      exact fun c hc => isDigitChar_alnum (h1 c hc)
    simp [isAlnumIdent, h1', h2, h3, isLetterHyphen_alnum h2]
  · intro h
    simp only [isAlnumIdent, Bool.and_eq_true, bne_iff_ne, ne_eq] at h
    obtain ⟨⟨_, hall⟩, hany⟩ := h
    obtain ⟨a, ch, b, rfl, h2, h3⟩ := split_at_first isLetterHyphen l hany
    simp only [List.all_append, List.all_cons, Bool.and_eq_true] at hall
    refine ⟨a, ch :: b, ?_, ⟨[ch], b, ⟨ch, h2, rfl⟩, hall.2.2, rfl⟩, rfl⟩
    rw [List.all_eq_true] at h3 ⊢
    intro c hc
    have hn := h3 c hc
    rcases isAlnumHyphen_cases (List.all_eq_true.mp hall.1 c hc) with hd | hl
    · exact hd
    · simp [hl] at hn

theorem recognises_preIdRe : Recognises preIdRe (fun l => isPrereleaseIdent l = true) := by
  refine recognises_congr
    (recognises_alt (recognises_lit '0')
      (recognises_alt (recognises_seq (recognises_cls isDigit19) (recognises_star_cls isDigitChar))
        recognises_alnumIdent)) ?_
  intro l
  simp only [isPrereleaseIdent, Bool.or_eq_true, ← isNumericIdent_iff l]
  rw [or_assoc]

theorem joinDots_cons (x : Str) (rest : List Str) :
    joinDots (x :: rest) = x ++ (rest.map (fun w => '.' :: w)).flatten := by
  induction rest generalizing x with
  | nil => simp [joinDots]
  | cons y ys ih => simp [joinDots, ih y]

/-- The shape `id(\.id)*` is the shape of a dotted list of identifiers. -/
theorem dotted_iff (P : Str → Prop) (l : Str) :
    (∃ la lb, P la ∧
      (∃ ls : List Str, (∀ w ∈ ls, ∃ wa wb, wa = ['.'] ∧ P wb ∧ w = wa ++ wb) ∧
        lb = ls.flatten) ∧ l = la ++ lb) ↔
    ∃ ids : List Str, ids ≠ [] ∧ (∀ id ∈ ids, P id) ∧ l = joinDots ids := by
  constructor
  · rintro ⟨la, lb, h1, ⟨ls, h2, rfl⟩, rfl⟩
    have : ∃ tails : List Str, (∀ id ∈ tails, P id) ∧ ls = tails.map (fun w => '.' :: w) := by
      clear h1
      induction ls with
      | nil => exact ⟨[], by simp, rfl⟩
      | cons w ws ih =>
        obtain ⟨wa, wb, rfl, h3, rfl⟩ := h2 _ (List.mem_cons_self _ _)
        obtain ⟨tails, h4, rfl⟩ := ih (fun w hw => h2 w (List.mem_cons_of_mem _ hw))
        refine ⟨wb :: tails, ?_, by simp⟩
        intro id hid
        rcases List.mem_cons.mp hid with rfl | hid
        · exact h3
        · exact h4 id hid
    obtain ⟨tails, h4, rfl⟩ := this
    refine ⟨la :: tails, by simp, ?_, (joinDots_cons la tails).symm⟩
    intro id hid
    rcases List.mem_cons.mp hid with rfl | hid
    · exact h1
    · exact h4 id hid
  · rintro ⟨ids, hne, h1, rfl⟩
    cases ids with
    | nil => exact absurd rfl hne
    | cons x rest =>
      refine ⟨x, _, h1 x (by simp), ⟨rest.map (fun w => '.' :: w), ?_, rfl⟩, joinDots_cons x rest⟩
      intro w hw
      obtain ⟨id, hid, rfl⟩ := List.mem_map.mp hw
      exact ⟨['.'], id, rfl, h1 id (by simp [hid]), rfl⟩

theorem recognises_prereleaseRe : Recognises prereleaseRe ValidPrerelease := by
  refine recognises_congr
    (recognises_seq recognises_preIdRe
      (recognises_star (recognises_seq (recognises_lit '.') recognises_preIdRe)
        (by rintro l ⟨la, lb, rfl, _, rfl⟩; simp))) ?_
  intro l
  exact dotted_iff (fun w => isPrereleaseIdent w = true) l

theorem recognises_buildIdRe : Recognises buildIdRe (fun l => isBuildIdent l = true) := by
  refine recognises_congr (recognises_plus_cls isAlnumHyphen) ?_
  intro l
  simp [isBuildIdent]

theorem recognises_buildRe : Recognises buildRe ValidBuild := by
  refine recognises_congr
    (recognises_seq recognises_buildIdRe
      (recognises_star (recognises_seq (recognises_lit '.') recognises_buildIdRe)
        (by rintro l ⟨la, lb, rfl, _, rfl⟩; simp))) ?_
  intro l
  exact dotted_iff (fun w => isBuildIdent w = true) l

/-! ### The full pattern -/

theorem ValidPrerelease_ne_nil {p : Str} (h : ValidPrerelease p) : p ≠ [] := by
  obtain ⟨ids, hne, hv, rfl⟩ := h
  exact joinDots_ne_nil ids hne (fun id hid => (isPrereleaseIdent_alnum (hv id hid)).1)

theorem ValidBuild_ne_nil {p : Str} (h : ValidBuild p) : p ≠ [] := by
  obtain ⟨ids, hne, hv, rfl⟩ := h
  exact joinDots_ne_nil ids hne (fun id hid => (isBuildIdent_alnum (hv id hid)).1)

theorem recognises_opt_v : Recognises (opt (lit 'v')) (fun l => l = [] ∨ l = ['v']) :=
  recognises_congr (recognises_alt (recognises_lit 'v') recognises_empty)
    (fun _ => Or.comm)

/-- An optional segment `(?:sep(?P<name>r))?` either matches `sep` and a word of
`L`, which it captures, or matches nothing and captures nothing. -/
theorem mem_matchR_opt_segment {r : Regex} {L : Str → Prop} (hr : Recognises r L)
    (hne : ∀ l, L l → l ≠ []) {t : Str} {sep : Char} {name : Str} {s : Str} {c : Caps}
    {x : Str × Caps} :
    x ∈ matchR t (opt (.seq (lit sep) (.group name r))) s c ↔
      ∃ p, (p = [] ∨ L p) ∧ s = segment sep p ++ x.1 ∧
        x.2 = if p = [] then c else (name, p) :: c := by
  unfold opt
  rw [mem_matchR_alt, mem_matchR_seq, mem_matchR_empty]
  constructor
  · rintro (⟨y, hy, hx⟩ | rfl)
    · obtain ⟨l, rfl, h1, h2⟩ := (recognises_lit sep t s c y).mp hy
      obtain ⟨p, hp, h3, h4⟩ := (mem_matchR_group hr).mp hx
      have hpne := hne p hp
      refine ⟨p, Or.inr hp, ?_, ?_⟩
      · rw [h1, h3]; simp [segment, hpne]
      · rw [h4, h2]; simp [hpne]
    · exact ⟨[], Or.inl rfl, by simp [segment], by simp⟩
  · rintro ⟨p, hp, h1, h2⟩
    by_cases hpe : p = []
    · right
      subst hpe
      exact Prod.ext (by simpa [segment] using h1.symm) (by simpa using h2)
    · left
      have hL : L p := hp.resolve_left hpe
      refine ⟨(p ++ x.1, c), (recognises_lit sep t s c _).mpr ⟨[sep], rfl, ?_, rfl⟩, ?_⟩
      · rw [h1]; simp [segment, hpe]
      · exact (mem_matchR_group hr).mpr ⟨p, hL, rfl, by simpa [hpe] using h2⟩

theorem submatch_cons_ne {n name v : Str} (c : Caps) (h : n ≠ name) :
    submatch ((n, v) :: c) name = submatch c name := by
  simp [submatch, h]

theorem submatch_cons_eq {name v : Str} (c : Caps) :
    submatch ((name, v) :: c) name = v := by
  simp [submatch]

theorem submatch_opt_ne {n name p : Str} (c : Caps) (h : n ≠ name) :
    submatch (if p = [] then c else (n, p) :: c) name = submatch c name := by
  by_cases hp : p = [] <;> simp [hp, submatch, h]

theorem submatch_opt_eq {name p : Str} (c : Caps) (h : submatch c name = []) :
    submatch (if p = [] then c else (name, p) :: c) name = p := by
  by_cases hp : p = []
  · simp [hp, h]
  · simp [hp, submatch]

/-- Every match of `FullPattern` covers the whole input, which is a version
string, and captures its parts. -/
theorem fullPattern_sound {t s : Str} {x : Str × Caps}
    (h : x ∈ matchR t FullPattern s []) :
    s.length = t.length ∧ ∃ v major minor patch pre build,
      HasParts s v major minor patch pre build ∧
      submatch x.2 "major".toList = major ∧ submatch x.2 "minor".toList = minor ∧
      submatch x.2 "patch".toList = patch ∧ submatch x.2 "prerelease".toList = pre ∧
      submatch x.2 "buildmetadata".toList = build := by
  simp only [FullPattern, mem_matchR_seq] at h
  obtain ⟨⟨s0, c0⟩, h0, ⟨s1, c1⟩, h1, ⟨s2, c2⟩, h2, ⟨s3, c3⟩, h3, ⟨s4, c4⟩, h4,
    ⟨s5, c5⟩, h5, ⟨s6, c6⟩, h6, ⟨s7, c7⟩, h7, ⟨s8, c8⟩, h8, h9⟩ := h
  rw [mem_matchR_bol] at h0
  obtain ⟨hlen, h0⟩ := h0
  obtain ⟨rfl, rfl⟩ := Prod.mk.inj h0
  obtain ⟨v, hv, e1, rfl⟩ := (recognises_opt_v t _ _ _).mp h1
  obtain ⟨major, hmajor, e2, rfl⟩ := (mem_matchR_group recognises_numericRe).mp h2
  obtain ⟨d1, rfl, e3, rfl⟩ := (recognises_lit '.' t _ _ _).mp h3
  obtain ⟨minor, hminor, e4, rfl⟩ := (mem_matchR_group recognises_numericRe).mp h4
  obtain ⟨d2, rfl, e5, rfl⟩ := (recognises_lit '.' t _ _ _).mp h5
  obtain ⟨patch, hpatch, e6, rfl⟩ := (mem_matchR_group recognises_numericRe).mp h6
  obtain ⟨pre, hpre, e7, rfl⟩ :=
    (mem_matchR_opt_segment recognises_prereleaseRe @ValidPrerelease_ne_nil).mp h7
  obtain ⟨build, hbuild, e8, rfl⟩ :=
    (mem_matchR_opt_segment recognises_buildRe @ValidBuild_ne_nil).mp h8
  rw [mem_matchR_eol] at h9
  obtain ⟨e9, rfl⟩ := h9
  simp only at e1 e2 e3 e4 e5 e6 e7 e8 e9
  refine ⟨hlen, v, major, minor, patch, pre, build,
    ⟨hv, hmajor, hminor, hpatch, hpre, hbuild, ?_⟩, ?_, ?_, ?_, ?_, ?_⟩
  · rw [e1, e2, e3, e4, e5, e6, e7, e8, e9]; simp
  · rw [submatch_opt_ne _ (by decide), submatch_opt_ne _ (by decide),
      submatch_cons_ne _ (by decide), submatch_cons_ne _ (by decide), submatch_cons_eq]
  · rw [submatch_opt_ne _ (by decide), submatch_opt_ne _ (by decide),
      submatch_cons_ne _ (by decide), submatch_cons_eq]
  · rw [submatch_opt_ne _ (by decide), submatch_opt_ne _ (by decide), submatch_cons_eq]
  · rw [submatch_opt_ne _ (by decide), submatch_opt_eq]
    rw [submatch_cons_ne _ (by decide), submatch_cons_ne _ (by decide),
      submatch_cons_ne _ (by decide)]
    rfl
  · rw [submatch_opt_eq]
    rw [submatch_opt_ne _ (by decide), submatch_cons_ne _ (by decide),
      submatch_cons_ne _ (by decide), submatch_cons_ne _ (by decide)]
    rfl

/-- A version string is matched by `FullPattern` from its first character on. -/
theorem fullPattern_complete {t v major minor patch pre build : Str}
    (h : HasParts t v major minor patch pre build) :
    matchR t FullPattern t [] ≠ [] := by
  obtain ⟨hv, hmajor, hminor, hpatch, hpre, hbuild, ht⟩ := h
  suffices hmem : ∃ x, x ∈ matchR t FullPattern t [] by
    obtain ⟨x, hx⟩ := hmem
    exact List.ne_nil_of_mem hx
  simp only [FullPattern, mem_matchR_seq]
  refine ⟨_, ⟨t, []⟩, mem_matchR_bol.mpr ⟨rfl, rfl⟩, ⟨_, []⟩,
    (recognises_opt_v t _ _ _).mpr ⟨v, hv, ht, rfl⟩, ⟨_, _⟩,
    (mem_matchR_group recognises_numericRe).mpr ⟨major, hmajor, rfl, rfl⟩, ⟨_, _⟩,
    (recognises_lit '.' t _ _ _).mpr ⟨['.'], rfl, rfl, rfl⟩, ⟨_, _⟩,
    (mem_matchR_group recognises_numericRe).mpr ⟨minor, hminor, rfl, rfl⟩, ⟨_, _⟩,
    (recognises_lit '.' t _ _ _).mpr ⟨['.'], rfl, rfl, rfl⟩, ⟨_, _⟩,
    (mem_matchR_group recognises_numericRe).mpr ⟨patch, hpatch, rfl, rfl⟩,
    ⟨segment '+' build, _⟩,
    (mem_matchR_opt_segment recognises_prereleaseRe @ValidPrerelease_ne_nil).mpr
      ⟨pre, hpre, rfl, rfl⟩, ⟨[], _⟩,
    (mem_matchR_opt_segment recognises_buildRe @ValidBuild_ne_nil).mpr
      ⟨build, hbuild, by simp, rfl⟩, mem_matchR_eol.mpr ⟨rfl, rfl⟩⟩

/-! ### A version string has only one reading -/

/-- Two ways to cut a string into a block of the class `P` and a rest that does
not continue the block are the same. -/
theorem split_unique (P : Char → Bool) :
    ∀ (a a' r r' : Str), a.all P = true → a'.all P = true →
      (∀ ch, r.head? = some ch → P ch = false) → (∀ ch, r'.head? = some ch → P ch = false) →
      a ++ r = a' ++ r' → a = a' ∧ r = r'
  | [], [], r, r', _, _, _, _, h => ⟨rfl, by simpa using h⟩
  | [], b :: bs, r, r', _, hb, hr, _, h => by
    simp only [List.nil_append, List.cons_append] at h
    simp only [List.all_cons, Bool.and_eq_true] at hb
    have := hr b (by rw [h]; rfl)
    rw [hb.1] at this
    exact Bool.noConfusion this
  | b :: bs, [], r, r', hb, _, _, hr', h => by
    simp only [List.nil_append, List.cons_append] at h
    simp only [List.all_cons, Bool.and_eq_true] at hb
    have := hr' b (by rw [← h]; rfl)
    rw [hb.1] at this
    exact Bool.noConfusion this
  | b :: bs, b' :: bs', r, r', hb, hb', hr, hr', h => by
    simp only [List.cons_append, List.cons.injEq] at h
    simp only [List.all_cons, Bool.and_eq_true] at hb hb'
    obtain ⟨h1, h2⟩ := split_unique P bs bs' r r' hb.2 hb'.2 hr hr' h.2
    exact ⟨by rw [h.1, h1], h2⟩

theorem joinDots_all (Q : Char → Bool) (hdot : Q '.' = true) (ids : List Str)
    (h : ∀ id ∈ ids, id.all Q = true) : (joinDots ids).all Q = true := by
  induction ids with
  | nil => rfl
  | cons x rest ih =>
    cases rest with
    | nil => simpa [joinDots] using h x (by simp)
    | cons y rest' =>
      have h1 := h x (by simp)
      have h2 := ih (fun id hid => h id (by simp [hid]))
      simp only [joinDots, List.all_append, List.all_cons, Bool.and_eq_true] at h2 ⊢
      exact ⟨h1, hdot, h2⟩

theorem all_of_all_alnum {Q : Char → Bool} (hQ : ∀ c, isAlnumHyphen c = true → Q c = true)
    {l : Str} (h : l.all isAlnumHyphen = true) : l.all Q = true := by
  rw [List.all_eq_true] at h ⊢
  exact fun c hc => hQ c (h c hc)

theorem segment_pre_no_plus {pre : Str} (h : pre = [] ∨ ValidPrerelease pre) :
    (segment '-' pre).all (fun c => c != '+') = true := by
  rcases h with rfl | ⟨ids, _, hv, rfl⟩
  · rfl
  · have hQ : ∀ c, isAlnumHyphen c = true → (c != '+') = true := by
      intro c hc
      simpa using isAlnumHyphen_ne_plus hc
    have := joinDots_all (fun c => c != '+') (by decide) ids
      (fun id hid => all_of_all_alnum hQ (isPrereleaseIdent_alnum (hv id hid)).2)
    unfold segment
    split
    · rfl
    · simp only [List.all_cons, Bool.and_eq_true]
      exact ⟨by decide, this⟩

theorem segment_head (sep : Char) (body : Str) (ch : Char)
    (h : (segment sep body).head? = some ch) : ch = sep := by
  unfold segment at h
  split at h
  · simp at h
  · simpa using h.symm

theorem segment_inj (sep : Char) (p q : Str) (h : segment sep p = segment sep q) : p = q := by
  unfold segment at h
  by_cases hp : p = [] <;> by_cases hq : q = [] <;> simp [hp, hq] at h ⊢
  exact h

theorem isNumericIdent_head {l : Str} (h : isNumericIdent l = true) :
    ∃ c cs, l = c :: cs ∧ isDigitChar c = true := by
  obtain ⟨h1, h2⟩ := isNumericIdent_all h
  cases l with
  | nil => exact absurd rfl h1
  | cons c cs =>
    simp only [List.all_cons, Bool.and_eq_true] at h2
    exact ⟨c, cs, rfl, h2.1⟩

theorem HasParts_unique {s v major minor patch pre build v' major' minor' patch' pre' build' : Str}
    (h : HasParts s v major minor patch pre build)
    (h' : HasParts s v' major' minor' patch' pre' build') :
    v = v' ∧ major = major' ∧ minor = minor' ∧ patch = patch' ∧ pre = pre' ∧
      build = build' := by
  obtain ⟨hv, hmajor, hminor, hpatch, hpre, hbuild, hs⟩ := h
  obtain ⟨hv', hmajor', hminor', hpatch', hpre', hbuild', hs'⟩ := h'
  have e := hs.symm.trans hs'
  have hvv : v = v' := by
    obtain ⟨c, cs, rfl, hc⟩ := isNumericIdent_head hmajor
    obtain ⟨c', cs', rfl, hc'⟩ := isNumericIdent_head hmajor'
    rcases hv with rfl | rfl <;> rcases hv' with rfl | rfl
    · rfl
    · simp only [List.nil_append, List.cons_append, List.cons.injEq] at e
      rw [e.1] at hc; exact absurd hc (by decide)
    · simp only [List.nil_append, List.cons_append, List.cons.injEq] at e
      rw [← e.1] at hc'; exact absurd hc' (by decide)
    · rfl
  subst hvv
  have e1 := List.append_cancel_left e
  have hdotd : ∀ (r : Str) (ch : Char), ('.' :: r).head? = some ch → isDigitChar ch = false := by
    intro r ch hch
    simp only [List.head?_cons, Option.some.injEq] at hch
    rw [← hch]; decide
  obtain ⟨emajor, e2⟩ := split_unique isDigitChar _ _ _ _ (isNumericIdent_all hmajor).2
    (isNumericIdent_all hmajor').2 (hdotd _) (hdotd _) e1
  simp only [List.cons.injEq, true_and] at e2
  obtain ⟨eminor, e3⟩ := split_unique isDigitChar _ _ _ _ (isNumericIdent_all hminor).2
    (isNumericIdent_all hminor').2 (hdotd _) (hdotd _) e2
  simp only [List.cons.injEq, true_and] at e3
  have hseg : ∀ (p b : Str) (ch : Char),
      (segment '-' p ++ segment '+' b).head? = some ch → isDigitChar ch = false := by
    intro p b ch hch
    by_cases hp : segment '-' p = []
    · rw [hp, List.nil_append] at hch
      rw [segment_head _ _ _ hch]; decide
    · obtain ⟨x, xs, hx⟩ := List.exists_cons_of_ne_nil hp
      have : ch = '-' := by
        apply segment_head '-' p
        rw [hx] at hch ⊢
        simpa using hch
      rw [this]; decide
  obtain ⟨epatch, e4⟩ := split_unique isDigitChar _ _ _ _ (isNumericIdent_all hpatch).2
    (isNumericIdent_all hpatch').2 (hseg _ _) (hseg _ _) e3
  have hplus : ∀ (b : Str) (ch : Char),
      (segment '+' b).head? = some ch → (ch != '+') = false := by
    intro b ch hch
    rw [segment_head _ _ _ hch]; decide
  obtain ⟨e5, e6⟩ := split_unique (fun c => c != '+') _ _ _ _ (segment_pre_no_plus hpre)
    (segment_pre_no_plus hpre') (hplus _) (hplus _) e4
  exact ⟨rfl, emajor, eminor, epatch, segment_inj _ _ _ e5, segment_inj _ _ _ e6⟩

/-! ### `FindStringSubmatch` and `Parse` -/

theorem findFrom_some {re : Regex} {t : Str} {c : Caps} :
    ∀ k, findFrom re t k = some c → ∃ j x, x ∈ matchR t re (t.drop j) [] ∧ x.2 = c := by
  intro k
  induction k with
  | zero =>
    intro h
    simp only [findFrom, Option.map_eq_some'] at h
    obtain ⟨x, hx, rfl⟩ := h
    exact ⟨t.length, x, by simpa using List.mem_of_mem_head? hx, rfl⟩
  | succ k ih =>
    intro h
    simp only [findFrom] at h
    split at h
    · rename_i r hr
      simp only [Option.some.injEq] at h
      exact ⟨_, r, List.mem_of_mem_head? hr, h⟩
    · exact ih h

theorem findFrom_head {re : Regex} {t : Str} {x : Str × Caps} {rest : List (Str × Caps)}
    (h : matchR t re t [] = x :: rest) : FindStringSubmatch re t = some x.2 := by
  unfold FindStringSubmatch
  cases ht : t.length with
  | zero =>
    have : t = [] := List.length_eq_zero.mp ht
    subst this
    simp [findFrom, h]
  | succ k =>
    have : matchR t re (t.drop (t.length - (k + 1))) [] = x :: rest := by
      rw [ht]; simpa using h
    simp only [findFrom, this, List.head?_cons]

/-- What `FindStringSubmatch FullPattern` returns on a version string. -/
theorem find_fullPattern_of_parts {t v major minor patch pre build : Str}
    (h : HasParts t v major minor patch pre build) :
    ∃ c, FindStringSubmatch FullPattern t = some c ∧
      submatch c "major".toList = major ∧ submatch c "minor".toList = minor ∧
      submatch c "patch".toList = patch ∧ submatch c "prerelease".toList = pre ∧
      submatch c "buildmetadata".toList = build := by
  have hne := fullPattern_complete h
  obtain ⟨x, rest, hx⟩ := List.exists_cons_of_ne_nil hne
  refine ⟨x.2, findFrom_head hx, ?_⟩
  have hmem : x ∈ matchR t FullPattern t [] := by rw [hx]; simp
  obtain ⟨_, v', major', minor', patch', pre', build', hp, h1, h2, h3, h4, h5⟩ :=
    fullPattern_sound hmem
  obtain ⟨_, e1, e2, e3, e4, e5⟩ := HasParts_unique h hp
  rw [e1, e2, e3, e4, e5]
  exact ⟨h1, h2, h3, h4, h5⟩

/-- `FindStringSubmatch FullPattern` finds a match only in version strings. -/
theorem parts_of_find_fullPattern {t : Str} {c : Caps}
    (h : FindStringSubmatch FullPattern t = some c) :
    ∃ v major minor patch pre build, HasParts t v major minor patch pre build := by
  obtain ⟨j, x, hx, _⟩ := findFrom_some _ h
  obtain ⟨hlen, v, major, minor, patch, pre, build, hp, _⟩ := fullPattern_sound hx
  have : t.drop j = t := by
    rw [List.length_drop] at hlen
    have hj : j = 0 ∨ t.length = 0 := by omega
    rcases hj with rfl | h0
    · rfl
    · rw [List.length_eq_zero.mp h0]; simp
  rw [this] at hp
  exact ⟨v, major, minor, patch, pre, build, hp⟩

theorem isVersionString_iff (s : Str) :
    IsVersionString s ↔ ∃ v major minor patch pre build, HasParts s v major minor patch pre build := by
  constructor
  · rintro ⟨v, major, minor, patch, pre, build, hv, h1, h2, h3, hpre, hbuild, rfl⟩
    obtain ⟨p, hp, rfl⟩ : ∃ p, (p = [] ∨ ValidPrerelease p) ∧ pre = segment '-' p := by
      rcases hpre with rfl | ⟨p, hp, rfl⟩
      · exact ⟨[], Or.inl rfl, rfl⟩
      · exact ⟨p, Or.inr hp, by simp [segment, ValidPrerelease_ne_nil hp]⟩
    obtain ⟨b, hb, rfl⟩ : ∃ b, (b = [] ∨ ValidBuild b) ∧ build = segment '+' b := by
      rcases hbuild with rfl | ⟨b, hb, rfl⟩
      · exact ⟨[], Or.inl rfl, rfl⟩
      · exact ⟨b, Or.inr hb, by simp [segment, ValidBuild_ne_nil hb]⟩
    exact ⟨v, major, minor, patch, p, b, hv, h1, h2, h3, hp, hb, by simp⟩
  · rintro ⟨v, major, minor, patch, pre, build, hv, h1, h2, h3, hpre, hbuild, rfl⟩
    refine ⟨v, major, minor, patch, segment '-' pre, segment '+' build, hv, h1, h2, h3,
      ?_, ?_, by simp⟩
    · rcases hpre with rfl | hp
      · exact Or.inl rfl
      · exact Or.inr ⟨pre, hp, by simp [segment, ValidPrerelease_ne_nil hp]⟩
    · rcases hbuild with rfl | hb
      · exact Or.inl rfl
      · exact Or.inr ⟨build, hb, by simp [segment, ValidBuild_ne_nil hb]⟩

/-- The result of `Parse` on a version string, in terms of its parts. -/
theorem Parse_of_parts {t v major minor patch pre build : Str}
    (h : HasParts t v major minor patch pre build) :
    Parse t = (⟨(Atoi major).1, (Atoi minor).1, (Atoi patch).1, pre, build⟩, none) := by
  obtain ⟨c, hc, h1, h2, h3, h4, h5⟩ := find_fullPattern_of_parts h
  unfold Parse
  rw [MatchString, hc]
  simp only [Option.isSome_some, Bool.not_true, Bool.false_eq_true, if_false,
    Option.getD_some, h1, h2, h3, h4, h5]

theorem Parse_ok_iff (s : Str) :
    (Parse s).2 = none ↔ ∃ v major minor patch pre build, HasParts s v major minor patch pre build := by
  constructor
  · intro h
    cases hf : FindStringSubmatch FullPattern s with
    | none => simp [Parse, MatchString, hf] at h
    | some c => exact parts_of_find_fullPattern hf
  · rintro ⟨v, major, minor, patch, pre, build, hp⟩
    rw [Parse_of_parts hp]

/-- C1: `Parse` succeeds exactly on the strings of the form
`[v]MAJOR.MINOR.PATCH[-PRERELEASE][+BUILD]` with numeric identifiers without
leading zeros for the core, prerelease identifiers and build identifiers as in
the grammar; a trailing newline, surrounding whitespace and an upper-case `V`
are rejected. -/
theorem parse_succeeds_iff :
    (∀ s : Str, (Parse s).2 = none ↔ IsVersionString s) ∧
    (Parse "1.0.0\n".toList).2 ≠ none ∧ (Parse " 1.0.0".toList).2 ≠ none ∧
    (Parse "1.0.0 ".toList).2 ≠ none ∧ (Parse "V1.0.0".toList).2 ≠ none := by
  refine ⟨fun s => ?_, by decide, by decide, by decide, by decide⟩
  rw [Parse_ok_iff, isVersionString_iff]

/-! ### Decimal numerals -/

theorem digitChar_spec (k : Nat) (h : k < 10) :
    isDigitChar (Nat.digitChar k) = true ∧ (Nat.digitChar k).toNat - '0'.toNat = k ∧
      (k ≠ 0 → Nat.digitChar k ≠ '0') := by
  interval_cases k <;> decide

theorem digitsVal_append_singleton (l : Str) (d : Char) :
    digitsVal (l ++ [d]) = digitsVal l * 10 + (d.toNat - '0'.toNat) := by
  simp [digitsVal, List.foldl_append]

theorem toDigitsCore_spec :
    ∀ (fuel n : Nat) (ds : Str), n < fuel →
      ∃ l : Str, Nat.toDigitsCore 10 fuel n ds = l ++ ds ∧ l.all isDigitChar = true ∧
        digitsVal l = n ∧ (n = 0 → l = ['0']) ∧ (n ≠ 0 → ∃ c cs, l = c :: cs ∧ c ≠ '0') := by
  intro fuel
  induction fuel with
  | zero => intro n ds h; exact absurd h (Nat.not_lt_zero _)
  | succ fuel ih =>
    intro n ds hn
    simp only [Nat.toDigitsCore]
    have hmod : n % 10 < 10 := Nat.mod_lt _ (by decide)
    obtain ⟨hd1, hd2, hd3⟩ := digitChar_spec (n % 10) hmod
    split
    · rename_i h0
      have hlt : n < 10 := by omega
      have hmodn : n % 10 = n := Nat.mod_eq_of_lt hlt
      refine ⟨[Nat.digitChar (n % 10)], rfl, by simp [hd1], ?_, ?_, ?_⟩
      · simp only [digitsVal, List.foldl_cons, List.foldl_nil, Nat.zero_mul, Nat.zero_add]
        rw [hd2, hmodn]
      · intro hz; subst hz; rfl
      · intro hnz
        exact ⟨_, [], rfl, hd3 (by omega)⟩
    · rename_i h0
      have hlt : n / 10 < fuel := by omega
      obtain ⟨l', h1, h2, h3, _, h5⟩ := ih (n / 10) (Nat.digitChar (n % 10) :: ds) hlt
      refine ⟨l' ++ [Nat.digitChar (n % 10)], by rw [h1]; simp, by simp [h2, hd1], ?_, ?_, ?_⟩
      · rw [digitsVal_append_singleton, h3, hd2]; omega
      · intro hz; subst hz; simp at h0
      · intro _
        obtain ⟨c, cs, rfl, hc⟩ := h5 h0
        exact ⟨c, cs ++ [Nat.digitChar (n % 10)], rfl, hc⟩

theorem toDigits_spec (n : Nat) :
    (Nat.toDigits 10 n).all isDigitChar = true ∧ digitsVal (Nat.toDigits 10 n) = n ∧
      (n = 0 → Nat.toDigits 10 n = ['0']) ∧
      (n ≠ 0 → ∃ c cs, Nat.toDigits 10 n = c :: cs ∧ c ≠ '0') := by
  obtain ⟨l, h1, h2, h3, h4, h5⟩ := toDigitsCore_spec (n + 1) n [] (Nat.lt_succ_self n)
  have : Nat.toDigits 10 n = l := by simpa [Nat.toDigits] using h1
  rw [this]
  exact ⟨h2, h3, h4, h5⟩

theorem isNumericIdent_toDigits (n : Nat) : isNumericIdent (Nat.toDigits 10 n) = true := by
  obtain ⟨h1, _, h3, h4⟩ := toDigits_spec n
  by_cases hn : n = 0
  · rw [h3 hn]; decide
  · obtain ⟨c, cs, hl, hc⟩ := h4 hn
    rw [hl] at h1 ⊢
    simp [isNumericIdent, hc, h1]

/-- On a non-empty string of digits `Atoi` returns the number the digits
denote, as long as it is at most the largest `int`. -/
theorem Atoi_digits (l : Str) (hne : l ≠ []) (hall : l.all isDigitChar = true)
    (hle : (digitsVal l : Int) ≤ maxInt) : Atoi l = ((digitsVal l : Int), false) := by
  cases l with
  | nil => exact absurd rfl hne
  | cons c cs =>
    have hc : isDigitChar c = true := by
      simp only [List.all_cons, Bool.and_eq_true] at hall
      exact hall.1
    have h1 : c ≠ '-' := by rintro rfl; exact absurd hc (by decide)
    have h2 : c ≠ '+' := by rintro rfl; exact absurd hc (by decide)
    have h3 : ¬ maxInt < (digitsVal (c :: cs) : Int) := not_lt.mpr hle
    simp [Atoi, h1, h2, hall, h3]

theorem Atoi_toDigits (n : Nat) (h : (n : Int) ≤ maxInt) :
    Atoi (Nat.toDigits 10 n) = ((n : Int), false) := by
  obtain ⟨h1, h2, _, _⟩ := toDigits_spec n
  have hne : Nat.toDigits 10 n ≠ [] := by
    intro e
    have := isNumericIdent_toDigits n
    rw [e] at this
    exact absurd this (by decide)
  have := Atoi_digits _ hne h1 (by rw [h2]; exact h)
  rw [h2] at this
  exact this

theorem formatInt_nonneg (x : Int) (h : 0 ≤ x) : formatInt x = Nat.toDigits 10 x.toNat := by
  have : ¬ x < 0 := not_lt.mpr h
  simp only [formatInt, this, if_false]
  congr 1
  omega

theorem Atoi_formatInt (x : Int) (h0 : 0 ≤ x) (h1 : x ≤ maxInt) :
    Atoi (formatInt x) = (x, false) := by
  rw [formatInt_nonneg x h0, Atoi_toDigits x.toNat (by rw [Int.toNat_of_nonneg h0]; exact h1),
    Int.toNat_of_nonneg h0]

/-! ### Formatting and parsing -/

theorem String_hasParts (v : SemVer) (h : v.Valid) :
    HasParts v.String [] (formatInt v.Major) (formatInt v.Minor) (formatInt v.Patch)
      v.PreRelease v.BuildMetadata := by
  obtain ⟨⟨h1, _⟩, ⟨h2, _⟩, ⟨h3, _⟩, hpre, hbuild⟩ := h
  refine ⟨Or.inl rfl, ?_, ?_, ?_, hpre, hbuild, ?_⟩
  · rw [formatInt_nonneg _ h1]; exact isNumericIdent_toDigits _
  · rw [formatInt_nonneg _ h2]; exact isNumericIdent_toDigits _
  · rw [formatInt_nonneg _ h3]; exact isNumericIdent_toDigits _
  · by_cases hp : v.PreRelease = [] <;> by_cases hb : v.BuildMetadata = [] <;>
      simp [SemVer.String, segment, hp, hb]

/-- C2: for every valid Version `v`, `Parse (v.String)` succeeds and returns
exactly `v`, in all five fields. -/
theorem parse_string_roundtrip (v : SemVer) (h : v.Valid) : Parse v.String = (v, none) := by
  rw [Parse_of_parts (String_hasParts v h)]
  obtain ⟨⟨h1, h1'⟩, ⟨h2, h2'⟩, ⟨h3, h3'⟩, _, _⟩ := h
  rw [Atoi_formatInt _ h1 h1', Atoi_formatInt _ h2 h2', Atoi_formatInt _ h3 h3']

/-- C2 at `1.20.3-a-b.-1+x-y.0-1`, whose identifiers contain hyphens. -/
theorem parse_string_roundtrip_witness :
    (SemVer.mk 1 20 3 "a-b.-1".toList "x-y.0-1".toList).Valid ∧
    Parse (SemVer.mk 1 20 3 "a-b.-1".toList "x-y.0-1".toList).String
      = (SemVer.mk 1 20 3 "a-b.-1".toList "x-y.0-1".toList, none) :=
  have hv : (SemVer.mk 1 20 3 "a-b.-1".toList "x-y.0-1".toList).Valid :=
    ⟨by decide, by decide, by decide,
      Or.inr ⟨["a-b".toList, "-1".toList], by decide, by decide, by decide⟩,
      Or.inr ⟨["x-y".toList, "0-1".toList], by decide, by decide, by decide⟩⟩
  ⟨hv, parse_string_roundtrip _ hv⟩

/-- The numeric rule of the identifier loop holds as long as both numbers fit an
`int`: with the same major, minor and patch and valid prereleases that agree on
the identifiers `pre` and continue with all-digit identifiers `n` and `m` of
different values, both at most the largest `int`, `Compare` is `-1` when the
value of `n` is smaller and `1` when it is larger. -/
theorem compare_numeric_in_range (major minor patch : Int) (b b' : Str)
    (pre restL restR : List Str) (n m : Str)
    (hvl : ∀ id ∈ pre ++ n :: restL, isPrereleaseIdent id = true)
    (hvr : ∀ id ∈ pre ++ m :: restR, isPrereleaseIdent id = true)
    (hn : n.all isDigitChar = true) (hm : m.all isDigitChar = true)
    (hnr : (digitsVal n : Int) ≤ maxInt) (hmr : (digitsVal m : Int) ≤ maxInt)
    (hne : digitsVal n ≠ digitsVal m) :
    (SemVer.mk major minor patch (joinDots (pre ++ n :: restL)) b).Compare
      (SemVer.mk major minor patch (joinDots (pre ++ m :: restR)) b')
        = if digitsVal n < digitsVal m then -1 else 1 := by
  have hn0 : n ≠ [] := (isPrereleaseIdent_alnum (hvl n (by simp))).1
  have hm0 : m ≠ [] := (isPrereleaseIdent_alnum (hvr m (by simp))).1
  rw [compare_same_core, comparePreRelease_joinDots _ _ (by simp) (by simp) hvl hvr,
    compareIdentifiers_append_same, compareIdentifiers, isNumeric_eq_all, isNumeric_eq_all,
    Atoi_digits n hn0 hn hnr, Atoi_digits m hm0 hm hmr]
  simp only [hn, hm, Bool.not_true, Bool.and_false, Bool.false_eq_true, if_false,
    Bool.false_and, Bool.and_self, if_true, Nat.cast_lt, gt_iff_lt]
  by_cases h : digitsVal n < digitsVal m
  · simp [h]
  · have h' : digitsVal m < digitsVal n := by omega
    simp [h, h']

/-! ## Failure, bumps and setters -/

/-- C14: whenever `Parse`, `SetPreRelease` or `SetBuildMetadata` fails, the
Version returned with the error is the zero value. -/
theorem failure_returns_zero (s : Str) (v : SemVer) (p b : Str) :
    ((Parse s).2 ≠ none → (Parse s).1 = SemVer.zero) ∧
    ((v.SetPreRelease p).2 ≠ none → (v.SetPreRelease p).1 = SemVer.zero) ∧
    ((v.SetBuildMetadata b).2 ≠ none → (v.SetBuildMetadata b).1 = SemVer.zero) := by
  refine ⟨?_, ?_, ?_⟩
  · unfold Parse
    split
    · intro _; rfl
    · intro h; exact absurd rfl h
  · unfold SemVer.SetPreRelease
    split
    · intro _; rfl
    · intro h; exact absurd rfl h
  · unfold SemVer.SetBuildMetadata
    split
    · intro _; rfl
    · intro h; exact absurd rfl h

/-- C14 at `Parse "1.0.0-beta.01"`, `SetPreRelease "1.01"` and
`SetBuildMetadata "a."` on `1.2.3-rc+x`. -/
theorem failure_returns_zero_witness :
    ((Parse "1.0.0-beta.01".toList).2 ≠ none ∧
      (Parse "1.0.0-beta.01".toList).1 = SemVer.zero) ∧
    (((SemVer.mk 1 2 3 "rc".toList "x".toList).SetPreRelease "1.01".toList).2 ≠ none ∧
      ((SemVer.mk 1 2 3 "rc".toList "x".toList).SetPreRelease "1.01".toList).1
        = SemVer.zero) ∧
    (((SemVer.mk 1 2 3 "rc".toList "x".toList).SetBuildMetadata "a.".toList).2 ≠ none ∧
      ((SemVer.mk 1 2 3 "rc".toList "x".toList).SetBuildMetadata "a.".toList).1
        = SemVer.zero) :=
  ⟨⟨by decide, (failure_returns_zero "1.0.0-beta.01".toList
      (SemVer.mk 1 2 3 "rc".toList "x".toList) "1.01".toList "a.".toList).1 (by decide)⟩,
   ⟨by decide, (failure_returns_zero "1.0.0-beta.01".toList
      (SemVer.mk 1 2 3 "rc".toList "x".toList) "1.01".toList "a.".toList).2.1 (by decide)⟩,
   ⟨by decide, (failure_returns_zero "1.0.0-beta.01".toList
      (SemVer.mk 1 2 3 "rc".toList "x".toList) "1.01".toList "a.".toList).2.2 (by decide)⟩⟩

theorem wrapInt_of_isInt (x : Int) (h : IsInt x) : wrapInt x = x := by
  unfold IsInt minInt maxInt at h
  unfold wrapInt
  omega

theorem wrapInt_maxInt_succ : wrapInt (maxInt + 1) = minInt := by decide

/-- C18 fails as stated at the largest `int`: `BumpMajor`, `BumpMinor` and
`BumpPatch` of `9223372036854775807.9223372036854775807.9223372036854775807` do
not hold the field plus one, the field wraps around to the smallest `int`. -/
theorem bump_at_maxInt :
    (SemVer.mk maxInt maxInt maxInt [] []).BumpMajor ≠ SemVer.mk (maxInt + 1) 0 0 [] [] ∧
    (SemVer.mk maxInt maxInt maxInt [] []).BumpMinor
      ≠ SemVer.mk maxInt (maxInt + 1) 0 [] [] ∧
    (SemVer.mk maxInt maxInt maxInt [] []).BumpPatch
      ≠ SemVer.mk maxInt maxInt (maxInt + 1) [] [] ∧
    (SemVer.mk maxInt maxInt maxInt [] []).BumpMajor = SemVer.mk minInt 0 0 [] [] := by
  decide

/-- C18, amended: for every Version `v` (its numeric fields being `int`s), a
bump of a field below the largest `int` increments that field by one; every
bump leaves the higher fields as they are, resets the lower fields to `0` and
clears prerelease and build metadata whatever they were; at the largest `int`
the bumped field wraps around to the smallest `int`. -/
theorem bump_spec (v : SemVer) (hM : IsInt v.Major) (hm : IsInt v.Minor)
    (hp : IsInt v.Patch) :
    (v.Major < maxInt → v.BumpMajor = SemVer.mk (v.Major + 1) 0 0 [] []) ∧
    (v.Minor < maxInt → v.BumpMinor = SemVer.mk v.Major (v.Minor + 1) 0 [] []) ∧
    (v.Patch < maxInt → v.BumpPatch = SemVer.mk v.Major v.Minor (v.Patch + 1) [] []) ∧
    (v.Major = maxInt → v.BumpMajor = SemVer.mk minInt 0 0 [] []) ∧
    (v.Minor = maxInt → v.BumpMinor = SemVer.mk v.Major minInt 0 [] []) ∧
    (v.Patch = maxInt → v.BumpPatch = SemVer.mk v.Major v.Minor minInt [] []) := by
  have hw : ∀ x : Int, IsInt x → x < maxInt → wrapInt (x + 1) = x + 1 := by
    intro x hx hlt
    apply wrapInt_of_isInt
    unfold IsInt minInt maxInt at *
    omega
  refine ⟨?_, ?_, ?_, ?_, ?_, ?_⟩
  · intro h; simp [SemVer.BumpMajor, hw _ hM h]
  · intro h; simp [SemVer.BumpMinor, hw _ hm h]
  · intro h; simp [SemVer.BumpPatch, hw _ hp h]
  · intro h; simp [SemVer.BumpMajor, h, wrapInt_maxInt_succ]
  · intro h; simp [SemVer.BumpMinor, h, wrapInt_maxInt_succ]
  · intro h; simp [SemVer.BumpPatch, h, wrapInt_maxInt_succ]

/-- C18, amended, at `1.2.3-rc.1+build`. -/
theorem bump_spec_witness :
    (SemVer.mk 1 2 3 "rc.1".toList "build".toList).BumpMajor = SemVer.mk 2 0 0 [] [] ∧
    (SemVer.mk 1 2 3 "rc.1".toList "build".toList).BumpMinor = SemVer.mk 1 3 0 [] [] ∧
    (SemVer.mk 1 2 3 "rc.1".toList "build".toList).BumpPatch = SemVer.mk 1 2 4 [] [] :=
  have h := bump_spec (SemVer.mk 1 2 3 "rc.1".toList "build".toList)
    (by decide) (by decide) (by decide)
  ⟨h.1 (by decide), h.2.1 (by decide), h.2.2.1 (by decide)⟩

/-- C20: whenever `v.SetPreRelease p` succeeds, the result has prerelease `p` and
the major, minor, patch and build metadata of `v`; `SetPreRelease ""` always
succeeds and yields `v` with the prerelease cleared. -/
theorem setPreRelease_frame (v : SemVer) (p : Str) :
    ((v.SetPreRelease p).2 = none →
      (v.SetPreRelease p).1 = { v with PreRelease := p }) ∧
    v.SetPreRelease [] = ({ v with PreRelease := [] }, none) := by
  constructor
  · unfold SemVer.SetPreRelease
    split
    · intro h; simp at h
    · intro _; rfl
  · simp [SemVer.SetPreRelease]

/-- C20 at `1.2.3-rc+x` with the prerelease `alpha.1`. -/
theorem setPreRelease_frame_witness :
    ((SemVer.mk 1 2 3 "rc".toList "x".toList).SetPreRelease "alpha.1".toList).2 = none ∧
    ((SemVer.mk 1 2 3 "rc".toList "x".toList).SetPreRelease "alpha.1".toList).1
      = SemVer.mk 1 2 3 "alpha.1".toList "x".toList :=
  ⟨by decide, (setPreRelease_frame (SemVer.mk 1 2 3 "rc".toList "x".toList)
    "alpha.1".toList).1 (by decide)⟩

/-! ## Formatting -/

theorem formatInt_isDecimalOf (x : Int) : IsDecimalOf x (formatInt x) :=
  ⟨Nat.toDigits 10 x.natAbs, isNumericIdent_toDigits _, (toDigits_spec _).2.1, rfl⟩

theorem formatInt_head (x : Int) :
    ∃ c cs, formatInt x = c :: cs ∧ (c = '-' ∨ isDigitChar c = true) := by
  unfold formatInt
  split
  · exact ⟨'-', _, rfl, Or.inl rfl⟩
  · obtain ⟨c, cs, h1, h2⟩ := isNumericIdent_head (isNumericIdent_toDigits x.natAbs)
    exact ⟨c, cs, h1, Or.inr h2⟩

theorem String_eq (v : SemVer) :
    v.String = formatInt v.Major ++ '.' :: formatInt v.Minor ++ '.' :: formatInt v.Patch ++
      segment '-' v.PreRelease ++ segment '+' v.BuildMetadata := by
  by_cases hp : v.PreRelease = [] <;> by_cases hb : v.BuildMetadata = [] <;>
    simp [SemVer.String, segment, hp, hb]

/-- C15: for every Version `v`, `v.String` is the decimal major, `'.'`, the
decimal minor, `'.'`, the decimal patch, then `'-'` and the prerelease exactly
when the prerelease is non-empty, then `'+'` and the build metadata exactly when
the build metadata is non-empty; it never starts with `'v'`. -/
theorem string_format (v : SemVer) :
    v.String = formatInt v.Major ++ '.' :: formatInt v.Minor ++ '.' :: formatInt v.Patch ++
      segment '-' v.PreRelease ++ segment '+' v.BuildMetadata ∧
    IsDecimalOf v.Major (formatInt v.Major) ∧ IsDecimalOf v.Minor (formatInt v.Minor) ∧
    IsDecimalOf v.Patch (formatInt v.Patch) ∧
    v.String.head? ≠ some 'v' := by
  refine ⟨String_eq v, formatInt_isDecimalOf _, formatInt_isDecimalOf _,
    formatInt_isDecimalOf _, ?_⟩
  obtain ⟨c, cs, h1, h2⟩ := formatInt_head v.Major
  rw [String_eq, h1]
  simp only [List.cons_append, List.head?_cons, ne_eq, Option.some.injEq]
  rintro rfl
  rcases h2 with h2 | h2
  · exact absurd h2 (by decide)
  · exact absurd h2 (by decide)

/-! ## The prefix `v` -/

theorem Parse_ok_of_parts {s v major minor patch pre build : Str}
    (h : HasParts s v major minor patch pre build) : (Parse s).2 = none := by
  rw [Parse_of_parts h]

theorem not_hasParts_vv (s v major minor patch pre build : Str) :
    ¬ HasParts ('v' :: 'v' :: s) v major minor patch pre build := by
  rintro ⟨hv, hmajor, _, _, _, _, hs⟩
  obtain ⟨c, cs, rfl, hc⟩ := isNumericIdent_head hmajor
  rcases hv with rfl | rfl
  · simp only [List.nil_append, List.cons_append, List.cons.injEq] at hs
    rw [← hs.1] at hc; exact absurd hc (by decide)
  · simp only [List.cons_append, List.nil_append, List.cons.injEq, true_and] at hs
    rw [← hs.1] at hc; exact absurd hc (by decide)

/-- C17: for every string `s` that `Parse` accepts and that does not start with
`'v'`, `Parse ("v" + s)` succeeds as well and returns the same Version;
`"vv" + s` is rejected. -/
theorem parse_v_prefix (s : Str) (h : (Parse s).2 = none) (hv : s.head? ≠ some 'v') :
    (Parse ('v' :: s)).2 = none ∧ (Parse ('v' :: s)).1 = (Parse s).1 ∧
    (Parse ('v' :: 'v' :: s)).2 ≠ none := by
  obtain ⟨v, major, minor, patch, pre, build, hp⟩ := (Parse_ok_iff s).mp h
  have hv0 : v = [] := by
    rcases hp.1 with h0 | h0
    · exact h0
    · exfalso
      apply hv
      rw [hp.2.2.2.2.2.2, h0]; rfl
  subst hv0
  have hp' : HasParts ('v' :: s) ['v'] major minor patch pre build := by
    obtain ⟨_, h1, h2, h3, h4, h5, h6⟩ := hp
    exact ⟨Or.inr rfl, h1, h2, h3, h4, h5, by rw [h6]; rfl⟩
  refine ⟨Parse_ok_of_parts hp', by rw [Parse_of_parts hp', Parse_of_parts hp], ?_⟩
  intro hvv
  obtain ⟨v2, major2, minor2, patch2, pre2, build2, hp2⟩ := (Parse_ok_iff _).mp hvv
  exact not_hasParts_vv _ _ _ _ _ _ _ hp2

/-- C17 at `1.2.3-rc.1+b`. -/
theorem parse_v_prefix_witness :
    (Parse "v1.2.3-rc.1+b".toList).2 = none ∧
    (Parse "v1.2.3-rc.1+b".toList).1 = (Parse "1.2.3-rc.1+b".toList).1 ∧
    (Parse "vv1.2.3-rc.1+b".toList).2 ≠ none :=
  parse_v_prefix "1.2.3-rc.1+b".toList (by decide) (by decide)

/-! ## The setters' patterns -/

/-- A pattern that starts with `^` matches a text only from its first character. -/
theorem matchString_anchored (r : Regex) (t : Str) :
    MatchString (.seq .bol r) t = true ↔ matchR t (.seq .bol r) t [] ≠ [] := by
  unfold MatchString
  constructor
  · intro h
    obtain ⟨c, hc⟩ := Option.isSome_iff_exists.mp h
    obtain ⟨j, x, hx, _⟩ := findFrom_some _ hc
    have hx' := hx
    rw [mem_matchR_seq] at hx'
    obtain ⟨y, hy, _⟩ := hx'
    rw [mem_matchR_bol] at hy
    have hlen := hy.1
    have : t.drop j = t := by
      rw [List.length_drop] at hlen
      have hj : j = 0 ∨ t.length = 0 := by omega
      rcases hj with rfl | h0
      · rfl
      · rw [List.length_eq_zero.mp h0]; simp
    rw [this] at hx
    exact List.ne_nil_of_mem hx
  · intro h
    obtain ⟨x, rest, hx⟩ := List.exists_cons_of_ne_nil h
    rw [findFrom_head hx]; rfl

/-- A pattern `^(?P<name>r)?$` matches the empty text and the words of `L`. -/
theorem matchString_opt_group {r : Regex} {L : Str → Prop} (hr : Recognises r L)
    (name : Str) (t : Str) :
    MatchString (.seq .bol (.seq (opt (.group name r)) .eol)) t = true ↔ t = [] ∨ L t := by
  rw [matchString_anchored]
  constructor
  · intro h
    obtain ⟨x, rest, hx⟩ := List.exists_cons_of_ne_nil h
    have hmem : x ∈ matchR t (.seq .bol (.seq (opt (.group name r)) .eol)) t [] := by
      rw [hx]; simp
    simp only [mem_matchR_seq] at hmem
    obtain ⟨⟨s0, c0⟩, h0, ⟨s1, c1⟩, h1, h2⟩ := hmem
    rw [mem_matchR_bol] at h0
    obtain ⟨rfl, rfl⟩ := Prod.mk.inj h0.2
    rw [mem_matchR_eol] at h2
    simp only at h2
    unfold opt at h1
    rw [mem_matchR_alt, mem_matchR_empty] at h1
    rcases h1 with h1 | h1
    · obtain ⟨l, hl, e, _⟩ := (mem_matchR_group hr).mp h1
      simp only at e
      rw [h2.1, List.append_nil] at e
      exact Or.inr (e ▸ hl)
    · obtain ⟨e, _⟩ := Prod.mk.inj h1
      simp only at e
      exact Or.inl (by rw [← e]; exact h2.1)
  · intro h
    suffices hmem : ∃ x, x ∈ matchR t (.seq .bol (.seq (opt (.group name r)) .eol)) t [] by
      obtain ⟨x, hx⟩ := hmem
      exact List.ne_nil_of_mem hx
    simp only [mem_matchR_seq]
    rcases h with rfl | h
    · refine ⟨([], []), ⟨[], []⟩, mem_matchR_bol.mpr ⟨rfl, rfl⟩, ⟨[], []⟩, ?_,
        mem_matchR_eol.mpr ⟨rfl, rfl⟩⟩
      unfold opt
      rw [mem_matchR_alt, mem_matchR_empty]
      exact Or.inr rfl
    · refine ⟨([], [(name, t)]), ⟨t, []⟩, mem_matchR_bol.mpr ⟨rfl, rfl⟩,
        ⟨[], [(name, t)]⟩, ?_, mem_matchR_eol.mpr ⟨rfl, rfl⟩⟩
      unfold opt
      rw [mem_matchR_alt]
      exact Or.inl ((mem_matchR_group hr).mpr ⟨t, h, by simp, rfl⟩)

theorem matchString_PrereleasePattern (p : Str) :
    MatchString PrereleasePattern p = true ↔ p = [] ∨ ValidPrerelease p :=
  matchString_opt_group recognises_prereleaseRe _ p

theorem matchString_BuildmetadataPattern (b : Str) :
    MatchString BuildmetadataPattern b = true ↔ b = [] ∨ ValidBuild b :=
  matchString_opt_group recognises_buildRe _ b

theorem setPreRelease_ok_iff_valid (v : SemVer) (p : Str) :
    (v.SetPreRelease p).2 = none ↔ p = [] ∨ ValidPrerelease p := by
  rw [← matchString_PrereleasePattern]
  unfold SemVer.SetPreRelease
  by_cases hp : p = []
  · subst hp
    simp only [bne_self_eq_false, Bool.and_false, Bool.false_eq_true, if_false, true_iff]
    decide
  · by_cases hm : MatchString PrereleasePattern p = true
    · simp [hm]
    · simp [hm, hp]

theorem hasParts_zero_prerelease {p : Str} (h : ValidPrerelease p) :
    HasParts ("0.0.0-".toList ++ p) [] ['0'] ['0'] ['0'] p [] := by
  refine ⟨Or.inl rfl, by decide, by decide, by decide, Or.inr h, Or.inl rfl, ?_⟩
  simp [segment, ValidPrerelease_ne_nil h]

/-- C19: `SetPreRelease p` succeeds exactly when `p` is empty or follows the
prerelease grammar; for a non-empty `p` that is exactly when
`Parse ("0.0.0-" + p)` succeeds with prerelease `p` and empty build metadata. -/
theorem setPreRelease_succeeds_iff (v : SemVer) (p : Str) :
    ((v.SetPreRelease p).2 = none ↔ p = [] ∨ ValidPrerelease p) ∧
    (p ≠ [] →
      ((v.SetPreRelease p).2 = none ↔
        ((Parse ("0.0.0-".toList ++ p)).2 = none ∧
          (Parse ("0.0.0-".toList ++ p)).1.PreRelease = p ∧
          (Parse ("0.0.0-".toList ++ p)).1.BuildMetadata = []))) := by
  refine ⟨setPreRelease_ok_iff_valid v p, fun hp => ?_⟩
  rw [setPreRelease_ok_iff_valid]
  constructor
  · intro h
    have hv : ValidPrerelease p := h.resolve_left hp
    rw [Parse_of_parts (hasParts_zero_prerelease hv)]
    exact ⟨rfl, rfl, rfl⟩
  · rintro ⟨h1, h2, _⟩
    obtain ⟨v', major, minor, patch, pre, build, hparts⟩ := (Parse_ok_iff _).mp h1
    rw [Parse_of_parts hparts] at h2
    simp only at h2
    subst h2
    exact Or.inr (hparts.2.2.2.2.1.resolve_left hp)

/-- C19 at the prerelease `alpha.1`. -/
theorem setPreRelease_succeeds_iff_witness :
    ((SemVer.mk 1 2 3 [] []).SetPreRelease "alpha.1".toList).2 = none ↔
      ((Parse "0.0.0-alpha.1".toList).2 = none ∧
        (Parse "0.0.0-alpha.1".toList).1.PreRelease = "alpha.1".toList ∧
        (Parse "0.0.0-alpha.1".toList).1.BuildMetadata = []) :=
  (setPreRelease_succeeds_iff (SemVer.mk 1 2 3 [] []) "alpha.1".toList).2 (by decide)

/-! ## Transitivity -/

theorem strLess_trans : ∀ x y z : Str, strLess x y = true → strLess y z = true →
    strLess x z = true
  | [], _, [] => by
    intro h1 h2
    cases ‹Str› <;> simp [strLess] at h1 h2
  | [], _, _ :: _ => by intro _ _; simp [strLess]
  | _ :: _, [], _ => by intro h1; simp [strLess] at h1
  | _ :: _, _ :: _, [] => by intro _ h2; simp [strLess] at h2
  | a :: as, b :: bs, c :: cs => by
    intro h1 h2
    simp only [strLess] at h1 h2 ⊢
    by_cases hab : a < b
    · by_cases hbc : b < c
      · simp [lt_trans hab hbc]
      · by_cases hcb : c < b
        · simp [hbc, hcb] at h2
        · have hEq : b = c := le_antisymm (not_lt.mp hcb) (not_lt.mp hbc)
          subst hEq
          simp [hab]
    · by_cases hba : b < a
      · simp [hab, hba] at h1
      · have hEq : a = b := le_antisymm (not_lt.mp hba) (not_lt.mp hab)
        subst hEq
        simp only [hab, if_false] at h1
        by_cases hac : a < c
        · simp [hac]
        · by_cases hca : c < a
          · simp [hac, hca] at h2
          · simp only [hac, hca, if_false] at h2 ⊢
            exact strLess_trans as bs cs h1 h2

theorem id_trichotomy (x y : Str) : idLt x y ∨ idEq x y ∨ idLt y x := by
  unfold idLt idEq
  cases hx : isNumeric x <;> cases hy : isNumeric y
  · by_cases hxy : x = y
    · simp [hxy]
    · rcases strLess_total x y hxy with h | h
      · simp [h]
      · simp [h]
  · simp
  · simp
  · rcases lt_trichotomy (Atoi x).1 (Atoi y).1 with h | h | h
    · simp [h]
    · simp [h]
    · simp [h]

theorem compareIdentifiers_of_idLt {x y : Str} (h : idLt x y) (l r : List Str) :
    compareIdentifiers (x :: l) (y :: r) = -1 := by
  rw [compareIdentifiers]
  rcases h with ⟨h1, h2⟩ | ⟨h1, h2, h3⟩ | ⟨h1, h2, h3⟩
  · simp [h1, h2]
  · simp [h1, h2, h3]
  · simp [h1, h2, h3]

theorem compareIdentifiers_of_idGt {x y : Str} (h : idLt y x) (l r : List Str) :
    compareIdentifiers (x :: l) (y :: r) = 1 := by
  rw [compareIdentifiers_antisymm, compareIdentifiers_of_idLt h]; rfl

theorem compareIdentifiers_of_idEq {x y : Str} (h : idEq x y) (l r : List Str) :
    compareIdentifiers (x :: l) (y :: r) = compareIdentifiers l r := by
  rw [compareIdentifiers]
  rcases h with ⟨h1, h2, h3⟩ | ⟨h1, h2, h3⟩
  · simp [h1, h2, h3]
  · subst h3; simp [h1, strLess_irrefl]

theorem idLt_trans {x y z : Str} (h1 : idLt x y) (h2 : idLt y z) : idLt x z := by
  unfold idLt at *
  rcases h1 with ⟨a1, a2⟩ | ⟨a1, a2, a3⟩ | ⟨a1, a2, a3⟩ <;>
    rcases h2 with ⟨b1, b2⟩ | ⟨b1, b2, b3⟩ | ⟨b1, b2, b3⟩ <;>
    simp_all
  · exact lt_trans a3 b3
  · exact strLess_trans x y z a3 b3

theorem idLt_of_idEq_idLt {x y z : Str} (h1 : idEq x y) (h2 : idLt y z) : idLt x z := by
  unfold idLt idEq at *
  rcases h1 with ⟨a1, a2, a3⟩ | ⟨a1, a2, a3⟩ <;>
    rcases h2 with ⟨b1, b2⟩ | ⟨b1, b2, b3⟩ | ⟨b1, b2, b3⟩ <;>
    simp_all

theorem idLt_of_idLt_idEq {x y z : Str} (h1 : idLt x y) (h2 : idEq y z) : idLt x z := by
  unfold idLt idEq at *
  rcases h1 with ⟨a1, a2⟩ | ⟨a1, a2, a3⟩ | ⟨a1, a2, a3⟩ <;>
    rcases h2 with ⟨b1, b2, b3⟩ | ⟨b1, b2, b3⟩ <;>
    simp_all

theorem idEq_trans {x y z : Str} (h1 : idEq x y) (h2 : idEq y z) : idEq x z := by
  unfold idEq at *
  rcases h1 with ⟨a1, a2, a3⟩ | ⟨a1, a2, a3⟩ <;>
    rcases h2 with ⟨b1, b2, b3⟩ | ⟨b1, b2, b3⟩ <;>
    simp_all

theorem compareIdentifiers_trans :
    ∀ l r s : List Str, compareIdentifiers l r ≤ 0 → compareIdentifiers r s ≤ 0 →
      compareIdentifiers l s ≤ 0
  | [], _, [] => by intro _ _; simp [compareIdentifiers]
  | [], _, _ :: _ => by intro _ _; simp [compareIdentifiers]
  | _ :: _, [], _ => by intro h; simp [compareIdentifiers] at h
  | _ :: _, _ :: _, [] => by intro _ h; simp [compareIdentifiers] at h
  | x :: l, y :: r, z :: s => by
    intro h1 h2
    rcases id_trichotomy x y with hxy | hxy | hxy
    · rcases id_trichotomy y z with hyz | hyz | hyz
      · rw [compareIdentifiers_of_idLt (idLt_trans hxy hyz)]; decide
      · rw [compareIdentifiers_of_idLt (idLt_of_idLt_idEq hxy hyz)]; decide
      · rw [compareIdentifiers_of_idGt hyz] at h2; exact absurd h2 (by decide)
    · rcases id_trichotomy y z with hyz | hyz | hyz
      · rw [compareIdentifiers_of_idLt (idLt_of_idEq_idLt hxy hyz)]; decide
      · rw [compareIdentifiers_of_idEq hxy] at h1
        rw [compareIdentifiers_of_idEq hyz] at h2
        rw [compareIdentifiers_of_idEq (idEq_trans hxy hyz)]
        exact compareIdentifiers_trans l r s h1 h2
      · rw [compareIdentifiers_of_idGt hyz] at h2; exact absurd h2 (by decide)
    · rw [compareIdentifiers_of_idGt hxy] at h1; exact absurd h1 (by decide)

theorem comparePreRelease_trans (p q r : Str) (h1 : comparePreRelease p q ≤ 0)
    (h2 : comparePreRelease q r ≤ 0) : comparePreRelease p r ≤ 0 := by
  unfold comparePreRelease at *
  by_cases hp : p = [] <;> by_cases hq : q = [] <;> by_cases hr : r = [] <;>
    simp [hp, hq, hr] at h1 h2 ⊢
  exact compareIdentifiers_trans _ _ _ h1 h2

theorem compare_le_iff (a b : SemVer) :
    a.Compare b ≤ 0 ↔ a.Major < b.Major ∨ (a.Major = b.Major ∧ (a.Minor < b.Minor ∨
      (a.Minor = b.Minor ∧ (a.Patch < b.Patch ∨
        (a.Patch = b.Patch ∧ comparePreRelease a.PreRelease b.PreRelease ≤ 0))))) := by
  unfold SemVer.Compare
  rcases lt_trichotomy a.Major b.Major with h | h | h
  · simp [h]
  · rcases lt_trichotomy a.Minor b.Minor with h' | h' | h'
    · simp [h, h']
    · rcases lt_trichotomy a.Patch b.Patch with h'' | h'' | h''
      · simp [h, h', h'']
      · by_cases h0 : comparePreRelease a.PreRelease b.PreRelease = 0
        · simp [h, h', h'', h0]
        · simp [h, h', h'', h0]
      · have h2 : ¬ a.Patch < b.Patch := not_lt.mpr (le_of_lt h'')
        have h3 : a.Patch ≠ b.Patch := ne_of_gt h''
        simp [h, h', h'', h2, h3]
    · have h2 : ¬ a.Minor < b.Minor := not_lt.mpr (le_of_lt h')
      have h3 : a.Minor ≠ b.Minor := ne_of_gt h'
      simp [h, h', h2, h3]
  · have h2 : ¬ a.Major < b.Major := not_lt.mpr (le_of_lt h)
    have h3 : a.Major ≠ b.Major := ne_of_gt h
    simp [h, h2, h3]

/-- C11: `Compare` is transitive: for all Versions `a`, `b` and `c`, if
`a.Compare b ≤ 0` and `b.Compare c ≤ 0` then `a.Compare c ≤ 0`. -/
theorem compare_trans (a b c : SemVer) (hab : a.Compare b ≤ 0) (hbc : b.Compare c ≤ 0) :
    a.Compare c ≤ 0 := by
  rw [compare_le_iff] at hab hbc ⊢
  rcases hab with h1 | ⟨e1, h1 | ⟨e2, h1 | ⟨e3, h1⟩⟩⟩ <;>
    rcases hbc with h2 | ⟨f1, h2 | ⟨f2, h2 | ⟨f3, h2⟩⟩⟩
  all_goals first
    | exact Or.inl (by omega)
    | exact Or.inr ⟨by omega, Or.inl (by omega)⟩
    | exact Or.inr ⟨by omega, Or.inr ⟨by omega, Or.inl (by omega)⟩⟩
    | exact Or.inr ⟨by omega, Or.inr ⟨by omega, Or.inr ⟨by omega,
        comparePreRelease_trans _ _ _ h1 h2⟩⟩⟩

/-- C11 at `1.0.0-alpha`, `1.0.0-alpha.1` and `1.0.0`. -/
theorem compare_trans_witness :
    (SemVer.mk 1 0 0 "alpha".toList []).Compare (SemVer.mk 1 0 0 "alpha.1".toList []) ≤ 0 ∧
    (SemVer.mk 1 0 0 "alpha.1".toList []).Compare (SemVer.mk 1 0 0 [] []) ≤ 0 ∧
    (SemVer.mk 1 0 0 "alpha".toList []).Compare (SemVer.mk 1 0 0 [] []) ≤ 0 :=
  ⟨by decide, by decide,
    compare_trans (SemVer.mk 1 0 0 "alpha".toList []) (SemVer.mk 1 0 0 "alpha.1".toList [])
      (SemVer.mk 1 0 0 [] []) (by decide) (by decide)⟩

/-! ## Rejected strings -/

theorem Split_append_sep_general (a b : Str) (sep : Char) :
    Split (a ++ sep :: b) sep = Split a sep ++ Split b sep := by
  induction a with
  | nil => simp [Split]
  | cons c cs ih =>
    by_cases hc : c = sep
    · simp [Split, hc, ih]
    · obtain ⟨h, rest, hs⟩ := List.exists_cons_of_ne_nil (Split_ne_nil cs sep)
      simp [Split, hc, ih, hs]

theorem nil_mem_Split_of_hasEmptyIdentifier {p : Str} (h : HasEmptyIdentifier p) :
    [] ∈ Split p '.' := by
  rcases h with rfl | ⟨r, rfl⟩ | ⟨q, rfl⟩ | ⟨a, b, rfl⟩
  · simp [Split]
  · simp [Split]
  · rw [Split_append_sep_general]; simp [Split]
  · rw [Split_append_sep_general]; simp [Split]

theorem takeWhile_dropWhile_split (P : Char → Bool) (a r : Str) (ha : a.all P = true)
    (hr : ∀ ch, r.head? = some ch → P ch = false) :
    (a ++ r).takeWhile P = a ∧ (a ++ r).dropWhile P = r := by
  induction a with
  | nil =>
    cases r with
    | nil => simp
    | cons c cs =>
      have := hr c rfl
      simp [List.takeWhile, List.dropWhile, this]
  | cons c cs ih =>
    simp only [List.all_cons, Bool.and_eq_true] at ha
    obtain ⟨h1, h2⟩ := ih ha.2
    simp [List.takeWhile, List.dropWhile, ha.1, h1, h2]

theorem segment_all (Q : Char → Bool) (sep : Char) (body : Str) (hsep : Q sep = true)
    (hbody : body.all Q = true) : (segment sep body).all Q = true := by
  unfold segment
  split
  · rfl
  · simp [hsep, hbody]

theorem ValidPrerelease_all {Q : Char → Bool} (hdot : Q '.' = true)
    (hQ : ∀ c, isAlnumHyphen c = true → Q c = true) {p : Str}
    (h : p = [] ∨ ValidPrerelease p) : p.all Q = true := by
  rcases h with rfl | ⟨ids, _, hv, rfl⟩
  · rfl
  · exact joinDots_all Q hdot ids
      (fun id hid => all_of_all_alnum hQ (isPrereleaseIdent_alnum (hv id hid)).2)

theorem isNumericIdent_all' {Q : Char → Bool} (hQ : ∀ c, isAlnumHyphen c = true → Q c = true)
    {l : Str} (h : isNumericIdent l = true) : l.all Q = true := by
  have h2 := (isNumericIdent_all h).2
  rw [List.all_eq_true] at h2 ⊢
  exact fun c hc => hQ c (isDigitChar_alnum (h2 c hc))

/-- The core of a version string, and what follows it. -/
theorem hasParts_core {s v major minor patch pre build : Str}
    (h : HasParts s v major minor patch pre build) :
    coreOf s = v ++ (major ++ '.' :: (minor ++ '.' :: patch)) ∧
    s.dropWhile (fun c => c != '-' && c != '+') = segment '-' pre ++ segment '+' build := by
  obtain ⟨hv, hmajor, hminor, hpatch, hpre, hbuild, hs⟩ := h
  have hs' : s = (v ++ (major ++ '.' :: (minor ++ '.' :: patch))) ++
      (segment '-' pre ++ segment '+' build) := by rw [hs]; simp
  have hQ : ∀ c, isDigitChar c = true → (c != '-' && c != '+') = true := by
    intro c hc
    have h1 : c ≠ '-' := by rintro rfl; exact absurd hc (by decide)
    have h2 : c ≠ '+' := by rintro rfl; exact absurd hc (by decide)
    simp [h1, h2]
  have hnum : ∀ l, isNumericIdent l = true → l.all (fun c => c != '-' && c != '+') = true := by
    intro l hl
    have h2 := (isNumericIdent_all hl).2
    rw [List.all_eq_true] at h2 ⊢
    exact fun c hc => hQ c (h2 c hc)
  have hcore : (v ++ (major ++ '.' :: (minor ++ '.' :: patch))).all
      (fun c => c != '-' && c != '+') = true := by
    have hvall : v.all (fun c => c != '-' && c != '+') = true := by
      rcases hv with rfl | rfl <;> decide
    simp only [List.all_append, List.all_cons, Bool.and_eq_true]
    exact ⟨hvall, hnum _ hmajor, by decide, hnum _ hminor, by decide, hnum _ hpatch⟩
  have hrest : ∀ ch, (segment '-' pre ++ segment '+' build).head? = some ch →
      (ch != '-' && ch != '+') = false := by
    intro ch hch
    by_cases hp : segment '-' pre = []
    · rw [hp, List.nil_append] at hch
      rw [segment_head _ _ _ hch]; decide
    · obtain ⟨x, xs, hx⟩ := List.exists_cons_of_ne_nil hp
      have : ch = '-' := by
        apply segment_head '-' pre
        rw [hx] at hch ⊢
        simpa using hch
      rw [this]; decide
  obtain ⟨h1, h2⟩ := takeWhile_dropWhile_split _ _ _ hcore hrest
  unfold coreOf
  rw [hs']
  exact ⟨h1, h2⟩

theorem hasParts_core_components {s v major minor patch pre build : Str}
    (h : HasParts s v major minor patch pre build) :
    Split (coreOf s) '.' = [v ++ major, minor, patch] := by
  rw [(hasParts_core h).1]
  obtain ⟨hv, hmajor, hminor, hpatch, _, _, _⟩ := h
  have hnodot : ∀ l, isNumericIdent l = true → '.' ∉ l := by
    intro l hl
    have h2 := (isNumericIdent_all hl).2
    rw [List.all_eq_true] at h2
    intro hm
    exact absurd (h2 _ hm) (by decide)
  have hv' : '.' ∉ v ++ major := by
    intro hm
    rcases List.mem_append.mp hm with hm | hm
    · rcases hv with rfl | rfl
      · simp at hm
      · simp at hm
    · exact hnodot _ hmajor hm
  rw [← List.append_assoc, Split_append_sep _ _ _ hv', Split_append_sep _ _ _ (hnodot _ hminor),
    Split_of_not_mem _ _ (hnodot _ hpatch)]

theorem hasParts_prereleaseSegment {s v major minor patch pre build : Str}
    (h : HasParts s v major minor patch pre build) :
    prereleaseSegment s = if pre = [] then none else some pre := by
  unfold prereleaseSegment
  rw [(hasParts_core h).2]
  obtain ⟨_, _, _, _, hpre, _, _⟩ := h
  by_cases hp : pre = []
  · subst hp
    simp only [segment, if_true, List.nil_append]
    split
    · rfl
    · split
      · rename_i c r heq hc
        subst hc
        by_cases hb : build = []
        · simp [hb] at heq
        · simp [hb] at heq
      · rfl
  · have hno : pre.all (fun c => c != '+') = true :=
      ValidPrerelease_all (by decide) (fun c hc => by simpa using isAlnumHyphen_ne_plus hc) hpre
    have hhead : ∀ ch, (segment '+' build).head? = some ch → (ch != '+') = false := by
      intro ch hch
      rw [segment_head _ _ _ hch]; decide
    have := (takeWhile_dropWhile_split _ pre (segment '+' build) hno hhead).1
    have e : segment '-' pre = '-' :: pre := by simp [segment, hp]
    rw [e]
    simp [hp, this]

theorem hasParts_buildSegment {s v major minor patch pre build : Str}
    (h : HasParts s v major minor patch pre build) :
    buildSegment s = if build = [] then none else some build := by
  obtain ⟨hv, hmajor, hminor, hpatch, hpre, hbuild, hs⟩ := h
  have hQ : ∀ c, isAlnumHyphen c = true → (c != '+') = true :=
    fun c hc => by simpa using isAlnumHyphen_ne_plus hc
  have hs' : s = (v ++ (major ++ '.' :: (minor ++ '.' :: (patch ++ segment '-' pre)))) ++
      segment '+' build := by rw [hs]; simp
  have hfront : (v ++ (major ++ '.' :: (minor ++ '.' :: (patch ++ segment '-' pre)))).all
      (fun c => c != '+') = true := by
    have hvall : v.all (fun c => c != '+') = true := by
      rcases hv with rfl | rfl <;> decide
    simp only [List.all_append, List.all_cons, Bool.and_eq_true]
    exact ⟨hvall, isNumericIdent_all' hQ hmajor, by decide, isNumericIdent_all' hQ hminor,
      by decide, isNumericIdent_all' hQ hpatch, segment_pre_no_plus hpre⟩
  have hhead : ∀ ch, (segment '+' build).head? = some ch → (ch != '+') = false := by
    intro ch hch
    rw [segment_head _ _ _ hch]; decide
  unfold buildSegment
  rw [hs', (takeWhile_dropWhile_split _ _ _ hfront hhead).2]
  by_cases hb : build = []
  · simp [segment, hb]
  · simp [segment, hb]

theorem Split_joinDots_build (ids : List Str) (hne : ids ≠ [])
    (h : ∀ id ∈ ids, isBuildIdent id = true) : Split (joinDots ids) '.' = ids :=
  Split_joinDots ids hne (fun id hid =>
    not_mem_of_all_alnum (by decide) (isBuildIdent_alnum (h id hid)).2)

theorem not_isPrereleaseIdent_leading_zero {id : Str} (h1 : 1 < id.length)
    (h2 : id.all isDigitChar = true) (h3 : id.head? = some '0') :
    isPrereleaseIdent id = false := by
  cases id with
  | nil => simp at h1
  | cons c cs =>
    simp only [List.head?_cons, Option.some.injEq] at h3
    subst h3
    have hcs : cs ≠ [] := by
      intro e; subst e; simp at h1
    have hany : (('0' :: cs).any isLetterHyphen) = false := by
      rw [← Bool.not_eq_true, List.any_eq_true]
      rintro ⟨c, hc, hl⟩
      have := isLetterHyphen_not_digit hl
      rw [List.all_eq_true.mp h2 c hc] at this
      exact Bool.noConfusion this
    simp [isPrereleaseIdent, isNumericIdent, isAlnumIdent, hcs, hany]

/-- C13: `Parse` fails for every string (a) whose core, the part before the first
`'-'` or `'+'`, has fewer than three dot-separated components, (b) whose
prerelease or build-metadata segment has an empty identifier (the segment is
empty, starts or ends with `'.'`, or contains `".."`), or (c) whose prerelease
segment has an all-digit identifier of length greater than one that starts with
`'0'`. -/
theorem parse_rejects (s : Str)
    (h : (Split (coreOf s) '.').length < 3 ∨
      (∃ p, prereleaseSegment s = some p ∧ HasEmptyIdentifier p) ∨
      (∃ b, buildSegment s = some b ∧ HasEmptyIdentifier b) ∨
      (∃ p id, prereleaseSegment s = some p ∧ id ∈ Split p '.' ∧ 1 < id.length ∧
        id.all isDigitChar = true ∧ id.head? = some '0')) :
    (Parse s).2 ≠ none := by
  intro hok
  obtain ⟨v, major, minor, patch, pre, build, hp⟩ := (Parse_ok_iff s).mp hok
  have hpre := hp.2.2.2.2.1
  have hbuild := hp.2.2.2.2.2.1
  rcases h with h | ⟨p, h1, h2⟩ | ⟨b, h1, h2⟩ | ⟨p, id, h1, h2, h3, h4, h5⟩
  · rw [hasParts_core_components hp] at h
    simp at h
  · rw [hasParts_prereleaseSegment hp] at h1
    by_cases he : pre = []
    · simp [he] at h1
    · simp only [he, if_false, Option.some.injEq] at h1
      subst h1
      obtain ⟨ids, hne, hv, rfl⟩ := hpre.resolve_left he
      have hmem := nil_mem_Split_of_hasEmptyIdentifier h2
      rw [(Split_joinDots_prerelease ids hne hv).2] at hmem
      exact absurd (hv [] hmem) (by decide)
  · rw [hasParts_buildSegment hp] at h1
    by_cases he : build = []
    · simp [he] at h1
    · simp only [he, if_false, Option.some.injEq] at h1
      subst h1
      obtain ⟨ids, hne, hv, rfl⟩ := hbuild.resolve_left he
      have hmem := nil_mem_Split_of_hasEmptyIdentifier h2
      rw [Split_joinDots_build ids hne hv] at hmem
      exact absurd (hv [] hmem) (by decide)
  · rw [hasParts_prereleaseSegment hp] at h1
    by_cases he : pre = []
    · simp [he] at h1
    · simp only [he, if_false, Option.some.injEq] at h1
      subst h1
      obtain ⟨ids, hne, hv, rfl⟩ := hpre.resolve_left he
      rw [(Split_joinDots_prerelease ids hne hv).2] at h2
      have := not_isPrereleaseIdent_leading_zero h3 h4 h5
      rw [hv id h2] at this
      exact Bool.noConfusion this

/-- C13 at `"1.0"` (two core components), `"1.0.0-alpha."` (the prerelease ends
with `'.'`), `"1.0.0+"` (empty build metadata) and `"1.0.0-beta.01+meta.1"` (the
identifier `01`). -/
theorem parse_rejects_witness :
    (Parse "1.0".toList).2 ≠ none ∧ (Parse "1.0.0-alpha.".toList).2 ≠ none ∧
    (Parse "1.0.0+".toList).2 ≠ none ∧ (Parse "1.0.0-beta.01+meta.1".toList).2 ≠ none :=
  ⟨parse_rejects "1.0".toList (Or.inl (by decide)),
   parse_rejects "1.0.0-alpha.".toList
     (Or.inr (Or.inl ⟨"alpha.".toList, by decide,
       Or.inr (Or.inr (Or.inl ⟨"alpha".toList, by decide⟩))⟩)),
   parse_rejects "1.0.0+".toList
     (Or.inr (Or.inr (Or.inl ⟨[], by decide, Or.inl rfl⟩))),
   parse_rejects "1.0.0-beta.01+meta.1".toList
     (Or.inr (Or.inr (Or.inr ⟨"beta.01".toList, "01".toList, by decide, by decide,
       by decide, by decide, by decide⟩)))⟩

/-! ## Numbers beyond the largest `int` -/

/-- C12, at an input where the code departs from it: `1.0.0-rc.9223372036854775807`
and `1.0.0-rc.18446744073709551616` are both accepted by `Parse`, the Versions
returned differ in their prerelease, and `Compare` returns `0` for them. -/
theorem compare_zero_on_distinct_prereleases :
    (Parse "1.0.0-rc.9223372036854775807".toList).2 = none ∧
    (Parse "1.0.0-rc.18446744073709551616".toList).2 = none ∧
    (Parse "1.0.0-rc.9223372036854775807".toList).1.PreRelease
      ≠ (Parse "1.0.0-rc.18446744073709551616".toList).1.PreRelease ∧
    (Parse "1.0.0-rc.9223372036854775807".toList).1.Compare
      (Parse "1.0.0-rc.18446744073709551616".toList).1 = 0 := by
  decide

/-- C16, at an input where the code departs from it: `Parse` accepts
`9223372036854775808.0.0` and the Version it returns is formatted as
`9223372036854775807.0.0`, which is not the string that was parsed. -/
theorem string_of_parse_overflow :
    (Parse "9223372036854775808.0.0".toList).2 = none ∧
    (Parse "9223372036854775808.0.0".toList).1.String = "9223372036854775807.0.0".toList ∧
    (Parse "9223372036854775808.0.0".toList).1.String ≠ "9223372036854775808.0.0".toList := by
  decide

/-! ### A number has one decimal numeral -/

theorem toDigitsCore_fuel :
    ∀ (n f1 f2 : Nat) (ds : Str), n < f1 → n < f2 →
      Nat.toDigitsCore 10 f1 n ds = Nat.toDigitsCore 10 f2 n [] ++ ds := by
  intro n
  induction n using Nat.strong_induction_on with
  | _ n ih =>
    intro f1 f2 ds h1 h2
    obtain ⟨g1, rfl⟩ : ∃ g, f1 = g + 1 := ⟨f1 - 1, by omega⟩
    obtain ⟨g2, rfl⟩ : ∃ g, f2 = g + 1 := ⟨f2 - 1, by omega⟩
    simp only [Nat.toDigitsCore]
    by_cases h0 : n / 10 = 0
    · simp [h0]
    · have hlt : n / 10 < n := by omega
      simp only [h0, if_false]
      rw [ih (n / 10) hlt g1 g2 _ (by omega) (by omega),
        ih (n / 10) hlt g2 g2 [Nat.digitChar (n % 10)] (by omega) (by omega)]
      simp

theorem toDigits_small (n : Nat) (h : n < 10) : Nat.toDigits 10 n = [Nat.digitChar n] := by
  have h0 : n / 10 = 0 := by omega
  have h1 : n % 10 = n := Nat.mod_eq_of_lt h
  simp [Nat.toDigits, Nat.toDigitsCore, h0, h1]

theorem toDigits_step (n : Nat) (h : 10 ≤ n) :
    Nat.toDigits 10 n = Nat.toDigits 10 (n / 10) ++ [Nat.digitChar (n % 10)] := by
  have h0 : n / 10 ≠ 0 := by omega
  unfold Nat.toDigits
  rw [Nat.toDigitsCore]
  simp only [h0, if_false]
  exact toDigitsCore_fuel (n / 10) n (n / 10 + 1) _ (by omega) (by omega)

theorem digitChar_of_digit (d : Char) (h : isDigitChar d = true) :
    Nat.digitChar (d.toNat - '0'.toNat) = d := by
  rw [isDigitChar_iff] at h
  have h48 : '0'.toNat = 48 := rfl
  rw [h48]
  obtain ⟨h1, h2, _⟩ := digitChar_spec (d.toNat - 48) (by omega)
  rw [isDigitChar_iff] at h1
  rw [h48] at h2
  rw [char_eq_iff]
  omega

/-- Printing the number a numeric identifier denotes gives the identifier back. -/
theorem toDigits_digitsVal (l : Str) (h : isNumericIdent l = true) :
    Nat.toDigits 10 (digitsVal l) = l := by
  induction l using List.reverseRecOn with
  | nil => simp [isNumericIdent] at h
  | append_singleton l' d ih =>
    have hall := (isNumericIdent_all h).2
    simp only [List.all_append, List.all_cons, List.all_nil, Bool.and_true,
      Bool.and_eq_true] at hall
    have hd : d.toNat - '0'.toNat < 10 := by
      have := (isDigitChar_iff d).mp hall.2
      have h48 : '0'.toNat = 48 := rfl
      omega
    rw [digitsVal_append_singleton]
    cases l' with
    | nil =>
      have : digitsVal [] = 0 := rfl
      rw [this, Nat.zero_mul, Nat.zero_add, toDigits_small _ hd, digitChar_of_digit d hall.2]
      rfl
    | cons c cs =>
      have hc : c ≠ '0' := by
        intro e
        subst e
        simp [isNumericIdent] at h
      have hcan : isNumericIdent (c :: cs) = true := by
        simp only [List.all_cons, Bool.and_eq_true] at hall
        simp [isNumericIdent, hc, hall.1.1, hall.1.2]
      have ih' := ih hcan
      have hpos : digitsVal (c :: cs) ≠ 0 := by
        intro e
        rw [e] at ih'
        have : Nat.toDigits 10 0 = ['0'] := rfl
        rw [this] at ih'
        simp only [List.cons.injEq] at ih'
        exact hc ih'.1.symm
      have h10 : 10 ≤ digitsVal (c :: cs) * 10 + (d.toNat - '0'.toNat) := by omega
      rw [toDigits_step _ h10]
      have e1 : (digitsVal (c :: cs) * 10 + (d.toNat - '0'.toNat)) / 10 = digitsVal (c :: cs) := by
        omega
      have e2 : (digitsVal (c :: cs) * 10 + (d.toNat - '0'.toNat)) % 10 = d.toNat - '0'.toNat := by
        omega
      rw [e1, e2, ih', digitChar_of_digit d hall.2]

theorem digitsVal_inj {l1 l2 : Str} (h1 : isNumericIdent l1 = true)
    (h2 : isNumericIdent l2 = true) (h : digitsVal l1 = digitsVal l2) : l1 = l2 := by
  rw [← toDigits_digitsVal l1 h1, ← toDigits_digitsVal l2 h2, h]

theorem formatInt_Atoi (l : Str) (h : isNumericIdent l = true)
    (hle : (digitsVal l : Int) ≤ maxInt) : formatInt (Atoi l).1 = l := by
  obtain ⟨hne, hall⟩ := isNumericIdent_all h
  rw [Atoi_digits l hne hall hle, formatInt_nonneg _ (by simp)]
  simpa using toDigits_digitsVal l h

/-! ### Where the numbers fit an `int` -/

/-- Formatting undoes parsing for the version strings whose major, minor and
patch fit an `int`: the result is the string without its optional `v`. -/
theorem string_of_parse_in_range {s v major minor patch pre build : Str}
    (h : HasParts s v major minor patch pre build)
    (h1 : (digitsVal major : Int) ≤ maxInt) (h2 : (digitsVal minor : Int) ≤ maxInt)
    (h3 : (digitsVal patch : Int) ≤ maxInt) :
    v ++ (Parse s).1.String = s := by
  rw [Parse_of_parts h, String_eq]
  simp only
  rw [formatInt_Atoi _ h.2.1 h1, formatInt_Atoi _ h.2.2.1 h2, formatInt_Atoi _ h.2.2.2.1 h3,
    h.2.2.2.2.2.2]
  simp

theorem isNumericIdent_of_isNumeric {x : Str} (hv : isPrereleaseIdent x = true)
    (hn : isNumeric x = true) : isNumericIdent x = true := by
  simp only [isPrereleaseIdent, Bool.or_eq_true] at hv
  rcases hv with hv | hv
  · exact hv
  · exfalso
    simp only [isAlnumIdent, Bool.and_eq_true] at hv
    obtain ⟨c, hc, hl⟩ := List.any_eq_true.mp hv.2
    rw [isNumeric_eq_all, List.all_eq_true] at hn
    have := isLetterHyphen_not_digit hl
    rw [hn c hc] at this
    exact Bool.noConfusion this

theorem eq_of_idEq {x y : Str} (h : idEq x y) (hx : isPrereleaseIdent x = true)
    (hy : isPrereleaseIdent y = true)
    (hxr : isNumeric x = true → (digitsVal x : Int) ≤ maxInt)
    (hyr : isNumeric y = true → (digitsVal y : Int) ≤ maxInt) : x = y := by
  rcases h with ⟨h1, h2, h3⟩ | ⟨_, _, h3⟩
  · have hx' := isNumericIdent_of_isNumeric hx h1
    have hy' := isNumericIdent_of_isNumeric hy h2
    rw [Atoi_digits x (isNumericIdent_all hx').1 (isNumericIdent_all hx').2 (hxr h1),
      Atoi_digits y (isNumericIdent_all hy').1 (isNumericIdent_all hy').2 (hyr h2)] at h3
    simp only [Nat.cast_inj] at h3
    exact digitsVal_inj hx' hy' h3
  · exact h3

theorem eq_of_compareIdentifiers_zero :
    ∀ l r : List Str, (∀ id ∈ l, isPrereleaseIdent id = true) →
      (∀ id ∈ r, isPrereleaseIdent id = true) →
      (∀ id ∈ l, isNumeric id = true → (digitsVal id : Int) ≤ maxInt) →
      (∀ id ∈ r, isNumeric id = true → (digitsVal id : Int) ≤ maxInt) →
      compareIdentifiers l r = 0 → l = r
  | [], [], _, _, _, _, _ => rfl
  | [], _ :: _, _, _, _, _, h => by simp [compareIdentifiers] at h
  | _ :: _, [], _, _, _, _, h => by simp [compareIdentifiers] at h
  | x :: l, y :: r, hl, hr, hlr, hrr, h => by
    rcases id_trichotomy x y with hxy | hxy | hxy
    · rw [compareIdentifiers_of_idLt hxy] at h; exact absurd h (by decide)
    · rw [compareIdentifiers_of_idEq hxy] at h
      have e := eq_of_idEq hxy (hl x (by simp)) (hr y (by simp)) (hlr x (by simp))
        (hrr y (by simp))
      have := eq_of_compareIdentifiers_zero l r (fun id hid => hl id (by simp [hid]))
        (fun id hid => hr id (by simp [hid])) (fun id hid => hlr id (by simp [hid]))
        (fun id hid => hrr id (by simp [hid])) h
      rw [e, this]
    · rw [compareIdentifiers_of_idGt hxy] at h; exact absurd h (by decide)

theorem eq_of_comparePreRelease_zero {p q : Str} (hp : p = [] ∨ ValidPrerelease p)
    (hq : q = [] ∨ ValidPrerelease q) (hpr : NumbersFitInt p) (hqr : NumbersFitInt q)
    (h : comparePreRelease p q = 0) : p = q := by
  unfold comparePreRelease at h
  by_cases hp0 : p = [] <;> by_cases hq0 : q = []
  · rw [hp0, hq0]
  · simp [hp0, hq0] at h
  · simp [hp0, hq0] at h
  · simp only [hp0, hq0, false_and, if_false] at h
    obtain ⟨l, hl, hvl, rfl⟩ := hp.resolve_left hp0
    obtain ⟨r, hr, hvr, rfl⟩ := hq.resolve_left hq0
    unfold NumbersFitInt at hpr hqr
    rw [(Split_joinDots_prerelease l hl hvl).2] at h hpr
    rw [(Split_joinDots_prerelease r hr hvr).2] at h hqr
    rw [eq_of_compareIdentifiers_zero l r hvl hvr hpr hqr h]

theorem compare_neg (a b : SemVer) : a.Compare b = -(b.Compare a) := by
  unfold SemVer.Compare
  rcases lt_trichotomy a.Major b.Major with h | h | h
  · have h2 : ¬ b.Major < a.Major := not_lt.mpr (le_of_lt h)
    simp [h, h2]
  · rcases lt_trichotomy a.Minor b.Minor with h' | h' | h'
    · have h2 : ¬ b.Minor < a.Minor := not_lt.mpr (le_of_lt h')
      simp [h, h', h2]
    · rcases lt_trichotomy a.Patch b.Patch with h'' | h'' | h''
      · have h2 : ¬ b.Patch < a.Patch := not_lt.mpr (le_of_lt h'')
        simp [h, h', h'', h2]
      · have hc := comparePreRelease_antisymm a.PreRelease b.PreRelease
        by_cases h0 : comparePreRelease b.PreRelease a.PreRelease = 0
        · simp [h, h', h'', hc, h0]
        · simp [h, h', h'', hc, h0]
      · have h2 : ¬ a.Patch < b.Patch := not_lt.mpr (le_of_lt h'')
        simp [h, h', h'', h2]
    · have h2 : ¬ a.Minor < b.Minor := not_lt.mpr (le_of_lt h')
      simp [h, h', h2]
  · have h2 : ¬ a.Major < b.Major := not_lt.mpr (le_of_lt h)
    simp [h, h2]

/-- `Compare` tells apart the Versions with valid prereleases whose numeric
identifiers fit an `int`: it returns `0` exactly when major, minor, patch and
prerelease are the same. -/
theorem compare_zero_iff_in_range (a b : SemVer)
    (ha : a.PreRelease = [] ∨ ValidPrerelease a.PreRelease)
    (hb : b.PreRelease = [] ∨ ValidPrerelease b.PreRelease)
    (har : NumbersFitInt a.PreRelease) (hbr : NumbersFitInt b.PreRelease) :
    a.Compare b = 0 ↔
      a.Major = b.Major ∧ a.Minor = b.Minor ∧ a.Patch = b.Patch ∧
        a.PreRelease = b.PreRelease := by
  constructor
  · intro h
    have h1 : a.Compare b ≤ 0 := by omega
    have h2 : b.Compare a ≤ 0 := by
      have := compare_neg b a
      omega
    rw [compare_le_iff] at h1 h2
    have e1 : a.Major = b.Major := by omega
    have e2 : a.Minor = b.Minor := by omega
    have e3 : a.Patch = b.Patch := by omega
    refine ⟨e1, e2, e3, ?_⟩
    have hc : comparePreRelease a.PreRelease b.PreRelease = 0 := by
      have hsame : a.Compare b = comparePreRelease a.PreRelease b.PreRelease := by
        have := compare_same_core a.Major a.Minor a.Patch a.PreRelease b.PreRelease
          a.BuildMetadata b.BuildMetadata
        rw [← this]
        cases a; cases b
        simp only at e1 e2 e3
        subst e1 e2 e3
        rfl
      rw [← hsame]; exact h
    exact eq_of_comparePreRelease_zero ha hb har hbr hc
  · rintro ⟨e1, e2, e3, e4⟩
    have hsame : a.Compare b = comparePreRelease a.PreRelease a.PreRelease := by
      have := compare_same_core a.Major a.Minor a.Patch a.PreRelease a.PreRelease
        a.BuildMetadata b.BuildMetadata
      rw [← this]
      cases a; cases b
      simp only at e1 e2 e3 e4
      subst e1 e2 e3 e4
      rfl
    have h0 := comparePreRelease_antisymm a.PreRelease a.PreRelease
    rw [hsame]; omega

/-! ## Build metadata -/

theorem setBuildMetadata_ok_iff_valid (v : SemVer) (b : Str) :
    (v.SetBuildMetadata b).2 = none ↔ b = [] ∨ ValidBuild b := by
  rw [← matchString_BuildmetadataPattern]
  unfold SemVer.SetBuildMetadata
  by_cases hb : b = []
  · subst hb
    simp only [bne_self_eq_false, Bool.and_false, Bool.false_eq_true, if_false, true_iff]
    decide
  · by_cases hm : MatchString BuildmetadataPattern b = true
    · simp [hm]
    · simp [hm, hb]

theorem hasParts_zero_build {b : Str} (h : ValidBuild b) :
    HasParts ("0.0.0+".toList ++ b) [] ['0'] ['0'] ['0'] [] b := by
  refine ⟨Or.inl rfl, by decide, by decide, by decide, Or.inl rfl, Or.inr h, ?_⟩
  simp [segment, ValidBuild_ne_nil h]

theorem buildSegment_zero (b : Str) : buildSegment ("0.0.0+".toList ++ b) = some b := by
  simp [buildSegment, List.dropWhile]

/-- C21: `SetBuildMetadata b` succeeds exactly when `b` is empty or follows the
build-metadata grammar; for a non-empty `b` that is exactly when
`Parse ("0.0.0+" + b)` succeeds, and the identifier `001` with leading zeros is
accepted. -/
theorem setBuildMetadata_succeeds_iff (v : SemVer) (b : Str) :
    ((v.SetBuildMetadata b).2 = none ↔ b = [] ∨ ValidBuild b) ∧
    (b ≠ [] → ((v.SetBuildMetadata b).2 = none ↔ (Parse ("0.0.0+".toList ++ b)).2 = none)) ∧
    (v.SetBuildMetadata "001".toList).2 = none := by
  refine ⟨setBuildMetadata_ok_iff_valid v b, fun hb => ?_, ?_⟩
  · rw [setBuildMetadata_ok_iff_valid]
    constructor
    · intro h
      rw [Parse_of_parts (hasParts_zero_build (h.resolve_left hb))]
    · intro h
      obtain ⟨v', major, minor, patch, pre, build, hparts⟩ := (Parse_ok_iff _).mp h
      have hseg := hasParts_buildSegment hparts
      rw [buildSegment_zero] at hseg
      by_cases he : build = []
      · simp [he] at hseg
      · simp only [he, if_false, Option.some.injEq] at hseg
        subst hseg
        exact Or.inr (hparts.2.2.2.2.2.1.resolve_left he)
  · rw [setBuildMetadata_ok_iff_valid]
    exact Or.inr ⟨["001".toList], by decide, by decide, by decide⟩

/-- C21 at the build metadata `exp.sha.5114f85`. -/
theorem setBuildMetadata_succeeds_iff_witness :
    ((SemVer.mk 1 2 3 [] []).SetBuildMetadata "exp.sha.5114f85".toList).2 = none ↔
      (Parse "0.0.0+exp.sha.5114f85".toList).2 = none :=
  (setBuildMetadata_succeeds_iff (SemVer.mk 1 2 3 [] []) "exp.sha.5114f85".toList).2.1
    (by decide)

/-- C22: whenever `v.SetBuildMetadata b` succeeds, the result has build metadata
`b` and the major, minor, patch and prerelease of `v`; `SetBuildMetadata ""`
always succeeds and yields `v` with the build metadata cleared. -/
theorem setBuildMetadata_frame (v : SemVer) (b : Str) :
    ((v.SetBuildMetadata b).2 = none →
      (v.SetBuildMetadata b).1 = { v with BuildMetadata := b }) ∧
    v.SetBuildMetadata [] = ({ v with BuildMetadata := [] }, none) := by
  constructor
  · unfold SemVer.SetBuildMetadata
    split
    · intro h; simp at h
    · intro _; rfl
  · simp [SemVer.SetBuildMetadata]

/-- C22 at `1.2.3-rc+x` with the build metadata `build.123`. -/
theorem setBuildMetadata_frame_witness :
    ((SemVer.mk 1 2 3 "rc".toList "x".toList).SetBuildMetadata "build.123".toList).2 = none ∧
    ((SemVer.mk 1 2 3 "rc".toList "x".toList).SetBuildMetadata "build.123".toList).1
      = SemVer.mk 1 2 3 "rc".toList "build.123".toList :=
  ⟨by decide, (setBuildMetadata_frame (SemVer.mk 1 2 3 "rc".toList "x".toList)
    "build.123".toList).1 (by decide)⟩

/-! ## Validity -/

theorem Atoi_numeric_range {l : Str} (h : isNumericIdent l = true) :
    0 ≤ (Atoi l).1 ∧ (Atoi l).1 ≤ maxInt := by
  obtain ⟨hne, hall⟩ := isNumericIdent_all h
  obtain ⟨c, cs, rfl, hc⟩ := isNumericIdent_head h
  have h1 : c ≠ '-' := by rintro rfl; exact absurd hc (by decide)
  have h2 : c ≠ '+' := by rintro rfl; exact absurd hc (by decide)
  by_cases hle : maxInt < (digitsVal (c :: cs) : Int)
  · have : Atoi (c :: cs) = (maxInt, true) := by simp [Atoi, h1, h2, hall, hle]
    rw [this]
    exact ⟨by decide, le_refl _⟩
  · rw [Atoi_digits _ hne hall (not_lt.mp hle)]
    exact ⟨by simp, not_lt.mp hle⟩

theorem Parse_valid {s : Str} (h : (Parse s).2 = none) : (Parse s).1.Valid := by
  obtain ⟨v, major, minor, patch, pre, build, hp⟩ := (Parse_ok_iff s).mp h
  rw [Parse_of_parts hp]
  exact ⟨Atoi_numeric_range hp.2.1, Atoi_numeric_range hp.2.2.1,
    Atoi_numeric_range hp.2.2.2.1, hp.2.2.2.2.1, hp.2.2.2.2.2.1⟩

theorem Parse_String_of_valid {v : SemVer} (h : v.Valid) : Parse v.String = (v, none) := by
  rw [Parse_of_parts (String_hasParts v h)]
  obtain ⟨⟨h1, h1'⟩, ⟨h2, h2'⟩, ⟨h3, h3'⟩, _, _⟩ := h
  rw [Atoi_formatInt _ h1 h1', Atoi_formatInt _ h2 h2', Atoi_formatInt _ h3 h3']

theorem stable_of_valid {v : SemVer} (h : v.Valid) : v.Stable := ⟨h, Parse_String_of_valid h⟩

theorem wrapInt_succ {x : Int} (h0 : 0 ≤ x) (h1 : x < maxInt) : wrapInt (x + 1) = x + 1 := by
  apply wrapInt_of_isInt
  unfold IsInt minInt maxInt at *
  omega

theorem BumpMajor_valid {v : SemVer} (h : v.Valid) (hlt : v.Major < maxInt) :
    v.BumpMajor.Valid := by
  obtain ⟨⟨h1, _⟩, _, _, _, _⟩ := h
  have hz : (0 : Int) ≤ 0 ∧ (0 : Int) ≤ maxInt := by decide
  refine ⟨?_, hz, hz, Or.inl rfl, Or.inl rfl⟩
  simp only [SemVer.BumpMajor, wrapInt_succ h1 hlt]
  unfold maxInt at *
  omega

theorem BumpMinor_valid {v : SemVer} (h : v.Valid) (hlt : v.Minor < maxInt) :
    v.BumpMinor.Valid := by
  obtain ⟨hM, ⟨h1, _⟩, _, _, _⟩ := h
  have hz : (0 : Int) ≤ 0 ∧ (0 : Int) ≤ maxInt := by decide
  refine ⟨hM, ?_, hz, Or.inl rfl, Or.inl rfl⟩
  simp only [SemVer.BumpMinor, wrapInt_succ h1 hlt]
  unfold maxInt at *
  omega

theorem BumpPatch_valid {v : SemVer} (h : v.Valid) (hlt : v.Patch < maxInt) :
    v.BumpPatch.Valid := by
  obtain ⟨hM, hm, ⟨h1, _⟩, _, _⟩ := h
  refine ⟨hM, hm, ?_, Or.inl rfl, Or.inl rfl⟩
  simp only [SemVer.BumpPatch, wrapInt_succ h1 hlt]
  unfold maxInt at *
  omega

theorem SetPreRelease_valid {v : SemVer} {p : Str} (h : v.Valid)
    (hok : (v.SetPreRelease p).2 = none) : (v.SetPreRelease p).1.Valid := by
  have hp := (setPreRelease_ok_iff_valid v p).mp hok
  have : (v.SetPreRelease p).1 = { v with PreRelease := p } := by
    revert hok
    unfold SemVer.SetPreRelease
    split
    · intro h; simp at h
    · intro _; rfl
  rw [this]
  exact ⟨h.1, h.2.1, h.2.2.1, hp, h.2.2.2.2⟩

theorem SetBuildMetadata_valid {v : SemVer} {b : Str} (h : v.Valid)
    (hok : (v.SetBuildMetadata b).2 = none) : (v.SetBuildMetadata b).1.Valid := by
  have hb := (setBuildMetadata_ok_iff_valid v b).mp hok
  have : (v.SetBuildMetadata b).1 = { v with BuildMetadata := b } := by
    revert hok
    unfold SemVer.SetBuildMetadata
    split
    · intro h; simp at h
    · intro _; rfl
  rw [this]
  exact ⟨h.1, h.2.1, h.2.2.1, h.2.2.2.1, hb⟩

/-! ### A bump at the largest `int` -/

theorem formatInt_digits {x : Int} (h : 0 ≤ x) : (formatInt x).all isDigitChar = true := by
  rw [formatInt_nonneg x h]
  exact (isNumericIdent_all (isNumericIdent_toDigits _)).2

theorem formatInt_minInt : ∃ ds, formatInt minInt = '-' :: ds := by
  have hneg : minInt < 0 := by decide
  exact ⟨_, by rw [formatInt, if_pos hneg]⟩

theorem digits_core {d : Str} (h : d.all isDigitChar = true) :
    '.' ∉ d ∧ d.all (fun c => c != '-' && c != '+') = true := by
  rw [List.all_eq_true] at h
  constructor
  · intro hmem
    exact absurd (h _ hmem) (by decide)
  · rw [List.all_eq_true]
    intro c hc
    have hd := (isDigitChar_iff c).mp (h c hc)
    have h1 : c ≠ '-' := by
      intro e
      rw [e] at hd
      exact absurd hd (by decide)
    have h2 : c ≠ '+' := by
      intro e
      rw [e] at hd
      exact absurd hd (by decide)
    simp [h1, h2]

/-- A string whose second core component starts with `'-'` is rejected. -/
theorem parse_rejects_negative_minor {d rest : Str} (hd : d.all isDigitChar = true) :
    (Parse (d ++ '.' :: '-' :: rest)).2 ≠ none := by
  intro hok
  obtain ⟨v, major, minor, patch, pre, build, hp⟩ := (Parse_ok_iff _).mp hok
  have hcomp := hasParts_core_components hp
  obtain ⟨hdot, hall⟩ := digits_core hd
  have hcore : coreOf (d ++ '.' :: '-' :: rest) = d ++ ['.'] := by
    have hs : d ++ '.' :: '-' :: rest = (d ++ ['.']) ++ '-' :: rest := by simp
    unfold coreOf
    rw [hs]
    refine (takeWhile_dropWhile_split _ (d ++ ['.']) ('-' :: rest) ?_ ?_).1
    · rw [List.all_append, hall]
      rfl
    · intro ch hch
      simp only [List.head?_cons, Option.some.injEq] at hch
      rw [← hch]
      rfl
  rw [hcore, Split_append_sep d [] '.' hdot] at hcomp
  simp [Split] at hcomp

/-- A string whose third core component starts with `'-'` is rejected. -/
theorem parse_rejects_negative_patch {d e rest : Str} (hd : d.all isDigitChar = true)
    (he : e.all isDigitChar = true) :
    (Parse (d ++ '.' :: (e ++ '.' :: '-' :: rest))).2 ≠ none := by
  intro hok
  obtain ⟨v, major, minor, patch, pre, build, hp⟩ := (Parse_ok_iff _).mp hok
  have hcomp := hasParts_core_components hp
  obtain ⟨hdot, hall⟩ := digits_core hd
  obtain ⟨hdot', hall'⟩ := digits_core he
  have hcore : coreOf (d ++ '.' :: (e ++ '.' :: '-' :: rest)) = d ++ '.' :: (e ++ ['.']) := by
    have hs : d ++ '.' :: (e ++ '.' :: '-' :: rest) =
        (d ++ '.' :: (e ++ ['.'])) ++ '-' :: rest := by simp
    unfold coreOf
    rw [hs]
    refine (takeWhile_dropWhile_split _ (d ++ '.' :: (e ++ ['.'])) ('-' :: rest) ?_ ?_).1
    · rw [List.all_append, hall, List.all_cons, List.all_append, hall']
      rfl
    · intro ch hch
      simp only [List.head?_cons, Option.some.injEq] at hch
      rw [← hch]
      rfl
  rw [hcore, Split_append_sep d _ '.' hdot, Split_append_sep e [] '.' hdot'] at hcomp
  simp only [Split, List.cons.injEq, and_true] at hcomp
  have hpatch := hp.2.2.2.1
  rw [← hcomp.2.2] at hpatch
  exact absurd hpatch (by decide)

theorem BumpMajor_invalid {v : SemVer} (h : v.Major = maxInt) :
    v.BumpMajor.Major = minInt ∧ ¬ v.BumpMajor.Valid ∧
      (Parse v.BumpMajor.String).2 ≠ none := by
  have hb : v.BumpMajor = SemVer.mk minInt 0 0 [] [] := by
    simp only [SemVer.BumpMajor, h, wrapInt_maxInt_succ]
  rw [hb]
  exact ⟨rfl, fun hv => absurd hv.1.1 (by decide), by decide⟩

theorem BumpMinor_invalid {v : SemVer} (hv : v.Valid) (h : v.Minor = maxInt) :
    v.BumpMinor.Minor = minInt ∧ ¬ v.BumpMinor.Valid ∧
      (Parse v.BumpMinor.String).2 ≠ none := by
  have hb : v.BumpMinor = SemVer.mk v.Major minInt 0 [] [] := by
    simp only [SemVer.BumpMinor, h, wrapInt_maxInt_succ]
  rw [hb]
  have hneg : ¬ (0 : Int) ≤ minInt := by decide
  refine ⟨rfl, fun hv' => absurd hv'.2.1.1 hneg, ?_⟩
  obtain ⟨ds, hds⟩ := formatInt_minInt
  have hs : (SemVer.mk v.Major minInt 0 [] []).String =
      formatInt v.Major ++ '.' :: '-' :: (ds ++ '.' :: formatInt 0) := by
    rw [String_eq]
    simp [segment, hds]
  rw [hs]
  exact parse_rejects_negative_minor (formatInt_digits hv.1.1)

theorem BumpPatch_invalid {v : SemVer} (hv : v.Valid) (h : v.Patch = maxInt) :
    v.BumpPatch.Patch = minInt ∧ ¬ v.BumpPatch.Valid ∧
      (Parse v.BumpPatch.String).2 ≠ none := by
  have hb : v.BumpPatch = SemVer.mk v.Major v.Minor minInt [] [] := by
    simp only [SemVer.BumpPatch, h, wrapInt_maxInt_succ]
  rw [hb]
  have hneg : ¬ (0 : Int) ≤ minInt := by decide
  refine ⟨rfl, fun hv' => absurd hv'.2.2.1.1 hneg, ?_⟩
  obtain ⟨ds, hds⟩ := formatInt_minInt
  have hs : (SemVer.mk v.Major v.Minor minInt [] []).String =
      formatInt v.Major ++ '.' :: (formatInt v.Minor ++ '.' :: '-' :: ds) := by
    rw [String_eq]
    simp [segment, hds]
  rw [hs]
  exact parse_rejects_negative_patch (formatInt_digits hv.1.1) (formatInt_digits hv.2.1.1)

/-- C23 fails as stated at the largest `int`: `9223372036854775807.0.0` is
returned by `Parse` and is valid, but its `BumpMajor` has a negative major, so
it is not valid, and `Parse` rejects its `String`. -/
theorem bump_breaks_validity :
    Parse "9223372036854775807.0.0".toList = (SemVer.mk maxInt 0 0 [] [], none) ∧
    (SemVer.mk maxInt 0 0 [] []).Valid ∧
    ¬ (SemVer.mk maxInt 0 0 [] []).BumpMajor.Valid ∧
    (Parse (SemVer.mk maxInt 0 0 [] []).BumpMajor.String).2 ≠ none := by
  refine ⟨by decide, ⟨by decide, by decide, by decide, Or.inl rfl, Or.inl rfl⟩, ?_, by decide⟩
  intro h
  exact absurd h.1.1 (by decide)

/-- C23, amended: every Version returned by a successful `Parse` is valid; for
every valid `v`, a bump of a field below the largest `int` and every successful
`SetPreRelease` and `SetBuildMetadata` give a valid Version again; and for each
of these results `r`, `Parse (r.String)` succeeds and returns `r`.  A bump of a
field that holds the largest `int` gives the smallest `int` in that field: the
result is not valid and `Parse` rejects its `String`. -/
theorem validity_preserved (s : Str) (v : SemVer) (p b : Str) (hv : v.Valid) :
    ((Parse s).2 = none → (Parse s).1.Stable) ∧
    (v.Major < maxInt → v.BumpMajor.Stable) ∧
    (v.Minor < maxInt → v.BumpMinor.Stable) ∧
    (v.Patch < maxInt → v.BumpPatch.Stable) ∧
    ((v.SetPreRelease p).2 = none → (v.SetPreRelease p).1.Stable) ∧
    ((v.SetBuildMetadata b).2 = none → (v.SetBuildMetadata b).1.Stable) ∧
    (v.Major = maxInt → v.BumpMajor.Major = minInt ∧ ¬ v.BumpMajor.Valid ∧
      (Parse v.BumpMajor.String).2 ≠ none) ∧
    (v.Minor = maxInt → v.BumpMinor.Minor = minInt ∧ ¬ v.BumpMinor.Valid ∧
      (Parse v.BumpMinor.String).2 ≠ none) ∧
    (v.Patch = maxInt → v.BumpPatch.Patch = minInt ∧ ¬ v.BumpPatch.Valid ∧
      (Parse v.BumpPatch.String).2 ≠ none) :=
  ⟨fun h => stable_of_valid (Parse_valid h),
   fun h => stable_of_valid (BumpMajor_valid hv h),
   fun h => stable_of_valid (BumpMinor_valid hv h),
   fun h => stable_of_valid (BumpPatch_valid hv h),
   fun h => stable_of_valid (SetPreRelease_valid hv h),
   fun h => stable_of_valid (SetBuildMetadata_valid hv h),
   fun h => BumpMajor_invalid h,
   fun h => BumpMinor_invalid hv h,
   fun h => BumpPatch_invalid hv h⟩

/-- C23, amended, at `Parse "v1.2.3-rc.1+b"`, at the Version `1.2.3-rc.1+b` with
the prerelease `alpha` and the build metadata `x.1`, and at the Version
`7.9223372036854775807.9223372036854775807`, whose minor and patch hold the
largest `int`. -/
theorem validity_preserved_witness :
    (Parse "v1.2.3-rc.1+b".toList).1.Stable ∧
    (SemVer.mk 1 2 3 "rc.1".toList "b".toList).BumpMajor.Stable ∧
    (SemVer.mk 1 2 3 "rc.1".toList "b".toList).BumpMinor.Stable ∧
    (SemVer.mk 1 2 3 "rc.1".toList "b".toList).BumpPatch.Stable ∧
    ((SemVer.mk 1 2 3 "rc.1".toList "b".toList).SetPreRelease "alpha".toList).1.Stable ∧
    ((SemVer.mk 1 2 3 "rc.1".toList "b".toList).SetBuildMetadata "x.1".toList).1.Stable ∧
    (¬ (SemVer.mk 7 maxInt maxInt [] []).BumpMinor.Valid ∧
      (Parse (SemVer.mk 7 maxInt maxInt [] []).BumpMinor.String).2 ≠ none) ∧
    (¬ (SemVer.mk 7 maxInt maxInt [] []).BumpPatch.Valid ∧
      (Parse (SemVer.mk 7 maxInt maxInt [] []).BumpPatch.String).2 ≠ none) :=
  have hv : (SemVer.mk 1 2 3 "rc.1".toList "b".toList).Valid :=
    ⟨by decide, by decide, by decide,
      Or.inr ⟨["rc".toList, "1".toList], by decide, by decide, by decide⟩,
      Or.inr ⟨["b".toList], by decide, by decide, by decide⟩⟩
  have h := validity_preserved "v1.2.3-rc.1+b".toList
    (SemVer.mk 1 2 3 "rc.1".toList "b".toList) "alpha".toList "x.1".toList hv
  have hv' : (SemVer.mk 7 maxInt maxInt [] []).Valid :=
    ⟨by decide, by decide, by decide, Or.inl rfl, Or.inl rfl⟩
  have h' := validity_preserved [] (SemVer.mk 7 maxInt maxInt [] []) [] [] hv'
  ⟨h.1 (by decide), h.2.1 (by decide), h.2.2.1 (by decide), h.2.2.2.1 (by decide),
   h.2.2.2.2.1 (by decide), h.2.2.2.2.2.1 (by decide),
   (h'.2.2.2.2.2.2.2.1 rfl).2, (h'.2.2.2.2.2.2.2.2 rfl).2⟩

/-! ## The tag resolver -/

theorem Parse_ok_iff_matchString (s : Str) :
    (Parse s).2 = none ↔ MatchString FullPattern s = true := by
  unfold Parse
  by_cases h : MatchString FullPattern s = true
  · simp [h]
  · simp [h]

/-- The filter of the callback, in terms of the version string of the tag. -/
theorem visitTag_filter (repo : Repository) (targetCommit : Commit) (pfx : Str)
    (exactCommit : Bool) (st : CommitCache × Found) (ref : Reference)
    (h : candidateVersion pfx ref = none) :
    visitTag repo targetCommit pfx exactCommit st ref = (st, none) := by
  unfold candidateVersion versionStringOf at h
  unfold visitTag HasPrefix TrimPrefix HasPrefix
  by_cases hp : pfx = []
  · simp only [hp, if_true] at h
    simp only [hp, ne_eq, not_true_eq_false, false_and, if_false]
    by_cases hm : (Parse ref.Short).2 = none
    · simp [hm] at h
    · have hm' : MatchString FullPattern ref.Short = false := by
        rw [← Bool.not_eq_true, ← Parse_ok_iff_matchString]; exact hm
      simp [hm']
  · simp only [hp, if_false] at h
    by_cases hpre : (pfx ++ ['/']).isPrefixOf ref.Short = true
    · simp only [hpre, if_true] at h
      by_cases hm : (Parse (ref.Short.drop (pfx.length + 1))).2 = none
      · simp [hm] at h
      · have hm' : MatchString FullPattern (ref.Short.drop (pfx.length + 1)) = false := by
          rw [← Bool.not_eq_true, ← Parse_ok_iff_matchString]; exact hm
        simp [hp, hpre, hm']
    · simp [hp, hpre]

/-- The callback on a tag that passes the filter. -/
theorem visitTag_candidate (repo : Repository) (targetCommit : Commit) (pfx : Str)
    (exactCommit : Bool) (st : CommitCache × Found) (ref : Reference) (v : SemVer)
    (h : candidateVersion pfx ref = some v) :
    visitTag repo targetCommit pfx exactCommit st ref =
      match cacheGet st.1 ref.Name with
      | some cached =>
        ((st.1, selectCandidate targetCommit exactCommit st.2 ref.Short v cached), none)
      | none =>
        match FetchCommitObject repo ref.Name with
        | (_, some _) => (st, none)
        | (none, none) => (st, none)
        | (some candidateCommit, none) =>
          (((ref.Name, candidateCommit) :: st.1,
            selectCandidate targetCommit exactCommit st.2 ref.Short v candidateCommit), none) := by
  unfold candidateVersion versionStringOf at h
  unfold visitTag HasPrefix TrimPrefix HasPrefix
  by_cases hp : pfx = []
  · simp only [hp, if_true] at h
    by_cases hm : (Parse ref.Short).2 = none
    · simp only [hm, if_true, Option.some.injEq] at h
      have hm' := (Parse_ok_iff_matchString _).mp hm
      subst h
      simp [hp, hm, hm']
    · simp [hm] at h
  · simp only [hp, if_false] at h
    by_cases hpre : (pfx ++ ['/']).isPrefixOf ref.Short = true
    · simp only [hpre, if_true] at h
      by_cases hm : (Parse (ref.Short.drop (pfx.length + 1))).2 = none
      · simp only [hm, if_true, Option.some.injEq] at h
        have hm' := (Parse_ok_iff_matchString _).mp hm
        subst h
        simp [hp, hpre, hm, hm']
      · simp [hm] at h
    · simp [hpre] at h

theorem tagCommit_eq_some {repo : Repository} {ref : Reference} {c : Commit}
    (h : FetchCommitObject repo ref.Name = (some c, none)) : tagCommit repo ref = some c := by
  simp [tagCommit, h]

/-- The callback never returns an error, keeps the cache sound, and changes the
three found variables as `stepTag` says. -/
theorem visitTag_spec (repo : Repository) (targetCommit : Commit) (pfx : Str)
    (exactCommit : Bool) (st : CommitCache × Found) (ref : Reference)
    (hc : CacheOk repo st.1) :
    ∃ cache', CacheOk repo cache' ∧
      visitTag repo targetCommit pfx exactCommit st ref =
        ((cache', stepTag repo targetCommit pfx exactCommit st.2 ref), none) := by
  cases hv : candidateVersion pfx ref with
  | none =>
    refine ⟨st.1, hc, ?_⟩
    rw [visitTag_filter _ _ _ _ _ _ hv]
    simp [stepTag, hv]
  | some v =>
    rw [visitTag_candidate _ _ _ _ _ _ v hv]
    cases hg : cacheGet st.1 ref.Name with
    | some cached =>
      refine ⟨st.1, hc, ?_⟩
      have := tagCommit_eq_some (hc _ _ hg)
      simp [stepTag, hv, this]
    | none =>
      rcases hf : FetchCommitObject repo ref.Name with ⟨_ | c, _ | e⟩
      · refine ⟨st.1, hc, ?_⟩
        simp [stepTag, hv, tagCommit, hf]
      · refine ⟨st.1, hc, ?_⟩
        simp [stepTag, hv, tagCommit, hf]
      · refine ⟨(ref.Name, c) :: st.1, ?_, ?_⟩
        · intro k c' hk
          simp only [cacheGet] at hk
          by_cases hkk : ref.Name = k
          · simp only [hkk, if_true, Option.some.injEq] at hk
            rw [← hkk, ← hk]; exact hf
          · simp only [hkk, if_false] at hk
            exact hc k c' hk
        · simp [stepTag, hv, tagCommit, hf]
      · refine ⟨st.1, hc, ?_⟩
        simp [stepTag, hv, tagCommit, hf]

theorem forEach_visitTag (repo : Repository) (targetCommit : Commit) (pfx : Str)
    (exactCommit : Bool) (failure : GoError) :
    ∀ (refs : List Reference) (st : CommitCache × Found), CacheOk repo st.1 →
      ∃ cache', CacheOk repo cache' ∧
        ForEach (visitTag repo targetCommit pfx exactCommit) failure refs st =
          ((cache', refs.foldl (stepTag repo targetCommit pfx exactCommit) st.2), failure) := by
  intro refs
  induction refs with
  | nil => intro st hc; exact ⟨st.1, hc, rfl⟩
  | cons ref rest ih =>
    intro st hc
    obtain ⟨cache1, hc1, h1⟩ := visitTag_spec repo targetCommit pfx exactCommit st ref hc
    obtain ⟨cache2, hc2, h2⟩ := ih (cache1, stepTag repo targetCommit pfx exactCommit st.2 ref) hc1
    refine ⟨cache2, hc2, ?_⟩
    simp only [ForEach, h1, h2, List.foldl_cons]

/-- What `FetchVersionTag` returns when the enumeration of the tags succeeds. -/
theorem FetchVersionTag_ok (repo : Repository) (targetCommit : Commit) (pfx : Str)
    (exactCommit : Bool) (refs : List Reference) (h : repo.Tags = .ok ⟨refs, none⟩) :
    FetchVersionTag repo targetCommit pfx exactCommit =
      ((foundAfter repo targetCommit pfx exactCommit refs).foundTag,
       (foundAfter repo targetCommit pfx exactCommit refs).foundVersion,
       (foundAfter repo targetCommit pfx exactCommit refs).foundCommit, none) := by
  obtain ⟨cache', _, hfe⟩ := forEach_visitTag repo targetCommit pfx exactCommit none refs
    ([], Found.init) (by intro k c hk; simp [cacheGet] at hk)
  unfold FetchVersionTag
  rw [h]
  simp only
  have : ForEach (visitTag repo targetCommit pfx exactCommit) none refs
      ([], { foundTag := [], foundVersion := SemVer.zero, foundCommit := none }) =
      ((cache', foundAfter repo targetCommit pfx exactCommit refs), none) := hfe
  rw [this]
  simp

/-- What `FetchVersionTag` returns when the enumeration of the tags fails: when
`repo.Tags` fails, or when the iteration ends with an error. -/
theorem FetchVersionTag_fail (repo : Repository) (targetCommit : Commit) (pfx : Str)
    (exactCommit : Bool) :
    (∀ err, repo.Tags = .error err →
      FetchVersionTag repo targetCommit pfx exactCommit =
        ([], SemVer.zero, none, some ("failed to retrieve tags: ".toList ++ err))) ∧
    (∀ refs err, repo.Tags = .ok ⟨refs, some err⟩ →
      FetchVersionTag repo targetCommit pfx exactCommit =
        ([], SemVer.zero, none, some err)) := by
  constructor
  · intro err h
    unfold FetchVersionTag
    rw [h]
  · intro refs err h
    obtain ⟨cache', _, hfe⟩ := forEach_visitTag repo targetCommit pfx exactCommit (some err)
      refs ([], Found.init) (by intro k c hk; simp [cacheGet] at hk)
    unfold FetchVersionTag
    rw [h]
    simp only
    have : ForEach (visitTag repo targetCommit pfx exactCommit) (some err) refs
        ([], { foundTag := [], foundVersion := SemVer.zero, foundCommit := none }) =
        ((cache', foundAfter repo targetCommit pfx exactCommit refs), some err) := hfe
    rw [this]
    simp

/-! ### Facts about the order that the selection uses -/

theorem compare_self (a : SemVer) : a.Compare a = 0 := by
  have := compare_neg a a
  omega

theorem compare_le_trans {a b c : SemVer} (hab : a.Compare b ≤ 0) (hbc : b.Compare c ≤ 0) :
    a.Compare c ≤ 0 := by
  rw [compare_le_iff] at hab hbc ⊢
  rcases hab with h1 | ⟨e1, h1 | ⟨e2, h1 | ⟨e3, h1⟩⟩⟩ <;>
    rcases hbc with h2 | ⟨f1, h2 | ⟨f2, h2 | ⟨f3, h2⟩⟩⟩
  all_goals first
    | exact Or.inl (by omega)
    | exact Or.inr ⟨by omega, Or.inl (by omega)⟩
    | exact Or.inr ⟨by omega, Or.inr ⟨by omega, Or.inl (by omega)⟩⟩
    | exact Or.inr ⟨by omega, Or.inr ⟨by omega, Or.inr ⟨by omega,
        comparePreRelease_trans _ _ _ h1 h2⟩⟩⟩

theorem compare_lt_of_le_of_lt {a b c : SemVer} (hab : a.Compare b ≤ 0)
    (hbc : b.Compare c < 0) : a.Compare c < 0 := by
  by_contra hcon
  have hca : c.Compare a ≤ 0 := by
    have := compare_neg c a
    omega
  have hcb := compare_le_trans hca hab
  have := compare_neg c b
  omega

theorem compare_lt_of_gt {a b : SemVer} (h : b.Compare a > 0) : a.Compare b < 0 := by
  have := compare_neg a b
  omega

/-! ### One tag -/

theorem stepTag_of_not_qualifying {repo : Repository} {targetCommit : Commit} {pfx : Str}
    {exactCommit : Bool} {ref : Reference} (found : Found)
    (h : qualifying repo targetCommit pfx exactCommit ref = none) :
    stepTag repo targetCommit pfx exactCommit found ref = found := by
  unfold qualifying at h
  unfold stepTag
  cases hv : candidateVersion pfx ref with
  | none => simp
  | some v =>
    cases hc : tagCommit repo ref with
    | none => simp
    | some c =>
      simp only [hv, hc] at h ⊢
      cases exactCommit with
      | true =>
        by_cases hh : c.Hash = targetCommit.Hash
        · simp [hh] at h
        · simp [selectCandidate, hh]
      | false =>
        by_cases ht : c.Committer.When ≤ targetCommit.Committer.When
        · simp [ht] at h
        · have : After c.Committer.When targetCommit.Committer.When = true := by
            simp only [After, decide_eq_true_eq]; omega
          simp [selectCandidate, this]

theorem stepTag_exact {repo : Repository} {targetCommit : Commit} {pfx : Str}
    {ref : Reference} {v : SemVer} {c : Commit} (found : Found)
    (h : qualifying repo targetCommit pfx true ref = some (v, c)) :
    c.Hash = targetCommit.Hash ∧
    stepTag repo targetCommit pfx true found ref =
      if found.foundCommit = none ∨ v.Compare found.foundVersion > 0 then
        { foundTag := ref.Short, foundVersion := v, foundCommit := some c }
      else found := by
  unfold qualifying at h
  unfold stepTag
  cases hv : candidateVersion pfx ref with
  | none => simp [hv] at h
  | some v' =>
    cases hc : tagCommit repo ref with
    | none => simp [hv, hc] at h
    | some c' =>
      simp only [hv, hc, if_true] at h ⊢
      by_cases hh : c'.Hash = targetCommit.Hash
      · simp only [hh, if_true, Option.some.injEq, Prod.mk.injEq] at h
        obtain ⟨rfl, rfl⟩ := h
        refine ⟨hh, ?_⟩
        simp [selectCandidate, hh]
      · simp [hh] at h

theorem stepTag_nearest {repo : Repository} {targetCommit : Commit} {pfx : Str}
    {ref : Reference} {v : SemVer} {c : Commit} (found : Found)
    (h : qualifying repo targetCommit pfx false ref = some (v, c)) :
    c.Committer.When ≤ targetCommit.Committer.When ∧
    stepTag repo targetCommit pfx false found ref =
      match found.foundCommit with
      | none => { foundTag := ref.Short, foundVersion := v, foundCommit := some c }
      | some fc =>
        if fc.Committer.When < c.Committer.When then
          { foundTag := ref.Short, foundVersion := v, foundCommit := some c }
        else if c.Hash = fc.Hash ∧ v.Compare found.foundVersion > 0 then
          { found with foundTag := ref.Short, foundVersion := v }
        else found := by
  unfold qualifying at h
  unfold stepTag
  cases hv : candidateVersion pfx ref with
  | none => simp [hv] at h
  | some v' =>
    cases hc : tagCommit repo ref with
    | none => simp [hv, hc] at h
    | some c' =>
      simp only [hv, hc] at h ⊢
      by_cases ht : c'.Committer.When ≤ targetCommit.Committer.When
      · simp only [ht, if_true, Bool.false_eq_true, if_false, Option.some.injEq,
          Prod.mk.injEq] at h
        obtain ⟨rfl, rfl⟩ := h
        refine ⟨ht, ?_⟩
        have hna : After c'.Committer.When targetCommit.Committer.When = false := by
          rw [← Bool.not_eq_true]
          simp only [After, decide_eq_true_eq]; omega
        cases hf : found.foundCommit with
        | none => simp [selectCandidate, hna, hf]
        | some fc =>
          have hnt : ¬ targetCommit.Committer.When < c'.Committer.When := by omega
          simp [selectCandidate, hf, After, hnt]
      · simp [ht] at h

theorem foundAfter_snoc (repo : Repository) (targetCommit : Commit) (pfx : Str)
    (exactCommit : Bool) (refs : List Reference) (u : Reference) :
    foundAfter repo targetCommit pfx exactCommit (refs ++ [u]) =
      stepTag repo targetCommit pfx exactCommit
        (foundAfter repo targetCommit pfx exactCommit refs) u := by
  simp [foundAfter, List.foldl_append]

/-! ### Exact mode -/

theorem exact_invariant (repo : Repository) (targetCommit : Commit) (pfx : Str)
    (refs : List Reference) :
    ((∀ r ∈ refs, qualifying repo targetCommit pfx true r = none) ∧
      foundAfter repo targetCommit pfx true refs = Found.init) ∨
    (∃ pre t post v c, refs = pre ++ t :: post ∧
      qualifying repo targetCommit pfx true t = some (v, c) ∧
      foundAfter repo targetCommit pfx true refs =
        { foundTag := t.Short, foundVersion := v, foundCommit := some c } ∧
      (∀ u ∈ pre, ∀ v' c', qualifying repo targetCommit pfx true u = some (v', c') →
        v'.Compare v < 0) ∧
      (∀ u ∈ post, ∀ v' c', qualifying repo targetCommit pfx true u = some (v', c') →
        v'.Compare v ≤ 0)) := by
  induction refs using List.reverseRecOn with
  | nil => exact Or.inl ⟨by simp, rfl⟩
  | append_singleton l u ih =>
    rw [foundAfter_snoc]
    cases hq : qualifying repo targetCommit pfx true u with
    | none =>
      rw [stepTag_of_not_qualifying _ hq]
      rcases ih with ⟨h1, h2⟩ | ⟨pre, t, post, v, c, h1, h2, h3, h4, h5⟩
      · left
        refine ⟨?_, h2⟩
        intro r hr
        rcases List.mem_append.mp hr with hr | hr
        · exact h1 r hr
        · rw [List.mem_singleton.mp hr]; exact hq
      · right
        refine ⟨pre, t, post ++ [u], v, c, by rw [h1]; simp, h2, h3, h4, ?_⟩
        intro w hw v' c' hqw
        rcases List.mem_append.mp hw with hw | hw
        · exact h5 w hw v' c' hqw
        · rw [List.mem_singleton.mp hw, hq] at hqw
          exact absurd hqw (by simp)
    | some vc =>
      obtain ⟨vu, cu⟩ := vc
      obtain ⟨_, hstep⟩ := stepTag_exact (foundAfter repo targetCommit pfx true l) hq
      rw [hstep]
      right
      rcases ih with ⟨h1, h2⟩ | ⟨pre, t, post, v, c, h1, h2, h3, h4, h5⟩
      · refine ⟨l, u, [], vu, cu, rfl, hq, by simp [h2, Found.init], ?_, by simp⟩
        intro w hw v' c' hqw
        rw [h1 w hw] at hqw
        exact absurd hqw (by simp)
      · rw [h3]
        by_cases hgt : vu.Compare v > 0
        · have hlt := compare_lt_of_gt hgt
          refine ⟨l, u, [], vu, cu, rfl, hq, by simp [hgt], ?_, by simp⟩
          intro w hw v' c' hqw
          rw [h1] at hw
          rcases List.mem_append.mp hw with hw | hw
          · exact compare_lt_of_le_of_lt (le_of_lt (h4 w hw v' c' hqw)) hlt
          · rcases List.mem_cons.mp hw with hw | hw
            · rw [hw, h2] at hqw
              simp only [Option.some.injEq, Prod.mk.injEq] at hqw
              rw [← hqw.1]; exact hlt
            · exact compare_lt_of_le_of_lt (h5 w hw v' c' hqw) hlt
        · refine ⟨pre, t, post ++ [u], v, c, by rw [h1]; simp, h2, by simp [hgt], h4, ?_⟩
          intro w hw v' c' hqw
          rcases List.mem_append.mp hw with hw | hw
          · exact h5 w hw v' c' hqw
          · rw [List.mem_singleton.mp hw, hq] at hqw
            simp only [Option.some.injEq, Prod.mk.injEq] at hqw
            rw [← hqw.1]; omega

/-- C24: in exact mode, when the enumeration succeeds and at least one tag
qualifies, `FetchVersionTag` returns a qualifying tag `t` with its parsed Version
and its commit, whose hash is the target's; the Version of every qualifying tag
enumerated before `t` compares lower than that of `t`, and the Version of no
qualifying tag enumerated after `t` compares greater. -/
theorem fetch_exact (repo : Repository) (targetCommit : Commit) (pfx : Str)
    (refs : List Reference) (hTags : repo.Tags = .ok ⟨refs, none⟩)
    (hq : ∃ r ∈ refs, qualifying repo targetCommit pfx true r ≠ none) :
    ∃ pre t post v c, refs = pre ++ t :: post ∧
      qualifying repo targetCommit pfx true t = some (v, c) ∧
      FetchVersionTag repo targetCommit pfx true = (t.Short, v, some c, none) ∧
      c.Hash = targetCommit.Hash ∧
      (∀ u ∈ pre, ∀ v' c', qualifying repo targetCommit pfx true u = some (v', c') →
        v'.Compare v < 0) ∧
      (∀ u ∈ post, ∀ v' c', qualifying repo targetCommit pfx true u = some (v', c') →
        v'.Compare v ≤ 0) := by
  rcases exact_invariant repo targetCommit pfx refs with ⟨h1, _⟩ |
    ⟨pre, t, post, v, c, h1, h2, h3, h4, h5⟩
  · obtain ⟨r, hr, hne⟩ := hq
    exact absurd (h1 r hr) hne
  · refine ⟨pre, t, post, v, c, h1, h2, ?_, (stepTag_exact Found.init h2).1, h4, h5⟩
    rw [FetchVersionTag_ok repo targetCommit pfx true refs hTags, h3]

/-- C24 in the example repository, at commit `5` without prefix: of the four
qualifying tags `v1.4.0-alpha.1`, `v1.4.0-alpha.1+b2`, `v1.2.0` on that commit
the first one is returned. -/
theorem fetch_exact_witness :
    ∃ pre t post v c, exampleTags.map (fun t => tagRef t.1) = pre ++ t :: post ∧
      qualifying exampleRepo (exampleCommit 5) [] true t = some (v, c) ∧
      FetchVersionTag exampleRepo (exampleCommit 5) [] true = (t.Short, v, some c, none) ∧
      c.Hash = (exampleCommit 5).Hash ∧
      (∀ u ∈ pre, ∀ v' c', qualifying exampleRepo (exampleCommit 5) [] true u = some (v', c') →
        v'.Compare v < 0) ∧
      (∀ u ∈ post, ∀ v' c', qualifying exampleRepo (exampleCommit 5) [] true u = some (v', c') →
        v'.Compare v ≤ 0) :=
  fetch_exact exampleRepo (exampleCommit 5) [] _ rfl
    ⟨tagRef "v1.4.0-alpha.1".toList, by decide, by decide⟩

/-! ### Nearest mode -/

theorem foundAfter_of_none_qualifying (repo : Repository) (targetCommit : Commit) (pfx : Str)
    (exactCommit : Bool) (refs : List Reference)
    (h : ∀ r ∈ refs, qualifying repo targetCommit pfx exactCommit r = none) :
    foundAfter repo targetCommit pfx exactCommit refs = Found.init := by
  induction refs using List.reverseRecOn with
  | nil => rfl
  | append_singleton l u ih =>
    rw [foundAfter_snoc, stepTag_of_not_qualifying _ (h u (by simp))]
    exact ih (fun r hr => h r (by simp [hr]))

theorem nearest_invariant_time (repo : Repository) (targetCommit : Commit) (pfx : Str)
    (refs : List Reference) :
    ((∀ r ∈ refs, qualifying repo targetCommit pfx false r = none) ∧
      foundAfter repo targetCommit pfx false refs = Found.init) ∨
    (∃ t v c, t ∈ refs ∧ qualifying repo targetCommit pfx false t = some (v, c) ∧
      (foundAfter repo targetCommit pfx false refs).foundCommit = some c ∧
      (∀ u ∈ refs, ∀ v' c', qualifying repo targetCommit pfx false u = some (v', c') →
        c'.Committer.When ≤ c.Committer.When)) := by
  induction refs using List.reverseRecOn with
  | nil => exact Or.inl ⟨by simp, rfl⟩
  | append_singleton l u ih =>
    rw [foundAfter_snoc]
    cases hq : qualifying repo targetCommit pfx false u with
    | none =>
      rw [stepTag_of_not_qualifying _ hq]
      rcases ih with ⟨h1, h2⟩ | ⟨t, v, c, h1, h2, h3, h4⟩
      · left
        refine ⟨?_, h2⟩
        intro r hr
        rcases List.mem_append.mp hr with hr | hr
        · exact h1 r hr
        · rw [List.mem_singleton.mp hr]; exact hq
      · right
        refine ⟨t, v, c, by simp [h1], h2, h3, ?_⟩
        intro w hw v' c' hqw
        rcases List.mem_append.mp hw with hw | hw
        · exact h4 w hw v' c' hqw
        · rw [List.mem_singleton.mp hw, hq] at hqw
          exact absurd hqw (by simp)
    | some vc =>
      obtain ⟨vu, cu⟩ := vc
      obtain ⟨_, hstep⟩ := stepTag_nearest (foundAfter repo targetCommit pfx false l) hq
      rw [hstep]
      right
      rcases ih with ⟨h1, h2⟩ | ⟨t, v, c, h1, h2, h3, h4⟩
      · refine ⟨u, vu, cu, by simp, hq, by simp [h2, Found.init], ?_⟩
        intro w hw v' c' hqw
        rcases List.mem_append.mp hw with hw | hw
        · rw [h1 w hw] at hqw
          exact absurd hqw (by simp)
        · rw [List.mem_singleton.mp hw, hq] at hqw
          simp only [Option.some.injEq, Prod.mk.injEq] at hqw
          rw [← hqw.2]
      · simp only [h3]
        by_cases hlt : c.Committer.When < cu.Committer.When
        · refine ⟨u, vu, cu, by simp, hq, by simp [hlt], ?_⟩
          intro w hw v' c' hqw
          rcases List.mem_append.mp hw with hw | hw
          · have := h4 w hw v' c' hqw
            omega
          · rw [List.mem_singleton.mp hw, hq] at hqw
            simp only [Option.some.injEq, Prod.mk.injEq] at hqw
            rw [← hqw.2]
        · refine ⟨t, v, c, by simp [h1], h2, ?_, ?_⟩
          · simp only [hlt, if_false]
            split
            · rfl
            · exact h3
          · intro w hw v' c' hqw
            rcases List.mem_append.mp hw with hw | hw
            · exact h4 w hw v' c' hqw
            · rw [List.mem_singleton.mp hw, hq] at hqw
              simp only [Option.some.injEq, Prod.mk.injEq] at hqw
              rw [← hqw.2]; omega

/-- C25: in nearest mode, when the enumeration succeeds and at least one tag
qualifies, the commit that `FetchVersionTag` returns is the commit of a
qualifying tag, so its committer time is not after the target's, and that time
is greater than or equal to the committer time of the commit of every
qualifying tag. -/
theorem fetch_nearest (repo : Repository) (targetCommit : Commit) (pfx : Str)
    (refs : List Reference) (hTags : repo.Tags = .ok ⟨refs, none⟩)
    (hq : ∃ r ∈ refs, qualifying repo targetCommit pfx false r ≠ none) :
    ∃ t v c, t ∈ refs ∧ qualifying repo targetCommit pfx false t = some (v, c) ∧
      (FetchVersionTag repo targetCommit pfx false).2.2.1 = some c ∧
      (FetchVersionTag repo targetCommit pfx false).2.2.2 = none ∧
      c.Committer.When ≤ targetCommit.Committer.When ∧
      (∀ u ∈ refs, ∀ v' c', qualifying repo targetCommit pfx false u = some (v', c') →
        c'.Committer.When ≤ c.Committer.When) := by
  rcases nearest_invariant_time repo targetCommit pfx refs with ⟨h1, _⟩ |
    ⟨t, v, c, h1, h2, h3, h4⟩
  · obtain ⟨r, hr, hne⟩ := hq
    exact absurd (h1 r hr) hne
  · refine ⟨t, v, c, h1, h2, ?_, ?_, (stepTag_nearest Found.init h2).1, h4⟩
    · rw [FetchVersionTag_ok repo targetCommit pfx false refs hTags]
      exact h3
    · rw [FetchVersionTag_ok repo targetCommit pfx false refs hTags]

/-- C25 in the example repository, at commit `4` without prefix: the tags on
commit `5` are later than the target and the commit `3` of `v1.0.0` is returned. -/
theorem fetch_nearest_witness :
    ∃ t v c, t ∈ exampleTags.map (fun t => tagRef t.1) ∧
      qualifying exampleRepo (exampleCommit 4) [] false t = some (v, c) ∧
      (FetchVersionTag exampleRepo (exampleCommit 4) [] false).2.2.1 = some c ∧
      (FetchVersionTag exampleRepo (exampleCommit 4) [] false).2.2.2 = none ∧
      c.Committer.When ≤ (exampleCommit 4).Committer.When ∧
      (∀ u ∈ exampleTags.map (fun t => tagRef t.1), ∀ v' c',
        qualifying exampleRepo (exampleCommit 4) [] false u = some (v', c') →
          c'.Committer.When ≤ c.Committer.When) :=
  fetch_nearest exampleRepo (exampleCommit 4) [] _ rfl
    ⟨tagRef "v1.0.0".toList, by decide, by decide⟩

theorem FetchCommitObject_some {repo : Repository} {gitRef : Str} {c : Commit}
    (h : FetchCommitObject repo gitRef = (some c, none)) :
    ∃ h', repo.CommitObject h' = .ok c := by
  unfold FetchCommitObject at h
  simp only at h
  split at h
  · simp at h
  · rename_i hash _
    split at h
    · rename_i commit hco
      simp only [Prod.mk.injEq, Option.some.injEq, and_true] at h
      exact ⟨hash, by rw [hco, h]⟩
    · split at h
      · simp at h
      · rename_i target _
        split at h
        · simp at h
        · rename_i commit hco
          simp only [Prod.mk.injEq, Option.some.injEq, and_true] at h
          exact ⟨target, by rw [hco, h]⟩

theorem tagCommit_some {repo : Repository} {ref : Reference} {c : Commit}
    (h : tagCommit repo ref = some c) : FetchCommitObject repo ref.Name = (some c, none) := by
  unfold tagCommit at h
  split at h
  · rename_i c' heq
    simp only [Option.some.injEq] at h
    rw [heq, h]
  · simp at h

theorem qualifying_some {repo : Repository} {targetCommit : Commit} {pfx : Str}
    {exactCommit : Bool} {ref : Reference} {v : SemVer} {c : Commit}
    (h : qualifying repo targetCommit pfx exactCommit ref = some (v, c)) :
    candidateVersion pfx ref = some v ∧ tagCommit repo ref = some c := by
  unfold qualifying at h
  cases hv : candidateVersion pfx ref with
  | none => simp [hv] at h
  | some v' =>
    cases hc : tagCommit repo ref with
    | none => simp [hv, hc] at h
    | some c' =>
      simp only [hv, hc] at h
      cases exactCommit with
      | true =>
        by_cases hh : c'.Hash = targetCommit.Hash
        · simp only [hh, if_true, Option.some.injEq, Prod.mk.injEq] at h
          rw [h.1, h.2]; exact ⟨rfl, rfl⟩
        · simp [hh] at h
      | false =>
        by_cases ht : c'.Committer.When ≤ targetCommit.Committer.When
        · simp only [ht, if_true, Bool.false_eq_true, if_false, Option.some.injEq,
            Prod.mk.injEq] at h
          rw [h.1, h.2]; exact ⟨rfl, rfl⟩
        · simp [ht] at h

/-- In a consistent repository two tags that resolve to commits with the same
hash resolve to the same commit. -/
theorem tagCommit_eq_of_hash {repo : Repository} (hcons : repo.Consistent)
    {r1 r2 : Reference} {c1 c2 : Commit} (h1 : tagCommit repo r1 = some c1)
    (h2 : tagCommit repo r2 = some c2) (hh : c1.Hash = c2.Hash) : c1 = c2 := by
  obtain ⟨a1, e1⟩ := FetchCommitObject_some (tagCommit_some h1)
  obtain ⟨a2, e2⟩ := FetchCommitObject_some (tagCommit_some h2)
  have k1 := hcons a1 c1 e1
  have k2 := hcons a2 c2 e2
  have : a1 = a2 := by rw [← k1, ← k2, hh]
  rw [this, e2] at e1
  exact (Except.ok.inj e1).symm

theorem nearest_invariant_version (repo : Repository) (hcons : repo.Consistent)
    (targetCommit : Commit) (pfx : Str) (refs : List Reference) :
    ∀ c, (foundAfter repo targetCommit pfx false refs).foundCommit = some c →
      (∃ t ∈ refs, qualifying repo targetCommit pfx false t =
          some ((foundAfter repo targetCommit pfx false refs).foundVersion, c) ∧
        t.Short = (foundAfter repo targetCommit pfx false refs).foundTag) ∧
      (∀ u ∈ refs, ∀ v' c', qualifying repo targetCommit pfx false u = some (v', c') →
        c'.Hash = c.Hash →
          v'.Compare (foundAfter repo targetCommit pfx false refs).foundVersion ≤ 0) := by
  induction refs using List.reverseRecOn with
  | nil => intro c hc; simp [foundAfter, Found.init] at hc
  | append_singleton l u ih =>
    intro c
    rw [foundAfter_snoc]
    cases hq : qualifying repo targetCommit pfx false u with
    | none =>
      rw [stepTag_of_not_qualifying _ hq]
      intro hc
      obtain ⟨⟨t, ht, h1, h2⟩, h3⟩ := ih c hc
      refine ⟨⟨t, by simp [ht], h1, h2⟩, ?_⟩
      intro w hw v' c' hqw hh
      rcases List.mem_append.mp hw with hw | hw
      · exact h3 w hw v' c' hqw hh
      · rw [List.mem_singleton.mp hw, hq] at hqw
        exact absurd hqw (by simp)
    | some vc =>
      obtain ⟨vu, cu⟩ := vc
      obtain ⟨_, hstep⟩ := stepTag_nearest (foundAfter repo targetCommit pfx false l) hq
      rw [hstep]
      have hself : vu.Compare vu ≤ 0 := by rw [compare_self]
      cases hf : (foundAfter repo targetCommit pfx false l).foundCommit with
      | none =>
        simp only
        intro hc
        simp only [Option.some.injEq] at hc
        subst hc
        refine ⟨⟨u, by simp, hq, rfl⟩, ?_⟩
        intro w hw v' c' hqw hh
        rcases List.mem_append.mp hw with hw | hw
        · rcases nearest_invariant_time repo targetCommit pfx l with ⟨k1, _⟩ |
            ⟨t, v, c, _, _, k3, _⟩
          · rw [k1 w hw] at hqw
            exact absurd hqw (by simp)
          · rw [hf] at k3
            exact absurd k3 (by simp)
        · rw [List.mem_singleton.mp hw, hq] at hqw
          simp only [Option.some.injEq, Prod.mk.injEq] at hqw
          rw [← hqw.1]; exact hself
      | some fc =>
        obtain ⟨⟨t, ht, h1, h2⟩, h3⟩ := ih fc hf
        simp only
        by_cases hlt : fc.Committer.When < cu.Committer.When
        · simp only [hlt, if_true]
          intro hc
          simp only [Option.some.injEq] at hc
          subst hc
          refine ⟨⟨u, by simp, hq, rfl⟩, ?_⟩
          intro w hw v' c' hqw hh
          rcases List.mem_append.mp hw with hw | hw
          · exfalso
            have e := tagCommit_eq_of_hash hcons (qualifying_some hqw).2 (qualifying_some hq).2 hh
            rcases nearest_invariant_time repo targetCommit pfx l with ⟨k1, _⟩ |
              ⟨t', v'', c'', _, _, k3, k4⟩
            · rw [k1 w hw] at hqw
              exact absurd hqw (by simp)
            · rw [hf] at k3
              simp only [Option.some.injEq] at k3
              have := k4 w hw v' c' hqw
              rw [e, ← k3] at this
              omega
          · rw [List.mem_singleton.mp hw, hq] at hqw
            simp only [Option.some.injEq, Prod.mk.injEq] at hqw
            rw [← hqw.1]; exact hself
        · simp only [hlt, if_false]
          by_cases hrep : cu.Hash = fc.Hash ∧
              vu.Compare (foundAfter repo targetCommit pfx false l).foundVersion > 0
          · simp only [hrep, and_self, if_true, hf]
            intro hc
            simp only [Option.some.injEq] at hc
            subst hc
            have e : cu = fc :=
              tagCommit_eq_of_hash hcons (qualifying_some hq).2 (qualifying_some h1).2 hrep.1
            refine ⟨⟨u, by simp, by rw [hq, e], rfl⟩, ?_⟩
            intro w hw v' c' hqw hh
            rcases List.mem_append.mp hw with hw | hw
            · exact le_of_lt (compare_lt_of_le_of_lt (h3 w hw v' c' hqw hh)
                (compare_lt_of_gt hrep.2))
            · rw [List.mem_singleton.mp hw, hq] at hqw
              simp only [Option.some.injEq, Prod.mk.injEq] at hqw
              rw [← hqw.1]; exact hself
          · simp only [hrep, if_false]
            intro hc
            rw [hf] at hc
            simp only [Option.some.injEq] at hc
            subst hc
            refine ⟨⟨t, by simp [ht], h1, h2⟩, ?_⟩
            intro w hw v' c' hqw hh
            rcases List.mem_append.mp hw with hw | hw
            · exact h3 w hw v' c' hqw hh
            · rw [List.mem_singleton.mp hw, hq] at hqw
              simp only [Option.some.injEq, Prod.mk.injEq] at hqw
              rw [← hqw.1]
              rw [← hqw.2] at hh
              by_contra hcon
              exact hrep ⟨hh, by omega⟩

theorem exampleRepo_consistent : exampleRepo.Consistent := by
  intro h c hc
  simp only [exampleRepo] at hc
  split at hc
  · simp only [Except.ok.injEq] at hc
    rw [← hc]; rfl
  · simp at hc

/-- C26: in nearest mode, in a repository whose object store is consistent,
whatever the order of enumeration `refs` is, the Version that `FetchVersionTag`
returns compares greater than or equal to the Version of every qualifying tag
whose commit has the hash of the returned commit. -/
theorem fetch_nearest_version (repo : Repository) (targetCommit : Commit) (pfx : Str)
    (refs : List Reference) (hTags : repo.Tags = .ok ⟨refs, none⟩)
    (hcons : repo.Consistent) (name : Str) (v : SemVer) (c : Commit)
    (hres : FetchVersionTag repo targetCommit pfx false = (name, v, some c, none)) :
    ∀ u ∈ refs, ∀ v' c', qualifying repo targetCommit pfx false u = some (v', c') →
      c'.Hash = c.Hash → 0 ≤ v.Compare v' := by
  rw [FetchVersionTag_ok repo targetCommit pfx false refs hTags] at hres
  simp only [Prod.mk.injEq, and_true] at hres
  obtain ⟨_, hv, hc⟩ := hres
  intro u hu v' c' hq hh
  have := (nearest_invariant_version repo hcons targetCommit pfx refs c hc).2 u hu v' c' hq hh
  rw [hv] at this
  have hneg := compare_neg v v'
  omega

/-- C26 in the example repository, at commit `5` without prefix, where the tags
`v1.4.0-alpha.1`, `v1.4.0-alpha.1+b2` and `v1.2.0` are on the returned commit:
the returned Version `1.4.0-alpha.1` is not below that of the tag `v1.2.0`. -/
theorem fetch_nearest_version_witness :
    0 ≤ (SemVer.mk 1 4 0 "alpha.1".toList []).Compare (SemVer.mk 1 2 0 [] []) :=
  fetch_nearest_version exampleRepo (exampleCommit 5) [] _ rfl exampleRepo_consistent
    "v1.4.0-alpha.1".toList (SemVer.mk 1 4 0 "alpha.1".toList []) (exampleCommit 5)
    (by decide) (tagRef "v1.2.0".toList) (by decide) (SemVer.mk 1 2 0 [] []) (exampleCommit 5)
    (by decide) rfl

/-! ### The filter -/

theorem FetchCommitObject_filterTags (repo : Repository) (p : Reference → Bool)
    (gitRef : Str) : FetchCommitObject (filterTags repo p) gitRef = FetchCommitObject repo gitRef :=
  rfl

theorem stepTag_filterTags (repo : Repository) (p : Reference → Bool) (targetCommit : Commit)
    (pfx : Str) (exactCommit : Bool) :
    stepTag (filterTags repo p) targetCommit pfx exactCommit =
      stepTag repo targetCommit pfx exactCommit := by
  funext found ref
  simp [stepTag, tagCommit, FetchCommitObject_filterTags]

/-- Tags that leave the found variables alone can be dropped from the
enumeration. -/
theorem foldl_filter_of_fixed {α β : Type} (f : β → α → β) (p : α → Bool)
    (hfix : ∀ b a, p a = false → f b a = b) :
    ∀ (l : List α) (b : β), (l.filter p).foldl f b = l.foldl f b := by
  intro l
  induction l with
  | nil => intro b; rfl
  | cons a as ih =>
    intro b
    by_cases hp : p a = true
    · simp [List.filter, hp, ih]
    · have hp' : p a = false := by simpa using hp
      simp [List.filter, hp', ih, hfix b a hp']

theorem FetchVersionTag_filterTags (repo : Repository) (p : Reference → Bool)
    (targetCommit : Commit) (pfx : Str) (exactCommit : Bool)
    (hfix : ∀ found ref, p ref = false →
      stepTag repo targetCommit pfx exactCommit found ref = found) :
    FetchVersionTag (filterTags repo p) targetCommit pfx exactCommit =
      FetchVersionTag repo targetCommit pfx exactCommit := by
  cases hT : repo.Tags with
  | error err =>
    have hT' : (filterTags repo p).Tags = .error err := by simp [filterTags, hT]
    rw [(FetchVersionTag_fail _ targetCommit pfx exactCommit).1 err hT',
      (FetchVersionTag_fail _ targetCommit pfx exactCommit).1 err hT]
  | ok tags =>
    obtain ⟨refs, failure⟩ := tags
    have hT' : (filterTags repo p).Tags = .ok ⟨refs.filter p, failure⟩ := by
      simp [filterTags, hT]
    cases failure with
    | some err =>
      rw [(FetchVersionTag_fail _ targetCommit pfx exactCommit).2 _ err hT',
        (FetchVersionTag_fail _ targetCommit pfx exactCommit).2 _ err hT]
    | none =>
      rw [FetchVersionTag_ok _ targetCommit pfx exactCommit _ hT',
        FetchVersionTag_ok _ targetCommit pfx exactCommit _ hT]
      have : foundAfter (filterTags repo p) targetCommit pfx exactCommit (refs.filter p) =
          foundAfter repo targetCommit pfx exactCommit refs := by
        unfold foundAfter
        rw [stepTag_filterTags]
        exact foldl_filter_of_fixed _ p hfix refs Found.init
      rw [this]

theorem isCandidate_iff (pfx : Str) (ref : Reference) :
    (candidateVersion pfx ref).isSome = true ↔ IsCandidate pfx ref := by
  unfold candidateVersion versionStringOf IsCandidate
  by_cases hp : pfx = []
  · by_cases hm : (Parse ref.Short).2 = none
    · simp [hp, hm]
    · simp [hp, hm]
  · simp only [hp, if_false, false_and, false_or, ne_eq, not_false_eq_true, true_and]
    constructor
    · intro h
      by_cases hpre : (pfx ++ ['/']).isPrefixOf ref.Short = true
      · simp only [hpre, if_true] at h
        obtain ⟨t, ht⟩ := List.isPrefixOf_iff_prefix.mp hpre
        refine ⟨t, by rw [← ht]; simp, ?_⟩
        have hd : ref.Short.drop (pfx.length + 1) = t := by
          rw [← ht]
          have : pfx.length + 1 = (pfx ++ ['/']).length := by simp
          rw [this, List.drop_left]
        rw [hd] at h
        by_cases hm : (Parse t).2 = none
        · exact hm
        · simp [hm] at h
      · simp [hpre] at h
    · rintro ⟨rest, hs, hm⟩
      have hpre : (pfx ++ ['/']).isPrefixOf ref.Short = true := by
        rw [List.isPrefixOf_iff_prefix]
        exact ⟨rest, by rw [hs]; simp⟩
      have hd : ref.Short.drop (pfx.length + 1) = rest := by
        rw [hs]
        have : pfx ++ '/' :: rest = (pfx ++ ['/']) ++ rest := by simp
        rw [this]
        have : pfx.length + 1 = (pfx ++ ['/']).length := by simp
        rw [this, List.drop_left]
      simp [hpre, hd, hm]

theorem stepTag_cases (repo : Repository) (targetCommit : Commit) (pfx : Str)
    (exactCommit : Bool) (found : Found) (ref : Reference) :
    stepTag repo targetCommit pfx exactCommit found ref = found ∨
    ∃ v, candidateVersion pfx ref = some v ∧
      (stepTag repo targetCommit pfx exactCommit found ref).foundTag = ref.Short ∧
      (stepTag repo targetCommit pfx exactCommit found ref).foundVersion = v := by
  unfold stepTag
  cases hv : candidateVersion pfx ref with
  | none => left; rfl
  | some v =>
    cases hc : tagCommit repo ref with
    | none => left; rfl
    | some c =>
      simp only
      unfold selectCandidate
      simp only
      split
      · split
        · left; rfl
        · split
          · right; exact ⟨v, rfl, rfl, rfl⟩
          · left; rfl
      · split
        · left; rfl
        · split
          · right; exact ⟨v, rfl, rfl, rfl⟩
          · split
            · right; exact ⟨v, rfl, rfl, rfl⟩
            · split
              · right; exact ⟨v, rfl, rfl, rfl⟩
              · left; rfl

/-- What is found at the end is the short name and the Version of a tag that
passes the filter. -/
theorem found_is_candidate (repo : Repository) (targetCommit : Commit) (pfx : Str)
    (exactCommit : Bool) (refs : List Reference)
    (h : (foundAfter repo targetCommit pfx exactCommit refs).foundCommit ≠ none) :
    ∃ t ∈ refs, ∃ v, candidateVersion pfx t = some v ∧
      (foundAfter repo targetCommit pfx exactCommit refs).foundTag = t.Short ∧
      (foundAfter repo targetCommit pfx exactCommit refs).foundVersion = v := by
  induction refs using List.reverseRecOn with
  | nil => simp [foundAfter, Found.init] at h
  | append_singleton l u ih =>
    rw [foundAfter_snoc] at h ⊢
    rcases stepTag_cases repo targetCommit pfx exactCommit
      (foundAfter repo targetCommit pfx exactCommit l) u with hs | ⟨v, h1, h2, h3⟩
    · rw [hs] at h ⊢
      obtain ⟨t, ht, v, k1, k2, k3⟩ := ih h
      exact ⟨t, by simp [ht], v, k1, k2, k3⟩
    · exact ⟨u, by simp, v, h1, h2, h3⟩

/-- C27: tags that fail the filter have no influence on `FetchVersionTag`: the
tags that pass are the candidates of the specification, the result on the tags
of `repo` is the result on the candidates among them, and when the enumeration
succeeds no error is returned and a returned name is the short name of a
candidate. -/
theorem fetch_ignores_non_candidates (repo : Repository) (targetCommit : Commit) (pfx : Str)
    (exactCommit : Bool) :
    (∀ ref, (candidateVersion pfx ref).isSome = true ↔ IsCandidate pfx ref) ∧
    FetchVersionTag (filterTags repo (fun r => (candidateVersion pfx r).isSome))
        targetCommit pfx exactCommit =
      FetchVersionTag repo targetCommit pfx exactCommit ∧
    (∀ refs, repo.Tags = .ok ⟨refs, none⟩ →
      (FetchVersionTag repo targetCommit pfx exactCommit).2.2.2 = none ∧
      ((FetchVersionTag repo targetCommit pfx exactCommit).2.2.1 ≠ none →
        ∃ t ∈ refs, IsCandidate pfx t ∧
          (FetchVersionTag repo targetCommit pfx exactCommit).1 = t.Short)) := by
  refine ⟨isCandidate_iff pfx, ?_, ?_⟩
  · apply FetchVersionTag_filterTags
    intro found ref hp
    have hnone : candidateVersion pfx ref = none := by
      cases hv : candidateVersion pfx ref with
      | none => rfl
      | some v => simp [hv] at hp
    simp [stepTag, hnone]
  · intro refs hT
    rw [FetchVersionTag_ok repo targetCommit pfx exactCommit refs hT]
    refine ⟨rfl, fun hne => ?_⟩
    obtain ⟨t, ht, v, h1, h2, _⟩ := found_is_candidate repo targetCommit pfx exactCommit refs hne
    exact ⟨t, ht, (isCandidate_iff pfx t).mp (by simp [h1]), h2⟩

/-- C27 in the example repository, at commit `5` with the prefix `prefixed`: no
error, and the returned name is the short name of a candidate. -/
theorem fetch_ignores_non_candidates_witness :
    (FetchVersionTag exampleRepo (exampleCommit 5) "prefixed".toList false).2.2.2 = none ∧
    ∃ t ∈ exampleTags.map (fun t => tagRef t.1), IsCandidate "prefixed".toList t ∧
      (FetchVersionTag exampleRepo (exampleCommit 5) "prefixed".toList false).1 = t.Short :=
  have h := (fetch_ignores_non_candidates exampleRepo (exampleCommit 5)
    "prefixed".toList false).2.2 _ rfl
  ⟨h.1, h.2 (by decide)⟩

/-! ### No match, and errors -/

/-- C28: when the enumeration of the tags succeeds, `FetchVersionTag` returns the
empty result (empty name, zero Version, nil commit, nil error) exactly when no
tag qualifies in the selected mode, and it never returns an error. -/
theorem fetch_empty_iff (repo : Repository) (targetCommit : Commit) (pfx : Str)
    (exactCommit : Bool) (refs : List Reference) (hTags : repo.Tags = .ok ⟨refs, none⟩) :
    (FetchVersionTag repo targetCommit pfx exactCommit = ([], SemVer.zero, none, none) ↔
      ∀ r ∈ refs, qualifying repo targetCommit pfx exactCommit r = none) ∧
    (FetchVersionTag repo targetCommit pfx exactCommit).2.2.2 = none := by
  rw [FetchVersionTag_ok repo targetCommit pfx exactCommit refs hTags]
  refine ⟨⟨fun h => ?_, fun h => ?_⟩, rfl⟩
  · simp only [Prod.mk.injEq, and_true] at h
    have hnone := h.2.2
    cases exactCommit with
    | true =>
      rcases exact_invariant repo targetCommit pfx refs with ⟨h1, _⟩ |
        ⟨pre, t, post, v, c, _, _, h3, _, _⟩
      · exact h1
      · rw [h3] at hnone
        exact absurd hnone (by simp)
    | false =>
      rcases nearest_invariant_time repo targetCommit pfx refs with ⟨h1, _⟩ |
        ⟨t, v, c, _, _, h3, _⟩
      · exact h1
      · rw [h3] at hnone
        exact absurd hnone (by simp)
  · rw [foundAfter_of_none_qualifying repo targetCommit pfx exactCommit refs h]
    rfl

/-- C28 in the example repository, at commit `1` in nearest mode: no tag
qualifies and the result is empty. -/
theorem fetch_empty_iff_witness :
    (FetchVersionTag exampleRepo (exampleCommit 1) [] false = ([], SemVer.zero, none, none) ↔
      ∀ r ∈ exampleTags.map (fun t => tagRef t.1),
        qualifying exampleRepo (exampleCommit 1) [] false r = none) ∧
    (FetchVersionTag exampleRepo (exampleCommit 1) [] false).2.2.2 = none :=
  fetch_empty_iff exampleRepo (exampleCommit 1) [] false _ rfl

/-- C29 fails as stated for a tag whose commit cannot be resolved: in the example
repository the tag `v9.9.9` passes the filter and `FetchCommitObject` fails for
it, and `FetchVersionTag` returns a nil error in both modes. -/
theorem fetch_skips_unresolvable :
    tagRef "v9.9.9".toList ∈ exampleTags.map (fun t => tagRef t.1) ∧
    candidateVersion [] (tagRef "v9.9.9".toList) ≠ none ∧
    (FetchCommitObject exampleRepo (tagRef "v9.9.9".toList).Name).2 ≠ none ∧
    (FetchVersionTag exampleRepo (exampleCommit 5) [] true).2.2.2 = none ∧
    (FetchVersionTag exampleRepo (exampleCommit 5) [] false).2.2.2 = none := by
  decide

/-- C29, amended: a failure of the tag enumeration is propagated, `FetchVersionTag`
then returns a non-nil error and no result, both when `repo.Tags` fails and when
the iteration ends with an error; a tag whose commit cannot be resolved is
skipped without an error: when the enumeration succeeds the error is nil and
the result is the result on the tags that resolve. -/
theorem fetch_errors (repo : Repository) (targetCommit : Commit) (pfx : Str)
    (exactCommit : Bool) :
    (∀ err, repo.Tags = .error err →
      FetchVersionTag repo targetCommit pfx exactCommit =
        ([], SemVer.zero, none, some ("failed to retrieve tags: ".toList ++ err))) ∧
    (∀ refs err, repo.Tags = .ok ⟨refs, some err⟩ →
      FetchVersionTag repo targetCommit pfx exactCommit = ([], SemVer.zero, none, some err)) ∧
    (∀ refs, repo.Tags = .ok ⟨refs, none⟩ →
      (FetchVersionTag repo targetCommit pfx exactCommit).2.2.2 = none) ∧
    FetchVersionTag (filterTags repo (fun r => (tagCommit repo r).isSome))
        targetCommit pfx exactCommit =
      FetchVersionTag repo targetCommit pfx exactCommit := by
  refine ⟨(FetchVersionTag_fail repo targetCommit pfx exactCommit).1,
    (FetchVersionTag_fail repo targetCommit pfx exactCommit).2, ?_, ?_⟩
  · intro refs hT
    rw [FetchVersionTag_ok repo targetCommit pfx exactCommit refs hT]
  · apply FetchVersionTag_filterTags
    intro found ref hp
    have hnone : tagCommit repo ref = none := by
      cases hv : tagCommit repo ref with
      | none => rfl
      | some v => simp [hv] at hp
    unfold stepTag
    rw [hnone]
    cases candidateVersion pfx ref <;> rfl

/-- C29, amended, in a repository whose tags cannot be enumerated. -/
theorem fetch_errors_witness :
    FetchVersionTag brokenRepo (exampleCommit 5) [] false =
      ([], SemVer.zero, none,
        some ("failed to retrieve tags: ".toList ++ "permission denied".toList)) :=
  (fetch_errors brokenRepo (exampleCommit 5) [] false).1 "permission denied".toList rfl

/-! ### Creating a tag -/

/-- C30: when the tag creation succeeds, `CreateVersionTag` returns the name
`"v" + v.String` for an empty prefix and `pfx + "/" + "v" + v.String` otherwise,
and the one call of `repo.CreateTag` it makes is for that name and the hash of
the target commit. -/
theorem create_tag_name (repo : Repository) (targetCommit : Commit) (v : SemVer) (pfx : Str)
    (annotated : Bool)
    (h : (CreateVersionTag repo targetCommit v pfx annotated).1.2 = none) :
    (CreateVersionTag repo targetCommit v pfx annotated).1.1 =
      (if pfx = [] then 'v' :: v.String else pfx ++ '/' :: 'v' :: v.String) ∧
    ∃ opts, (CreateVersionTag repo targetCommit v pfx annotated).2 =
      [{ name := (CreateVersionTag repo targetCommit v pfx annotated).1.1,
         hash := targetCommit.Hash, opts := opts }] := by
  unfold CreateVersionTag at h ⊢
  simp only at h ⊢
  split at h
  · simp at h
  · by_cases hp : pfx = []
    · simp [hp]
    · simp [hp]

/-- C30 in the example repository, for `2.0.0+build.123` under the prefix
`release`. -/
theorem create_tag_name_witness :
    (CreateVersionTag exampleRepo (exampleCommit 5)
      (SemVer.mk 2 0 0 [] "build.123".toList) "release".toList false).1.1 =
      "release/v2.0.0+build.123".toList ∧
    ∃ opts, (CreateVersionTag exampleRepo (exampleCommit 5)
      (SemVer.mk 2 0 0 [] "build.123".toList) "release".toList false).2 =
      [{ name := (CreateVersionTag exampleRepo (exampleCommit 5)
          (SemVer.mk 2 0 0 [] "build.123".toList) "release".toList false).1.1,
         hash := (exampleCommit 5).Hash, opts := opts }] :=
  create_tag_name exampleRepo (exampleCommit 5) (SemVer.mk 2 0 0 [] "build.123".toList)
    "release".toList false (by decide)

/-- C31: with `annotated = true` `CreateVersionTag` asks for a tag whose message is
`"Version " + v.String()` and whose tagger is the committer of the target commit;
with `annotated = false` it passes no tag options at all. -/
theorem create_tag_options (repo : Repository) (targetCommit : Commit) (v : SemVer)
    (pfx : Str) :
    (CreateVersionTag repo targetCommit v pfx true).2.map CreateTagCall.opts =
      [some { Tagger := targetCommit.Committer, Message := "Version ".toList ++ v.String }] ∧
    (CreateVersionTag repo targetCommit v pfx false).2.map CreateTagCall.opts = [none] := by
  unfold CreateVersionTag
  constructor
  · simp only
    split <;> simp
  · simp only
    split <;> simp

/-- C32: `CreateVersionTag` returns an error exactly when the call of
`repo.CreateTag` does; it then returns the empty name and the error
`"failed to create tag: "` followed by the error of the repository; it makes one
call of `repo.CreateTag`, and nothing else of the repository has a part in what
it does. -/
theorem create_tag_fails_iff (repo : Repository) (targetCommit : Commit) (v : SemVer)
    (pfx : Str) (annotated : Bool) :
    ((CreateVersionTag repo targetCommit v pfx annotated).1.2 ≠ none ↔
      repo.CreateTag (if pfx = [] then 'v' :: v.String else pfx ++ '/' :: 'v' :: v.String)
        targetCommit.Hash
        (if annotated then
          some { Tagger := targetCommit.Committer, Message := "Version ".toList ++ v.String }
        else none) ≠ none) ∧
    (∀ err,
      repo.CreateTag (if pfx = [] then 'v' :: v.String else pfx ++ '/' :: 'v' :: v.String)
        targetCommit.Hash
        (if annotated then
          some { Tagger := targetCommit.Committer, Message := "Version ".toList ++ v.String }
        else none) = some err →
      (CreateVersionTag repo targetCommit v pfx annotated).1 =
        ([], some ("failed to create tag: ".toList ++ err))) ∧
    (CreateVersionTag repo targetCommit v pfx annotated).2.length = 1 ∧
    (∀ other : Repository, other.CreateTag = repo.CreateTag →
      CreateVersionTag other targetCommit v pfx annotated =
        CreateVersionTag repo targetCommit v pfx annotated) := by
  have hname : (if pfx ≠ [] then pfx ++ '/' :: 'v' :: v.String else 'v' :: v.String) =
      (if pfx = [] then 'v' :: v.String else pfx ++ '/' :: 'v' :: v.String) := by
    by_cases hp : pfx = [] <;> simp [hp]
  refine ⟨?_, ?_, ?_, ?_⟩
  · unfold CreateVersionTag
    simp only [hname]
    split
    · rename_i err hcall
      rw [hcall]
      simp
    · rename_i hcall
      rw [hcall]
  · intro err herr
    unfold CreateVersionTag
    simp only [hname, herr]
  · unfold CreateVersionTag
    simp only
    split <;> rfl
  · intro other h
    unfold CreateVersionTag
    rw [h]

/-- C32 in the example repository, where the tag `v1.0.0` exists already. -/
theorem create_tag_fails_iff_witness :
    (CreateVersionTag exampleRepo (exampleCommit 5) (SemVer.mk 1 0 0 [] []) [] false).1 =
      ([], some "failed to create tag: tag already exists".toList) :=
  (create_tag_fails_iff exampleRepo (exampleCommit 5) (SemVer.mk 1 0 0 [] []) [] false).2.1
    "tag already exists".toList (by decide)

/-! ### Resolving a reference -/

theorem FetchCommitObject_resolved {repo : Repository} {gitRef : Str} {h : Hash}
    (hr : resolveRef repo gitRef = .ok h) :
    FetchCommitObject repo gitRef =
      match repo.CommitObject h with
      | .ok commit => (some commit, none)
      | .error _ =>
        match repo.TagObject h with
        | .error err => (none, some ("failed to fetch commit object: ".toList ++ err))
        | .ok target =>
          match repo.CommitObject target with
          | .error err =>
            (none, some ("failed to fetch commit object from annotated tag: ".toList ++ err))
          | .ok commit => (some commit, none) := by
  unfold resolveRef at hr
  unfold FetchCommitObject
  by_cases hH : gitRef = "HEAD".toList
  · rw [if_pos hH] at hr
    simp only [if_pos hH, hr]
  · rw [if_neg hH] at hr
    simp only [if_neg hH, hr]

theorem FetchCommitObject_unresolved {repo : Repository} {gitRef : Str} {e : Str}
    (hr : resolveRef repo gitRef = .error e) :
    (FetchCommitObject repo gitRef).1 = none ∧ (FetchCommitObject repo gitRef).2 ≠ none := by
  unfold resolveRef at hr
  unfold FetchCommitObject
  by_cases hH : gitRef = "HEAD".toList
  · rw [if_pos hH] at hr
    rw [if_pos hH, hr]
    exact ⟨rfl, by simp⟩
  · rw [if_neg hH] at hr
    rw [if_neg hH, hr]
    exact ⟨rfl, by simp⟩

/-- C33: `FetchCommitObject` returns the commit the reference denotes: when the
reference resolves to a hash that names a commit, that commit; when the hash
names an annotated tag object whose target is a commit, the target commit; when
the reference does not resolve, or the hash names neither a commit nor such a
tag, a nil commit and an error. -/
theorem fetchCommitObject_spec (repo : Repository) (gitRef : Str) :
    (∀ h c, resolveRef repo gitRef = .ok h → repo.CommitObject h = .ok c →
      FetchCommitObject repo gitRef = (some c, none)) ∧
    (∀ h e t c, resolveRef repo gitRef = .ok h → repo.CommitObject h = .error e →
      repo.TagObject h = .ok t → repo.CommitObject t = .ok c →
      FetchCommitObject repo gitRef = (some c, none)) ∧
    (∀ e, resolveRef repo gitRef = .error e →
      (FetchCommitObject repo gitRef).1 = none ∧ (FetchCommitObject repo gitRef).2 ≠ none) ∧
    (∀ h e, resolveRef repo gitRef = .ok h → repo.CommitObject h = .error e →
      (∀ t c, repo.TagObject h = .ok t → repo.CommitObject t ≠ .ok c) →
      (FetchCommitObject repo gitRef).1 = none ∧ (FetchCommitObject repo gitRef).2 ≠ none) := by
  refine ⟨?_, ?_, ?_, ?_⟩
  · intro h c hr hc
    rw [FetchCommitObject_resolved hr, hc]
  · intro h e t c hr he ht hc
    rw [FetchCommitObject_resolved hr, he]
    simp only [ht, hc]
  · intro e hr
    exact FetchCommitObject_unresolved hr
  · intro h e hr he hno
    rw [FetchCommitObject_resolved hr, he]
    simp only
    cases ht : repo.TagObject h with
    | error err => simp
    | ok t =>
      simp only
      cases hc : repo.CommitObject t with
      | error err => simp
      | ok c => exact absurd hc (hno t c ht)

/-- C33 in the example repository: the tag `annotated-tag` resolves to the tag
object `33`, whose target is the commit `3`. -/
theorem fetchCommitObject_spec_witness :
    FetchCommitObject exampleRepo "refs/tags/annotated-tag".toList =
      (some (exampleCommit 3), none) :=
  (fetchCommitObject_spec exampleRepo "refs/tags/annotated-tag".toList).2.1 33
    "object not found".toList 3 (exampleCommit 3) rfl rfl rfl rfl

/-- C34 fails for a number above the largest `int`: `FullPattern` accepts
`0.9223372036854775808.0`, `Atoi` returns an error for its minor, and the `Minor`
that `Parse` returns is `9223372036854775807`, not the number written. -/
theorem parse_discards_range_error :
    MatchString FullPattern "0.9223372036854775808.0".toList = true ∧
    (Atoi "9223372036854775808".toList).2 = true ∧
    (Parse "0.9223372036854775808.0".toList).2 = none ∧
    (Parse "0.9223372036854775808.0".toList).1.Minor = 9223372036854775807 ∧
    (digitsVal "9223372036854775808".toList : Int) = 9223372036854775808 := by
  decide

/-! ## The commands -/

theorem ParseOrExit_ok {cmdName argName s : Str} (h : (Parse s).2 = none) :
    ParseOrExit cmdName argName s = .ok (Parse s).1 := by
  unfold ParseOrExit
  split
  · rename_i e heq
    rw [heq] at h
    simp at h
  · rename_i v heq
    rw [heq]

theorem compareEqCmd_parsed {a b : Str} (ha : (Parse a).2 = none) (hb : (Parse b).2 = none) :
    compareEqCmd [a, b] =
      if (Parse a).1.Compare (Parse b).1 = 0 then { stdout := [], exit := 0 }
      else { stdout := [], exit := 1 } := by
  unfold compareEqCmd CompareOrExit
  simp [ParseOrExit_ok ha, ParseOrExit_ok hb]

/-- C35 fails as stated for two versions that differ in their build metadata
only: `1.0.0+a` and `1.0.0+b` parse to different Versions, and
`semver compare eq` ends with the exit status `0`. -/
theorem compare_eq_ignores_build :
    (Parse "1.0.0+a".toList).2 = none ∧ (Parse "1.0.0+b".toList).2 = none ∧
    (Parse "1.0.0+a".toList).1 ≠ (Parse "1.0.0+b".toList).1 ∧
    (compareEqCmd ["1.0.0+a".toList, "1.0.0+b".toList]).exit = 0 := by
  decide

/-- C35, amended: for two parseable versions `semver compare eq` ends with the exit
status `0` exactly when `Compare` of the parsed Versions is `0`, and with the
exit status `1` for every other pair; when the numeric prerelease identifiers of
both fit an `int`, the exit status is `0` exactly when the parsed Versions agree
in major, minor, patch and prerelease.  The build metadata is not compared. -/
theorem compare_eq_exit (a b : Str) (ha : (Parse a).2 = none) (hb : (Parse b).2 = none) :
    ((compareEqCmd [a, b]).exit = 0 ↔ (Parse a).1.Compare (Parse b).1 = 0) ∧
    ((compareEqCmd [a, b]).exit = 1 ↔ (Parse a).1.Compare (Parse b).1 ≠ 0) ∧
    (NumbersFitInt (Parse a).1.PreRelease → NumbersFitInt (Parse b).1.PreRelease →
      ((compareEqCmd [a, b]).exit = 0 ↔
        (Parse a).1.Major = (Parse b).1.Major ∧ (Parse a).1.Minor = (Parse b).1.Minor ∧
        (Parse a).1.Patch = (Parse b).1.Patch ∧
        (Parse a).1.PreRelease = (Parse b).1.PreRelease)) := by
  have h0 : (compareEqCmd [a, b]).exit = 0 ↔ (Parse a).1.Compare (Parse b).1 = 0 := by
    rw [compareEqCmd_parsed ha hb]
    split <;> simp [*]
  refine ⟨h0, ?_, ?_⟩
  · rw [compareEqCmd_parsed ha hb]
    split <;> simp [*]
  · intro har hbr
    rw [h0]
    exact compare_zero_iff_in_range _ _ (Parse_valid ha).2.2.2.1 (Parse_valid hb).2.2.2.1
      har hbr

/-- C35, amended, at `1.2.3-rc.1+x` and `v1.2.3-rc.1+y`. -/
theorem compare_eq_exit_witness :
    (compareEqCmd ["1.2.3-rc.1+x".toList, "v1.2.3-rc.1+y".toList]).exit = 0 ↔
      (Parse "1.2.3-rc.1+x".toList).1.Compare (Parse "v1.2.3-rc.1+y".toList).1 = 0 :=
  (compare_eq_exit "1.2.3-rc.1+x".toList "v1.2.3-rc.1+y".toList (by decide) (by decide)).1

/-- C36 fails for a negative new value: `strconv.Atoi` accepts `-5`, and on the
arguments `1.2.3` and `-5` (the command line `semver set major -- 1.2.3 -5`, and
the same for `set minor` and `set patch`) the three commands print `-5.2.3`,
`1.-5.3` and `1.2.-5` with the exit status `0`; `Parse` rejects all three. -/
theorem set_field_negative :
    (Parse "1.2.3".toList).2 = none ∧ Atoi "-5".toList = (-5, false) ∧
    setMajorCmd ["1.2.3".toList, "-5".toList] = { stdout := "-5.2.3\n".toList, exit := 0 } ∧
    (Parse "-5.2.3".toList).2 ≠ none ∧
    setMinorCmd ["1.2.3".toList, "-5".toList] = { stdout := "1.-5.3\n".toList, exit := 0 } ∧
    (Parse "1.-5.3".toList).2 ≠ none ∧
    setPatchCmd ["1.2.3".toList, "-5".toList] = { stdout := "1.2.-5\n".toList, exit := 0 } ∧
    (Parse "1.2.-5".toList).2 ≠ none := by
  decide

/-! ## A bump gives a newer Version -/

theorem compare_one_of_coreLt {v r : SemVer} (h : v.coreLt r) : r.Compare v = 1 := by
  unfold SemVer.coreLt at h
  unfold SemVer.Compare
  split_ifs <;> first | rfl | omega

theorem coreLt_setPreRelease {v r : SemVer} {p : Str} (h : v.coreLt r)
    (hok : (r.SetPreRelease p).2 = none) : v.coreLt (r.SetPreRelease p).1 := by
  unfold SemVer.SetPreRelease at hok ⊢
  split at hok
  · simp at hok
  · rename_i hc
    rw [if_neg hc]
    exact h

theorem coreLt_setBuildMetadata {v r : SemVer} {b : Str} (h : v.coreLt r)
    (hok : (r.SetBuildMetadata b).2 = none) : v.coreLt (r.SetBuildMetadata b).1 := by
  unfold SemVer.SetBuildMetadata at hok ⊢
  split at hok
  · simp at hok
  · rename_i hc
    rw [if_neg hc]
    exact h

theorem wrapInt_succ_of_isInt {x : Int} (h : IsInt x) (h1 : x < maxInt) :
    wrapInt (x + 1) = x + 1 := by
  apply wrapInt_of_isInt
  unfold IsInt minInt maxInt at *
  omega

theorem coreLt_bump {v r : SemVer} (hM : IsInt v.Major) (hm : IsInt v.Minor)
    (hp : IsInt v.Patch) (h1 : v.Major < maxInt) (h2 : v.Minor < maxInt)
    (h3 : v.Patch < maxInt) (hr : r = v.BumpMajor ∨ r = v.BumpMinor ∨ r = v.BumpPatch) :
    v.coreLt r := by
  have e1 := wrapInt_succ_of_isInt hM h1
  have e2 := wrapInt_succ_of_isInt hm h2
  have e3 := wrapInt_succ_of_isInt hp h3
  unfold SemVer.coreLt
  rcases hr with hr | hr | hr
  · rw [hr]
    simp only [SemVer.BumpMajor, e1]
    omega
  · rw [hr]
    simp only [SemVer.BumpMinor, e2]
    exact Or.inr ⟨trivial, Or.inl (by omega)⟩
  · rw [hr]
    simp only [SemVer.BumpPatch, e3]
    exact Or.inr ⟨trivial, Or.inr ⟨trivial, by omega⟩⟩

/-- C37: for a Version `v` whose major, minor and patch are below the largest
`int`, each of `BumpMajor`, `BumpMinor` and `BumpPatch` gives a Version `r` with
`r.Compare v = 1`, and the result stays `1` after a successful `SetPreRelease`,
a successful `SetBuildMetadata`, or both in turn, whatever the prerelease of
`v` is. -/
theorem bump_is_newer (v : SemVer) (hM : IsInt v.Major) (hm : IsInt v.Minor)
    (hp : IsInt v.Patch) (h1 : v.Major < maxInt) (h2 : v.Minor < maxInt)
    (h3 : v.Patch < maxInt) (r : SemVer)
    (hr : r = v.BumpMajor ∨ r = v.BumpMinor ∨ r = v.BumpPatch) (p b : Str) :
    r.Compare v = 1 ∧
    ((r.SetPreRelease p).2 = none → (r.SetPreRelease p).1.Compare v = 1) ∧
    ((r.SetBuildMetadata b).2 = none → (r.SetBuildMetadata b).1.Compare v = 1) ∧
    ((r.SetPreRelease p).2 = none → ((r.SetPreRelease p).1.SetBuildMetadata b).2 = none →
      ((r.SetPreRelease p).1.SetBuildMetadata b).1.Compare v = 1) := by
  have hlt := coreLt_bump hM hm hp h1 h2 h3 hr
  exact ⟨compare_one_of_coreLt hlt,
    fun hok => compare_one_of_coreLt (coreLt_setPreRelease hlt hok),
    fun hok => compare_one_of_coreLt (coreLt_setBuildMetadata hlt hok),
    fun hok hok' =>
      compare_one_of_coreLt (coreLt_setBuildMetadata (coreLt_setPreRelease hlt hok) hok')⟩

/-- C37 at `1.2.3-rc.1`, bumped in its minor, then given the prerelease `alpha`
and the build metadata `x.1`: the result `1.3.0-alpha+x.1` is newer. -/
theorem bump_is_newer_witness :
    (SemVer.mk 1 2 3 "rc.1".toList []).BumpMinor.Compare (SemVer.mk 1 2 3 "rc.1".toList []) = 1 ∧
    (((SemVer.mk 1 2 3 "rc.1".toList []).BumpMinor.SetPreRelease "alpha".toList).1.SetBuildMetadata
      "x.1".toList).1.Compare (SemVer.mk 1 2 3 "rc.1".toList []) = 1 :=
  have h := bump_is_newer (SemVer.mk 1 2 3 "rc.1".toList []) (by decide) (by decide) (by decide)
    (by decide) (by decide) (by decide) (SemVer.mk 1 2 3 "rc.1".toList []).BumpMinor
    (Or.inr (Or.inl rfl)) "alpha".toList "x.1".toList
  ⟨h.1, h.2.2.2 (by decide) (by decide)⟩

/-! ## A created tag is a candidate -/

theorem Parse_v_String_of_valid {v : SemVer} (h : v.Valid) :
    Parse ('v' :: v.String) = (v, none) := by
  obtain ⟨_, a, b, c, d, e, f⟩ := String_hasParts v h
  have hp : HasParts ('v' :: v.String) ['v'] (formatInt v.Major) (formatInt v.Minor)
      (formatInt v.Patch) v.PreRelease v.BuildMetadata :=
    ⟨Or.inr rfl, a, b, c, d, e, congrArg (List.cons 'v') f⟩
  rw [Parse_of_parts hp]
  obtain ⟨⟨h1, h1'⟩, ⟨h2, h2'⟩, ⟨h3, h3'⟩, _, _⟩ := h
  rw [Atoi_formatInt _ h1 h1', Atoi_formatInt _ h2 h2', Atoi_formatInt _ h3 h3']

theorem hasPrefix_append (p rest : Str) : HasPrefix (p ++ rest) p = true := by
  unfold HasPrefix
  exact List.isPrefixOf_iff_prefix.mpr (List.prefix_append p rest)

theorem trimPrefix_append (p rest : Str) : TrimPrefix (p ++ rest) p = rest := by
  unfold TrimPrefix
  rw [if_pos (hasPrefix_append p rest)]
  simp

theorem CreateVersionTag_calls (repo : Repository) (targetCommit : Commit) (v : SemVer)
    (pfx : Str) (annotated : Bool) :
    (CreateVersionTag repo targetCommit v pfx annotated).2 =
      [{ name := if pfx = [] then 'v' :: v.String else pfx ++ '/' :: 'v' :: v.String,
         hash := targetCommit.Hash,
         opts := if annotated then
             some { Tagger := targetCommit.Committer, Message := "Version ".toList ++ v.String }
           else none }] := by
  have hname : (if pfx ≠ [] then pfx ++ '/' :: 'v' :: v.String else 'v' :: v.String) =
      (if pfx = [] then 'v' :: v.String else pfx ++ '/' :: 'v' :: v.String) := by
    by_cases hp : pfx = [] <;> simp [hp]
  unfold CreateVersionTag
  simp only [hname]
  split <;> rfl

/-- C38: for a valid Version `v` and any prefix, the name that `CreateVersionTag`
builds passes the prefix test of `FetchVersionTag`, and `Parse` accepts the
version string that the filter takes from it (what follows `pfx + "/"`, or the
whole name when the prefix is empty) and returns `v`: a tag of that name is a
candidate with the Version `v`. -/
theorem created_name_passes_filter (repo : Repository) (targetCommit : Commit) (v : SemVer)
    (pfx : Str) (annotated : Bool) (hv : v.Valid) :
    ∀ call ∈ (CreateVersionTag repo targetCommit v pfx annotated).2,
      (pfx ≠ [] → HasPrefix call.name (pfx ++ ['/']) = true) ∧
      Parse (if pfx ≠ [] then TrimPrefix call.name (pfx ++ ['/']) else call.name) = (v, none) ∧
      ∀ refName, candidateVersion pfx { Name := refName, Short := call.name } = some v := by
  intro call hcall
  rw [CreateVersionTag_calls, List.mem_singleton] at hcall
  subst hcall
  by_cases hp : pfx = []
  · subst hp
    simp [candidateVersion, versionStringOf, Parse_v_String_of_valid hv]
  · have hname : pfx ++ '/' :: 'v' :: v.String = (pfx ++ ['/']) ++ ('v' :: v.String) := by simp
    have hlen : pfx.length + 1 = (pfx ++ ['/']).length := by simp
    have hpre := hasPrefix_append (pfx ++ ['/']) ('v' :: v.String)
    have htrim := trimPrefix_append (pfx ++ ['/']) ('v' :: v.String)
    simp only [if_neg hp, ne_eq, hp, not_false_eq_true, if_true, if_false, true_implies]
    rw [hname]
    refine ⟨hpre, ?_, ?_⟩
    · rw [htrim]
      exact Parse_v_String_of_valid hv
    · intro refName
      unfold candidateVersion versionStringOf
      unfold HasPrefix at hpre
      simp only [if_neg hp, hpre, if_true, hlen, List.drop_left, Parse_v_String_of_valid hv]

/-- C38 for `2.0.0+build.123` under the prefix `release`: the tag
`release/v2.0.0+build.123` is a candidate with that Version. -/
theorem created_name_passes_filter_witness :
    candidateVersion "release".toList (tagRef "release/v2.0.0+build.123".toList) =
      some (SemVer.mk 2 0 0 [] "build.123".toList) :=
  (created_name_passes_filter exampleRepo (exampleCommit 5)
    (SemVer.mk 2 0 0 [] "build.123".toList) "release".toList false
    ⟨by decide, by decide, by decide, Or.inl rfl,
      Or.inr ⟨["build".toList, "123".toList], by decide, by decide, by decide⟩⟩
    { name := "release/v2.0.0+build.123".toList, hash := 5, opts := none }
    (by decide)).2.2 _

/-! ## The result belongs to one tag -/

theorem candidate_short_ne_nil {pfx : Str} {ref : Reference} {v : SemVer}
    (h : candidateVersion pfx ref = some v) : ref.Short ≠ [] := by
  intro hs
  have hnil : (Parse []).2 ≠ none := by decide
  unfold candidateVersion versionStringOf at h
  rw [hs] at h
  by_cases hp : pfx = []
  · simp [hp, hnil] at h
  · simp [hp] at h

theorem candidate_parse {pfx : Str} {ref : Reference} {v : SemVer}
    (h : candidateVersion pfx ref = some v) :
    Parse (if pfx ≠ [] then TrimPrefix ref.Short (pfx ++ ['/']) else ref.Short) = (v, none) := by
  unfold candidateVersion versionStringOf at h
  by_cases hp : pfx = []
  · simp only [hp, if_true] at h
    simp only [hp, ne_eq, not_true_eq_false, if_false]
    split at h
    · rename_i hok
      simp only [Option.some.injEq] at h
      exact Prod.ext h hok
    · simp at h
  · simp only [hp, if_false] at h
    simp only [ne_eq, hp, not_false_eq_true, if_true]
    by_cases hpre : (pfx ++ ['/']).isPrefixOf ref.Short = true
    · simp only [hpre, if_true] at h
      have htrim : TrimPrefix ref.Short (pfx ++ ['/']) = ref.Short.drop (pfx.length + 1) := by
        unfold TrimPrefix HasPrefix
        rw [if_pos hpre]
        simp
      rw [htrim]
      split at h
      · rename_i hok
        simp only [Option.some.injEq] at h
        exact Prod.ext h hok
      · simp at h
    · simp [hpre] at h

/-- What is found belongs to one tag: nothing is found, or the three variables
are the short name, the Version and the commit of one qualifying tag. -/
theorem found_one_tag (repo : Repository) (hcons : repo.Consistent) (targetCommit : Commit)
    (pfx : Str) (exactCommit : Bool) (refs : List Reference) :
    foundAfter repo targetCommit pfx exactCommit refs = Found.init ∨
    ∃ t ∈ refs, ∃ v c, qualifying repo targetCommit pfx exactCommit t = some (v, c) ∧
      foundAfter repo targetCommit pfx exactCommit refs =
        { foundTag := t.Short, foundVersion := v, foundCommit := some c } := by
  cases exactCommit with
  | true =>
    rcases exact_invariant repo targetCommit pfx refs with ⟨_, h⟩ |
      ⟨pre, t, post, v, c, hrefs, hq, hf, _, _⟩
    · exact Or.inl h
    · exact Or.inr ⟨t, by simp [hrefs], v, c, hq, hf⟩
  | false =>
    rcases nearest_invariant_time repo targetCommit pfx refs with ⟨_, h⟩ |
      ⟨_, _, c, _, _, hc, _⟩
    · exact Or.inl h
    · obtain ⟨⟨t, ht, hq, hshort⟩, _⟩ :=
        nearest_invariant_version repo hcons targetCommit pfx refs c hc
      refine Or.inr ⟨t, ht, _, c, hq, ?_⟩
      rw [hshort, ← hc]

/-- C40: the three components of a non-empty result of `FetchVersionTag` belong to
one enumerated tag: the name is its short name, the Version is what `Parse`
returns for that name without `pfx + "/"` (for the whole name when the prefix
is empty), and the commit is the commit the tag resolves to; and the name is
non-empty exactly when the commit is not nil. -/
theorem fetch_result_one_tag (repo : Repository) (hcons : repo.Consistent)
    (targetCommit : Commit) (pfx : Str) (exactCommit : Bool) :
    ((FetchVersionTag repo targetCommit pfx exactCommit).1 ≠ [] ↔
      (FetchVersionTag repo targetCommit pfx exactCommit).2.2.1 ≠ none) ∧
    ∀ c, (FetchVersionTag repo targetCommit pfx exactCommit).2.2.1 = some c →
      ∃ refs, repo.Tags = .ok ⟨refs, none⟩ ∧ ∃ t ∈ refs,
        (FetchVersionTag repo targetCommit pfx exactCommit).1 = t.Short ∧
        Parse (if pfx ≠ [] then TrimPrefix t.Short (pfx ++ ['/']) else t.Short) =
          ((FetchVersionTag repo targetCommit pfx exactCommit).2.1, none) ∧
        FetchCommitObject repo t.Name = (some c, none) := by
  cases hT : repo.Tags with
  | error err =>
    rw [(FetchVersionTag_fail repo targetCommit pfx exactCommit).1 err hT]
    simp
  | ok tags =>
    obtain ⟨refs, failure⟩ := tags
    cases failure with
    | some err =>
      rw [(FetchVersionTag_fail repo targetCommit pfx exactCommit).2 refs err hT]
      simp
    | none =>
      rw [FetchVersionTag_ok repo targetCommit pfx exactCommit refs hT]
      rcases found_one_tag repo hcons targetCommit pfx exactCommit refs with h |
        ⟨t, ht, v, c, hq, h⟩
      · rw [h]
        simp [Found.init]
      · rw [h]
        obtain ⟨hv, hc⟩ := qualifying_some hq
        refine ⟨⟨fun _ => by simp, fun _ => candidate_short_ne_nil hv⟩, ?_⟩
        intro c' hc'
        simp only [Option.some.injEq] at hc'
        subst hc'
        exact ⟨refs, rfl, t, ht, rfl, candidate_parse hv, tagCommit_some hc⟩

/-- C40 in the example repository, at commit `5` in nearest mode without prefix:
name, Version and commit are those of the tag `v1.4.0-alpha.1`. -/
theorem fetch_result_one_tag_witness :
    ∃ refs, exampleRepo.Tags = .ok ⟨refs, none⟩ ∧ ∃ t ∈ refs,
      (FetchVersionTag exampleRepo (exampleCommit 5) [] false).1 = t.Short ∧
      Parse (if ([] : Str) ≠ [] then TrimPrefix t.Short ([] ++ ['/']) else t.Short) =
        ((FetchVersionTag exampleRepo (exampleCommit 5) [] false).2.1, none) ∧
      FetchCommitObject exampleRepo t.Name = (some (exampleCommit 5), none) :=
  (fetch_result_one_tag exampleRepo exampleRepo_consistent (exampleCommit 5) [] false).2
    (exampleCommit 5) (by decide)

/-! ## The order of enumeration -/

/-- C39 fails where two numeric prerelease identifiers are above the largest
`int`: with the tags `v1.0.0-9223372036854775807` and
`v1.0.0-9223372036854775808` on one commit, the two orders of enumeration give
Versions that compare as `0` and the same commit, but different prereleases, in
exact mode and in nearest mode. -/
theorem fetch_order_overflow :
    (FetchVersionTag (taggedAtFive ["v1.0.0-9223372036854775807".toList,
        "v1.0.0-9223372036854775808".toList]) (exampleCommit 5) [] true).2.1.PreRelease =
      "9223372036854775807".toList ∧
    (FetchVersionTag (taggedAtFive ["v1.0.0-9223372036854775808".toList,
        "v1.0.0-9223372036854775807".toList]) (exampleCommit 5) [] true).2.1.PreRelease =
      "9223372036854775808".toList ∧
    (FetchVersionTag (taggedAtFive ["v1.0.0-9223372036854775807".toList,
        "v1.0.0-9223372036854775808".toList]) (exampleCommit 5) [] false).2.1.PreRelease =
      "9223372036854775807".toList ∧
    (FetchVersionTag (taggedAtFive ["v1.0.0-9223372036854775808".toList,
        "v1.0.0-9223372036854775807".toList]) (exampleCommit 5) [] false).2.1.PreRelease =
      "9223372036854775808".toList ∧
    (SemVer.mk 1 0 0 "9223372036854775807".toList []).Compare
      (SemVer.mk 1 0 0 "9223372036854775808".toList []) = 0 ∧
    (FetchVersionTag (taggedAtFive ["v1.0.0-9223372036854775807".toList,
        "v1.0.0-9223372036854775808".toList]) (exampleCommit 5) [] true).2.2.1 =
      some (exampleCommit 5) ∧
    (FetchVersionTag (taggedAtFive ["v1.0.0-9223372036854775808".toList,
        "v1.0.0-9223372036854775807".toList]) (exampleCommit 5) [] true).2.2.1 =
      some (exampleCommit 5) := by
  decide

/-- What the selection guarantees in a consistent object store, in both modes:
nothing qualifies and nothing is found, or what is found is a qualifying tag
whose commit is not earlier than that of any qualifying tag and whose Version
is not below that of any qualifying tag on a commit of the same hash. -/
theorem selection_spec (repo : Repository) (hcons : repo.Consistent) (targetCommit : Commit)
    (pfx : Str) (exactCommit : Bool) (refs : List Reference) :
    ((∀ r ∈ refs, qualifying repo targetCommit pfx exactCommit r = none) ∧
      foundAfter repo targetCommit pfx exactCommit refs = Found.init) ∨
    (∃ t ∈ refs, ∃ v c, qualifying repo targetCommit pfx exactCommit t = some (v, c) ∧
      foundAfter repo targetCommit pfx exactCommit refs =
        { foundTag := t.Short, foundVersion := v, foundCommit := some c } ∧
      ∀ u ∈ refs, ∀ v' c', qualifying repo targetCommit pfx exactCommit u = some (v', c') →
        c'.Committer.When ≤ c.Committer.When ∧ (c'.Hash = c.Hash → v'.Compare v ≤ 0)) := by
  cases exactCommit with
  | true =>
    rcases exact_invariant repo targetCommit pfx refs with h |
      ⟨pre, t, post, v, c, hrefs, hq, hf, hpre, hpost⟩
    · exact Or.inl h
    · refine Or.inr ⟨t, by simp [hrefs], v, c, hq, hf, ?_⟩
      intro u hu v' c' hq'
      have hc : c' = c :=
        tagCommit_eq_of_hash hcons (qualifying_some hq').2 (qualifying_some hq).2
          ((stepTag_exact Found.init hq').1.trans (stepTag_exact Found.init hq).1.symm)
      refine ⟨by rw [hc], fun _ => ?_⟩
      rw [hrefs] at hu
      rcases List.mem_append.mp hu with hu | hu
      · exact le_of_lt (hpre u hu v' c' hq')
      · rcases List.mem_cons.mp hu with hu | hu
        · rw [hu, hq] at hq'
          simp only [Option.some.injEq, Prod.mk.injEq] at hq'
          rw [← hq'.1, compare_self]
        · exact hpost u hu v' c' hq'
  | false =>
    rcases nearest_invariant_time repo targetCommit pfx refs with h |
      ⟨_, _, c, _, _, hc, htime⟩
    · exact Or.inl h
    · obtain ⟨⟨t, ht, hq, hshort⟩, hver⟩ :=
        nearest_invariant_version repo hcons targetCommit pfx refs c hc
      refine Or.inr ⟨t, ht, _, c, hq, by rw [hshort, ← hc], ?_⟩
      intro u hu v' c' hq'
      exact ⟨htime u hu v' c' hq', hver u hu v' c' hq'⟩

/-- Two orders of enumeration of the same tags, where qualifying tags with equal
commit times have equal commit hashes: nothing is found in either, or the
commits found have the same hash and the Versions found compare as `0`. -/
theorem foundAfter_perm (repo : Repository) (hcons : repo.Consistent) (targetCommit : Commit)
    (pfx : Str) (exactCommit : Bool) (refs1 refs2 : List Reference)
    (hperm : refs1.Perm refs2)
    (htime : ∀ u ∈ refs1, ∀ u' ∈ refs1, ∀ v c v' c',
      qualifying repo targetCommit pfx exactCommit u = some (v, c) →
      qualifying repo targetCommit pfx exactCommit u' = some (v', c') →
      c.Committer.When = c'.Committer.When → c.Hash = c'.Hash) :
    (foundAfter repo targetCommit pfx exactCommit refs1 = Found.init ∧
      foundAfter repo targetCommit pfx exactCommit refs2 = Found.init) ∨
    (∃ c1 c2, (foundAfter repo targetCommit pfx exactCommit refs1).foundCommit = some c1 ∧
      (foundAfter repo targetCommit pfx exactCommit refs2).foundCommit = some c2 ∧
      c1.Hash = c2.Hash ∧
      (foundAfter repo targetCommit pfx exactCommit refs1).foundVersion.Compare
        (foundAfter repo targetCommit pfx exactCommit refs2).foundVersion = 0) := by
  rcases selection_spec repo hcons targetCommit pfx exactCommit refs1 with ⟨hn1, hf1⟩ |
    ⟨t1, ht1, v1, c1, hq1, hf1, hmax1⟩
  · rcases selection_spec repo hcons targetCommit pfx exactCommit refs2 with ⟨_, hf2⟩ |
      ⟨t2, ht2, v2, c2, hq2, _, _⟩
    · exact Or.inl ⟨hf1, hf2⟩
    · have := hn1 t2 (hperm.mem_iff.mpr ht2)
      rw [hq2] at this
      exact absurd this (by simp)
  · rcases selection_spec repo hcons targetCommit pfx exactCommit refs2 with ⟨hn2, _⟩ |
      ⟨t2, ht2, v2, c2, hq2, hf2, hmax2⟩
    · have := hn2 t1 (hperm.mem_iff.mp ht1)
      rw [hq1] at this
      exact absurd this (by simp)
    · have ht2' : t2 ∈ refs1 := hperm.mem_iff.mpr ht2
      have ht1' : t1 ∈ refs2 := hperm.mem_iff.mp ht1
      have hle1 := (hmax1 t2 ht2' v2 c2 hq2).1
      have hle2 := (hmax2 t1 ht1' v1 c1 hq1).1
      have hhash : c1.Hash = c2.Hash :=
        htime t1 ht1 t2 ht2' v1 c1 v2 c2 hq1 hq2 (le_antisymm hle2 hle1)
      have h21 := (hmax1 t2 ht2' v2 c2 hq2).2 hhash.symm
      have h12 := (hmax2 t1 ht1' v1 c1 hq1).2 hhash
      refine Or.inr ⟨c1, c2, by rw [hf1], by rw [hf2], hhash, ?_⟩
      rw [hf1, hf2]
      have hneg := compare_neg v1 v2
      show v1.Compare v2 = 0
      omega

theorem foundAfter_withTags (repo : Repository) (tags : List Reference) (targetCommit : Commit)
    (pfx : Str) (exactCommit : Bool) (refs : List Reference) :
    foundAfter (withTags repo tags) targetCommit pfx exactCommit refs =
      foundAfter repo targetCommit pfx exactCommit refs := by
  have hstep : stepTag (withTags repo tags) targetCommit pfx exactCommit =
      stepTag repo targetCommit pfx exactCommit := by
    funext found ref
    rfl
  unfold foundAfter
  rw [hstep]

/-- Independence of the order up to `Compare`: in a consistent object store, for
two orders of enumeration of the same tags in which qualifying tags with equal commit times
have equal commit hashes, `FetchVersionTag` returns no error in either, and
either the empty result in both or commits with the same hash and Versions that
compare as `0`. -/
theorem fetch_order_independent (repo : Repository) (hcons : repo.Consistent)
    (targetCommit : Commit) (pfx : Str) (exactCommit : Bool) (refs1 refs2 : List Reference)
    (hperm : refs1.Perm refs2)
    (htime : ∀ u ∈ refs1, ∀ u' ∈ refs1, ∀ v c v' c',
      qualifying repo targetCommit pfx exactCommit u = some (v, c) →
      qualifying repo targetCommit pfx exactCommit u' = some (v', c') →
      c.Committer.When = c'.Committer.When → c.Hash = c'.Hash) :
    (FetchVersionTag (withTags repo refs1) targetCommit pfx exactCommit =
        ([], SemVer.zero, none, none) ∧
      FetchVersionTag (withTags repo refs2) targetCommit pfx exactCommit =
        ([], SemVer.zero, none, none)) ∨
    (∃ n1 v1 c1 n2 v2 c2,
      FetchVersionTag (withTags repo refs1) targetCommit pfx exactCommit =
        (n1, v1, some c1, none) ∧
      FetchVersionTag (withTags repo refs2) targetCommit pfx exactCommit =
        (n2, v2, some c2, none) ∧
      c1.Hash = c2.Hash ∧ v1.Compare v2 = 0) := by
  rw [FetchVersionTag_ok (withTags repo refs1) targetCommit pfx exactCommit refs1 rfl,
    FetchVersionTag_ok (withTags repo refs2) targetCommit pfx exactCommit refs2 rfl,
    foundAfter_withTags, foundAfter_withTags]
  rcases foundAfter_perm repo hcons targetCommit pfx exactCommit refs1 refs2 hperm htime with
    ⟨h1, h2⟩ | ⟨c1, c2, h1, h2, hh, hv⟩
  · left
    rw [h1, h2]
    exact ⟨rfl, rfl⟩
  · right
    exact ⟨_, _, c1, _, _, c2, by rw [h1], by rw [h2], hh, hv⟩

end Semver
